import Mathlib

/-!
# Articulation points by depth-first search (`articulation2.cpp`)

A shallow embedding of the program: the global arrays `parent`, `low`, `dfn`,
`articulation`, `visited` and the counter `time` form the `State`; `dfnlow` and
`findarticulationpoints` are state transformers; `main` maps the numbers read from
standard input to the text written to standard output.

The C recursion of `dfnlow` is modelled with a fuel argument that bounds the depth of
the call stack; `findarticulationpoints` starts every root call with fuel `V`, and
`dfnlowOrd_total` / `findarticulationpoints_total` show that this is always enough.
The machine integers are modelled by `Int`. The local `children` is at most `V`. The
global `time` is never reset: one call of `findarticulationpoints` increments it exactly
`V` times, so its `Int` value is the value of the 32-bit `int` of the program as long as
`0 ≤ time` and `time + V ≤ INT_MAX` hold at entry (`findarticulationpointsWrap_eq`; the
initial globals have `time = 0`, and a run ends with `time` grown by `V`,
`findarticulationpoints_next`). The statements that depend on the values of `time`, `dfn`
or `low` carry this bound as a hypothesis.

Properties of intermediate states, of the calls and of the array subscripts are stated
on `findarticulationpointsLog`, the same program with a log of what it does (`Event`);
erasing the log gives `findarticulationpoints` (`dfnlowLog_fst`,
`findarticulationpointsLog_facts`).
-/

namespace Articulation2

/-! ## Data model -/

/-- Capacity of the global arrays and of the adjacency matrix (`#define max 100`). -/
def max : Nat := 100

/-- The adjacency matrix `int adj[max][max]`, read as `adj u v`. -/
abbrev Adj := Nat → Nat → Int

/-- The global variables of the program. -/
structure State where
  parent : Nat → Int
  low : Nat → Int
  dfn : Nat → Int
  articulation : Nat → Int
  visited : Nat → Int
  time : Int

/-- Array store `a[i] = x`. -/
def upd (a : Nat → Int) (i : Nat) (x : Int) : Nat → Int :=
  fun j => if j = i then x else a j

/-- The state at program start: all globals are zero-initialised. -/
def initState : State :=
  { parent := fun _ => 0, low := fun _ => 0, dfn := fun _ => 0,
    articulation := fun _ => 0, visited := fun _ => 0, time := 0 }

/-- The all-zero matrix `adj[max][max]={0}` of `main`. -/
def zeroAdj : Adj := fun _ _ => 0

/-! ## `dfnlow` -/

/-- Entry of `dfnlow`: `visited[u]=-1; low[u]=dfn[u]=++time;`. The increment is taken on
`Int`; it is the increment of the 32-bit `int` when `0 ≤ time < INT_MAX` (`enterWrap_eq`). -/
def enter (u : Nat) (s : State) : State :=
  { s with
    visited := upd s.visited u (-1)
    time := s.time + 1
    dfn := upd s.dfn u (s.time + 1)
    low := upd s.low u (s.time + 1) }

/-- The statements after the recursive call inside `if(!visited[v])`:
`low[u]=(low[u]<low[v])?low[u]:low[v];` followed by the two marking tests. -/
def afterChild (u v : Nat) (children : Int) (s : State) : State :=
  let s1 : State := { s with low := upd s.low u (if s.low u < s.low v then s.low u else s.low v) }
  let s2 : State :=
    if s1.parent u = -1 ∧ children > 1 then
      { s1 with articulation := upd s1.articulation u 1 }
    else s1
  if s2.parent u ≠ -1 ∧ s2.low u ≥ s2.dfn v then
    { s2 with articulation := upd s2.articulation u 1 }
  else s2

/-- The statement `if(v!=parent[u]) low[u]=(low[u]<dfn[v])?low[u]:dfn[v];`. -/
def backEdge (u v : Nat) (s : State) : State :=
  if (v : Int) ≠ s.parent u then
    { s with low := upd s.low u (if s.low u < s.dfn v then s.low u else s.dfn v) }
  else s

/-- One iteration of the `for` loop of `dfnlow(u)` for the neighbour candidate `v`.
The accumulator is the local counter `children` together with the globals;
`call` is the recursive invocation of `dfnlow`. -/
def dfnlowBody (call : Nat → State → Option State) (adj : Adj) (u : Nat)
    (acc : Int × State) (v : Nat) : Option (Int × State) :=
  if adj u v ≠ 0 then
    if acc.2.visited v = 0 then
      match call v { acc.2 with parent := upd acc.2.parent v u } with
      | none => none
      | some s1 => some (acc.1 + 1, backEdge u v (afterChild u v (acc.1 + 1) s1))
    else some (acc.1, backEdge u v acc.2)
  else some acc

/-- The variant of `dfnlow` that scans the neighbour candidates in the order given by
the list `ord` instead of `0, 1, ..., V-1`. -/
def dfnlowOrd (adj : Adj) (ord : List Nat) : Nat → Nat → State → Option State
  | 0, _, _ => none
  | fuel + 1, u, s =>
    (ord.foldlM (dfnlowBody (dfnlowOrd adj ord fuel) adj u) (0, enter u s)).map Prod.snd

/-- The function `dfnlow(u, adj, V)`; `none` means that the call stack grew deeper than
the fuel. -/
def dfnlow (adj : Adj) (V : Int) : Nat → Nat → State → Option State
  | 0, _, _ => none
  | fuel + 1, u, s =>
    ((List.range V.toNat).foldlM (dfnlowBody (dfnlow adj V fuel) adj u) (0, enter u s)).map
      Prod.snd

/-! ## `findarticulationpoints` -/

/-- First loop: `parent[i]=-1; articulation[i]=0; visited[i]=0;` for `i < V`. -/
def resetLoop (V : Int) (s : State) : State :=
  (List.range V.toNat).foldl
    (fun s i =>
      { s with
        parent := upd s.parent i (-1)
        articulation := upd s.articulation i 0
        visited := upd s.visited i 0 })
    s

/-- Second loop with the neighbour order `ord`: start a traversal at every vertex that
is still unvisited, in ascending index order. -/
def rootLoopOrd (adj : Adj) (ord : List Nat) (n : Nat) (s : State) : Option State :=
  (List.range n).foldlM
    (fun s i => if s.visited i = 0 then dfnlowOrd adj ord n i s else some s) s

/-- Second loop: `if(!visited[i]) dfnlow(i,adj,V);` for `i < V`. -/
def rootLoop (adj : Adj) (V : Int) (s : State) : Option State :=
  (List.range V.toNat).foldlM
    (fun s i => if s.visited i = 0 then dfnlow adj V V.toNat i s else some s) s

/-- The text printed by `findarticulationpoints`: the header, then `router <i>` for
each `i < V` with `articulation[i]` nonzero. -/
def printLoop (V : Int) (s : State) : String :=
  (List.range V.toNat).foldl
    (fun out i => if s.articulation i ≠ 0 then out ++ ("router " ++ toString i) else out)
    "articulation points are:"

/-- The function `findarticulationpoints(adj, V)`: final globals and printed text. -/
def findarticulationpoints (adj : Adj) (V : Int) (s : State) : Option (State × String) :=
  match rootLoop adj V (resetLoop V s) with
  | none => none
  | some s1 => some (s1, printLoop V s1)

/-- The variant of `findarticulationpoints` whose traversal scans neighbours in the
order `σ 0, σ 1, ..., σ (V-1)`. -/
def findarticulationpointsOrd (adj : Adj) (σ : Nat → Nat) (V : Int) (s : State) :
    Option (State × String) :=
  match rootLoopOrd adj ((List.range V.toNat).map σ) V.toNat (resetLoop V s) with
  | none => none
  | some s1 => some (s1, printLoop V s1)

/-! ## `main` -/

/-- The loop `for(int i=0;i<E;i++) scanf("%d%d",&u,&v);`: the pairs only overwrite the
locals `u` and `v`. -/
def readEdges (E : Int) (pairs : List (Int × Int)) (uv : Int × Int) : Int × Int :=
  (List.range E.toNat).foldl (fun uv i => (pairs.get? i).getD uv) uv

/-- The function `main` on the input `V`, `E` and the edge pairs: exit code and text
written to standard output. -/
def main (V E : Int) (pairs : List (Int × Int)) : Option (Int × String) :=
  let _uv := readEdges E pairs (0, 0)
  match findarticulationpoints zeroAdj V initState with
  | none => none
  | some r =>
    some (0, "enter the vertices" ++ "enter the edges" ++ "enter the u and v connections" ++ r.2)

/-! ## Graphs used in the statements -/

/-- Path `0 - 1 - ... - (n-1)`. -/
def pathAdj (n : Nat) : Adj :=
  fun i j => if i < n ∧ j < n ∧ (i + 1 = j ∨ j + 1 = i) then 1 else 0

/-- Star with centre `c` on the vertices `0..V-1`. -/
def starAdj (V c : Nat) : Adj :=
  fun i j => if i < V ∧ j < V ∧ i ≠ j ∧ (i = c ∨ j = c) then 1 else 0

/-- Ring `i - (i+1) mod V`. -/
def ringAdj (V : Nat) : Adj :=
  fun i j => if i < V ∧ j < V ∧ (j = (i + 1) % V ∨ i = (j + 1) % V) then 1 else 0

/-- Undirected edge test against a list of vertex pairs. -/
def edgesAdj (es : List (Nat × Nat)) : Adj :=
  fun i j => if (i, j) ∈ es ∨ (j, i) ∈ es then 1 else 0

/-- Two triangles `{a, b, c}` and `{c, d, e}` sharing the vertex `c`. -/
def twoTrianglesAdj (a b c d e : Nat) : Adj :=
  edgesAdj [(a, b), (b, c), (a, c), (c, d), (d, e), (c, e)]

/-- The indices `i < V` with `articulation[i]` nonzero. -/
def marked (V : Nat) (s : State) : List Nat :=
  (List.range V).filter (fun i => s.articulation i ≠ 0)

/-! ## Specification predicates -/

/-- What a call `dfnlow(u)` entered in state `s` and left in state `t` changes. -/
structure Frame (n u : Nat) (s t : State) : Prop where
  vis_u : t.visited u ≠ 0
  vis_old : ∀ x, s.visited x ≠ 0 → t.visited x = s.visited x
  vis_new : ∀ x, t.visited x ≠ 0 → s.visited x ≠ 0 ∨ x < n
  dfn_old : ∀ x, s.visited x ≠ 0 ∨ t.visited x = 0 → t.dfn x = s.dfn x
  low_old : ∀ x, s.visited x ≠ 0 ∨ t.visited x = 0 → t.low x = s.low x
  par_old : ∀ x, s.visited x ≠ 0 ∨ t.visited x = 0 ∨ x = u → t.parent x = s.parent x
  time_lt : s.time < t.time
  dfn_u : t.dfn u = s.time + 1
  art_ne : ∀ x, x ≠ u → t.articulation x = s.articulation x
  art_nonroot : s.parent u ≠ -1 → t.articulation u = s.articulation u

/-- Invariant of the `for` loop of `dfnlow(u)` entered in state `s0`. -/
structure FrameInv (n u : Nat) (s0 s : State) : Prop where
  frame : Frame n u s0 s
  vis0 : s0.visited u = 0
  low_le : s.low u ≤ s.dfn u
  dfn_le : s.dfn u ≤ s.time

/-- Number of vertices `i < n` with `visited[i] == 0`. -/
def unvisitedCount (n : Nat) (s : State) : Nat :=
  ((Finset.range n).filter (fun i => s.visited i = 0)).card

/-- Connectivity in the graph on the vertices `0..n-1` by paths that avoid the
vertices in `A`. -/
def Conn (adj : Adj) (n : Nat) (A : Nat → Prop) : Nat → Nat → Prop :=
  Relation.ReflTransGen (fun x y => x < n ∧ y < n ∧ adj x y ≠ 0 ∧ ¬ A x ∧ ¬ A y)

/-- What a call `dfnlow(u)` entered in state `s` and left in state `t` has explored. -/
structure Explored (adj : Adj) (n u : Nat) (s t : State) : Prop where
  closed : ∀ x, s.visited x = 0 → t.visited x ≠ 0 →
    ∀ y, y < n → adj x y ≠ 0 → t.visited y ≠ 0
  reach : ∀ x, s.visited x = 0 → t.visited x ≠ 0 →
    Conn adj n (fun z => s.visited z ≠ 0) u x
  par_new : ∀ x, s.visited x = 0 → t.visited x ≠ 0 → x ≠ u →
    ∃ p : Nat, t.parent x = p ∧ s.visited p = 0 ∧ t.visited p ≠ 0 ∧ adj p x ≠ 0

/-- Invariant of the `for` loop of `dfnlow(u)` after the candidates `pre`. -/
structure ExploredInv (adj : Adj) (n u : Nat) (s0 : State) (pre : List Nat) (s : State) :
    Prop where
  closed : ∀ x, s0.visited x = 0 → s.visited x ≠ 0 → x ≠ u →
    ∀ y, y < n → adj x y ≠ 0 → s.visited y ≠ 0
  closed_u : ∀ y ∈ pre, adj u y ≠ 0 → s.visited y ≠ 0
  reach : ∀ x, s0.visited x = 0 → s.visited x ≠ 0 →
    Conn adj n (fun z => s0.visited z ≠ 0) u x
  par_new : ∀ x, s0.visited x = 0 → s.visited x ≠ 0 → x ≠ u →
    ∃ p : Nat, s.parent x = p ∧ s0.visited p = 0 ∧ s.visited p ≠ 0 ∧ adj p x ≠ 0

/-- Invariant of the `for` loop of a root call `dfnlow(r)` (`parent[r] == -1`) entered in
state `s0`, with `c` the value of `children`: the first child explores everything that
can be reached from it without passing through `r`, and a second child is a neighbour
of `r` that cannot be reached from the first one without passing through `r`. -/
def RootInv (adj : Adj) (n r : Nat) (s0 : State) (c : Int) (s : State) : Prop :=
  (s.articulation r = if c > 1 then 1 else s0.articulation r) ∧
  ((c = 0 ∧ ∀ x, s0.visited x = 0 → s.visited x ≠ 0 → x = r) ∨
   (c = 1 ∧ ∃ v1, v1 < n ∧ v1 ≠ r ∧ adj r v1 ≠ 0 ∧ s0.visited v1 = 0 ∧
      (∀ x, s0.visited x = 0 → s.visited x ≠ 0 → x ≠ r →
        Conn adj n (fun z => s0.visited z ≠ 0 ∨ z = r) v1 x) ∧
      (∀ x, Conn adj n (fun z => s0.visited z ≠ 0 ∨ z = r) v1 x → s.visited x ≠ 0)) ∨
   (c > 1 ∧ ∃ v1 v2, v1 < n ∧ v2 < n ∧ v1 ≠ r ∧ v2 ≠ r ∧ adj r v1 ≠ 0 ∧ adj r v2 ≠ 0 ∧
      s0.visited v1 = 0 ∧ s0.visited v2 = 0 ∧
      ¬ Conn adj n (fun z => s0.visited z ≠ 0 ∨ z = r) v1 v2))

/-- The vertex `r` has the smallest index in its connected component. -/
def IsRoot (adj : Adj) (n r : Nat) : Prop :=
  ∀ x, x < r → ¬ Conn adj n (fun _ => False) x r

/-- Two neighbours of `r` are connected only through `r`. -/
def Separates (adj : Adj) (n r : Nat) : Prop :=
  ∃ a b, a < n ∧ b < n ∧ a ≠ r ∧ b ≠ r ∧ adj r a ≠ 0 ∧ adj r b ≠ 0 ∧
    ¬ Conn adj n (fun z => z = r) a b

/-- The globals after the first loop of `findarticulationpoints`. -/
def IsReset (n : Nat) (s : State) : Prop :=
  ∀ i, i < n → s.parent i = -1 ∧ s.articulation i = 0 ∧ s.visited i = 0

/-- Invariant of the second loop of `findarticulationpoints` for a symmetric matrix,
before index `k`. -/
structure RootLoopInv (adj : Adj) (n k : Nat) (s : State) : Prop where
  vis_iff : ∀ x, x < n → (s.visited x ≠ 0 ↔ ∃ j, j < k ∧ Conn adj n (fun _ => False) j x)
  unvis : ∀ x, x < n → s.visited x = 0 → s.parent x = -1 ∧ s.articulation x = 0
  par_iff : ∀ x, x < n → s.visited x ≠ 0 → (s.parent x = -1 ↔ IsRoot adj n x)
  art_iff : ∀ x, x < n → s.visited x ≠ 0 →
    (s.articulation x ≠ 0 ↔ IsRoot adj n x ∧ Separates adj n x)

/-- The two states agree on `visited`, `parent` and `articulation` below `n`. -/
def Agree (n : Nat) (s t : State) : Prop :=
  ∀ i, i < n → s.visited i = t.visited i ∧ s.parent i = t.parent i ∧
    s.articulation i = t.articulation i

/-- The graph on the vertices `0..n-1` outside `A` has exactly `k` connected components:
`reps` holds one representative of each. -/
def HasComponents (adj : Adj) (n : Nat) (A : Nat → Prop) (k : Nat) : Prop :=
  ∃ reps : Finset Nat, reps.card = k ∧ (∀ r ∈ reps, r < n ∧ ¬ A r) ∧
    (∀ x, x < n → ¬ A x → ∃ r ∈ reps, Conn adj n A r x) ∧
    (∀ r ∈ reps, ∀ r' ∈ reps, Conn adj n A r r' → r = r')

/-- Cut vertex, in the words of the glossary: removing `u` increases the number of
connected components of the graph on the vertices `0..n-1`. -/
def IsCutVertex (adj : Adj) (n u : Nat) : Prop :=
  u < n ∧ ∃ k k', HasComponents adj n (fun _ => False) k ∧
    HasComponents adj n (fun z => z = u) k' ∧ k < k'

/-! ## Observed runs -/

/-- The statement `visited[u]=-1;` at the entry of `dfnlow`. -/
def markVisited (u : Nat) (s : State) : State :=
  { s with visited := upd s.visited u (-1) }

/-- The statement `low[u]=(low[u]<low[v])?low[u]:low[v];` after the recursive call. -/
def lowChild (u v : Nat) (s : State) : State :=
  { s with low := upd s.low u (if s.low u < s.low v then s.low u else s.low v) }

/-- The statement `if(parent[u]==-1&&children>1) articulation[u]=1;`. -/
def markRoot (u : Nat) (children : Int) (s : State) : State :=
  if s.parent u = -1 ∧ children > 1 then
    { s with articulation := upd s.articulation u 1 }
  else s

/-- The statement `if(parent[u]!=-1&&low[u]>=dfn[v]) articulation[u]=1;`. -/
def markNonRoot (u v : Nat) (s : State) : State :=
  if s.parent u ≠ -1 ∧ s.low u ≥ s.dfn v then
    { s with articulation := upd s.articulation u 1 }
  else s

/-- What is observed during a run: calls of `dfnlow` with their recursion depth and the
globals at entry, the globals after each statement of the traversal, the evaluations of
the non-root test, and the subscripts used in array accesses. -/
inductive Event where
  /-- Entry of `dfnlow(u)` at recursion depth `depth` with globals `s`. -/
  | call (u depth : Nat) (s : State)
  /-- Globals between `visited[u]=-1;` and `low[u]=dfn[u]=++time;` of `dfnlow(u)`. -/
  | mark (u : Nat) (s : State)
  /-- Globals after any other statement of the traversal. -/
  | point (s : State)
  /-- Evaluation of `parent[u]!=-1&&low[u]>=dfn[v]` in `dfnlow(u)` with globals `s`. -/
  | test (u v : Nat) (s : State)
  /-- Subscript of an array access (for `adj[u][v]` both `u` and `v`). -/
  | index (k : Nat)

/-- Observations of one iteration of the loop of `dfnlow(u)` up to the recursive call:
`adj[u][v]`, `visited[v]`, `parent[v]=u`. -/
def eventsBeforeCall (u v : Nat) (s : State) : List Event :=
  [Event.index u, Event.index v, Event.index v, Event.index v,
    Event.point { s with parent := upd s.parent v u }]

/-- Observations after the recursive call returned with globals `s1`: the update of
`low[u]`, the two marking statements and the statement guarded by `v!=parent[u]`.
Every subscript that occurs in a statement is recorded, evaluated or not. -/
def eventsAfterCall (u v : Nat) (children : Int) (s1 : State) : List Event :=
  [Event.index u, Event.index v, Event.point (lowChild u v s1),
    Event.index u, Event.index u,
    Event.point (markRoot u children (lowChild u v s1)),
    Event.index u, Event.index u, Event.index v,
    Event.test u v (markRoot u children (lowChild u v s1)),
    Event.index u,
    Event.point (afterChild u v children s1),
    Event.index u, Event.index u, Event.index v,
    Event.point (backEdge u v (afterChild u v children s1))]

/-- Observations of an iteration whose `v` is a visited neighbour. -/
def eventsBack (u v : Nat) (s : State) : List Event :=
  [Event.index u, Event.index v, Event.index v,
    Event.index u, Event.index u, Event.index v,
    Event.point (backEdge u v s)]

/-- One iteration of the loop of `dfnlow(u)`, as `dfnlowBody`, with its observations
appended to the log. -/
def dfnlowBodyLog (call : Nat → State → Option (State × List Event)) (adj : Adj) (u : Nat)
    (acc : Int × State × List Event) (v : Nat) : Option (Int × State × List Event) :=
  if adj u v ≠ 0 then
    if acc.2.1.visited v = 0 then
      match call v { acc.2.1 with parent := upd acc.2.1.parent v u } with
      | none => none
      | some r =>
        some (acc.1 + 1, backEdge u v (afterChild u v (acc.1 + 1) r.1),
          acc.2.2 ++ (eventsBeforeCall u v acc.2.1 ++ (r.2 ++
            eventsAfterCall u v (acc.1 + 1) r.1)))
    else some (acc.1, backEdge u v acc.2.1, acc.2.2 ++ eventsBack u v acc.2.1)
  else some (acc.1, acc.2.1, acc.2.2 ++ [Event.index u, Event.index v])

/-- Observations of the entry of `dfnlow(u)` at depth `depth`. -/
def eventsEnter (u depth : Nat) (s : State) : List Event :=
  [Event.call u depth s, Event.index u, Event.mark u (markVisited u s),
    Event.index u, Event.index u, Event.point (enter u s)]

/-- The function `dfnlow(u, adj, V)` together with the log of its observations; `depth`
is the recursion depth of the call. -/
def dfnlowLog (adj : Adj) (V : Int) : Nat → Nat → Nat → State → Option (State × List Event)
  | 0, _, _, _ => none
  | fuel + 1, depth, u, s =>
    ((List.range V.toNat).foldlM (dfnlowBodyLog (dfnlowLog adj V fuel (depth + 1)) adj u)
      (0, enter u s, eventsEnter u depth s)).map (fun r => (r.2.1, r.2.2))

/-- The second loop of `findarticulationpoints` with its log: `visited[i]` is read and a
root call is made at depth `1`. -/
def rootLoopLog (adj : Adj) (V : Int) (s : State) : Option (State × List Event) :=
  (List.range V.toNat).foldlM
    (fun (acc : State × List Event) i =>
      if acc.1.visited i = 0 then
        match dfnlowLog adj V V.toNat 1 i acc.1 with
        | none => none
        | some r => some (r.1, acc.2 ++ (Event.index i :: r.2))
      else some (acc.1, acc.2 ++ [Event.index i]))
    (s, [])

/-- Subscripts used by the first loop of `findarticulationpoints`. -/
def eventsReset (V : Int) : List Event :=
  (List.range V.toNat).flatMap (fun i => [Event.index i, Event.index i, Event.index i])

/-- Subscripts used by the third loop of `findarticulationpoints`. -/
def eventsPrint (V : Int) : List Event :=
  (List.range V.toNat).map (fun i => Event.index i)

/-- The function `findarticulationpoints(adj, V)` with the log of its observations: final
globals, printed text, log. The logged globals start with those after the first loop. -/
def findarticulationpointsLog (adj : Adj) (V : Int) (s : State) :
    Option (State × String × List Event) :=
  match rootLoopLog adj V (resetLoop V s) with
  | none => none
  | some r =>
    some (r.1, printLoop V r.1,
      eventsReset V ++ (Event.point (resetLoop V s) :: (r.2 ++ eventsPrint V)))

/-- The globals logged at the statement boundaries, `mark` points included. -/
def statesOf : List Event → List State
  | [] => []
  | Event.mark _ s :: l => s :: statesOf l
  | Event.point s :: l => s :: statesOf l
  | _ :: l => statesOf l

/-- The vertices on which `dfnlow` was entered, in order. -/
def callsOf : List Event → List Nat
  | [] => []
  | Event.call u _ _ :: l => u :: callsOf l
  | _ :: l => callsOf l

/-- Every visited vertex below `n` has `1 ≤ low ≤ dfn`. -/
def LowDfnInv (n : Nat) (s : State) : Prop :=
  ∀ x, x < n → s.visited x ≠ 0 → 1 ≤ s.low x ∧ s.low x ≤ s.dfn x

instance (n : Nat) (s : State) : Decidable (LowDfnInv n s) := by
  unfold LowDfnInv; infer_instance

/-- What holds for the calls, non-root tests and subscripts observed in a run on the
vertices `0..n-1`. -/
def EventOK (n : Nat) : Event → Prop
  | Event.call u d s => u < n ∧ s.visited u = 0 ∧ 1 ≤ d ∧ d + unvisitedCount n s ≤ n + 1
  | Event.test u v s => s.low u ≤ s.dfn u ∧ s.dfn u < s.dfn v
  | Event.index k => k < n
  | _ => True

/-- Every vertex below `n` has `low ≤ dfn`, visited or not: so it is in the zeroed
globals, and no statement of the program changes that. -/
def LowLeDfn (n : Nat) (s : State) : Prop :=
  ∀ x, x < n → s.low x ≤ s.dfn x

/-- What holds for the globals observed in a run: every visited vertex has
`1 ≤ low ≤ dfn`, except that at the `mark` point of `dfnlow(u)` the bound `1 ≤ low[u]` is
not asserted for `u` itself (`low[u] ≤ dfn[u]` is). -/
def PointOK (n : Nat) : Event → Prop
  | Event.mark u s => ∀ x, x < n → s.visited x ≠ 0 → s.low x ≤ s.dfn x ∧ (x ≠ u → 1 ≤ s.low x)
  | Event.point s => LowDfnInv n s
  | _ => True

/-- Summary of a stretch of a run from globals `sa` to globals `sb` with log `log`. -/
structure Seg (n : Nat) (sa sb : State) (log : List Event) : Prop where
  mono : ∀ x, sa.visited x ≠ 0 → sb.visited x ≠ 0
  ok : ∀ e ∈ log, EventOK n e
  calls : ∀ u ∈ callsOf log, sa.visited u = 0 ∧ sb.visited u ≠ 0
  nodup : (callsOf log).Nodup
  inv : 0 ≤ sa.time → LowLeDfn n sa → LowDfnInv n sa →
    (∀ e ∈ log, PointOK n e) ∧ 0 ≤ sb.time ∧ LowLeDfn n sb ∧ LowDfnInv n sb

/-- Numbering invariant of a run entered with `time = T0`: the visited vertices below `n`
carry pairwise distinct `dfn` values that fill the range `T0+1 .. time`. -/
structure DfnInv (n : Nat) (T0 : Int) (s : State) : Prop where
  cnt : s.time + (unvisitedCount n s : Int) = T0 + n
  rng : ∀ x, x < n → s.visited x ≠ 0 → T0 < s.dfn x ∧ s.dfn x ≤ s.time
  inj : ∀ x y, x < n → y < n → s.visited x ≠ 0 → s.visited y ≠ 0 → s.dfn x = s.dfn y → x = y
  sur : ∀ k : Int, T0 < k → k ≤ s.time → ∃ x, x < n ∧ s.visited x ≠ 0 ∧ s.dfn x = k

/-- The vertices below `n` whose `parent` entry is `r`: the children of `r` in the
traversal tree. -/
def kids (n r : Nat) (s : State) : Finset Nat :=
  (Finset.range n).filter (fun v => s.parent v = (r : Int))

/-- Invariant of the `for` loop of a root call `dfnlow(r)` entered in state `s0`, with `c`
the value of `children`: `c` counts the vertices with `parent = r`, every vertex found so
far can be reached from one of them without passing through `r`, and (for a symmetric
matrix) no two of them are connected without passing through `r`. -/
structure KidsInv (adj : Adj) (n r : Nat) (s0 : State) (c : Int) (s : State) : Prop where
  count : c = ((kids n r s).card : Int)
  edge : ∀ v ∈ kids n r s, adj r v ≠ 0 ∧ v ≠ r ∧ s0.visited v = 0 ∧ s.visited v ≠ 0
  cover : ∀ x, s0.visited x = 0 → s.visited x ≠ 0 → x ≠ r →
    ∃ v ∈ kids n r s, Conn adj n (fun z => s0.visited z ≠ 0 ∨ z = r) v x
  sep : (∀ x y, x < n → y < n → adj x y = adj y x) →
    ∀ v ∈ kids n r s, ∀ w ∈ kids n r s,
      Conn adj n (fun z => s0.visited z ≠ 0 ∨ z = r) v w → v = w
  art : s.articulation r = if c > 1 then 1 else s0.articulation r

/-- Invariant of the second loop of `findarticulationpoints` for every matrix: the
`parent` entries form a forest along edges, unvisited vertices are untouched, and a root
is marked exactly when it has two children. -/
structure TreeInv (adj : Adj) (n : Nat) (s : State) : Prop where
  par : ∀ x, x < n → s.parent x = -1 ∨
    ∃ p : Nat, p < n ∧ s.parent x = p ∧ s.visited p ≠ 0 ∧ s.visited x ≠ 0 ∧ adj p x ≠ 0
  unvis : ∀ x, x < n → s.visited x = 0 → s.parent x = -1 ∧ s.articulation x = 0
  root : ∀ r, r < n → s.visited r ≠ 0 → s.parent r = -1 →
    s.articulation r = if 2 ≤ (kids n r s).card then 1 else 0

/-- The vertices outside the component of `r`, and `r` itself: what is left out when the
component of `r` is looked at without `r`. -/
def OutsideOrSelf (adj : Adj) (n r : Nat) : Nat → Prop :=
  fun z => z = r ∨ ¬ Conn adj n (fun _ => False) r z

/-- Descendant in the traversal tree given by the `parent` array: `x` is `u` or is
reached from `u` by steps from a vertex to one of its children. -/
def Desc (n : Nat) (t : State) : Nat → Nat → Prop :=
  Relation.ReflTransGen (fun a b => b < n ∧ t.parent b = (a : Int))

/-- Descendant through visited children. -/
def DescV (n : Nat) (t : State) : Nat → Nat → Prop :=
  Relation.ReflTransGen (fun a b => b < n ∧ t.parent b = (a : Int) ∧ t.visited b ≠ 0)

/-- Every `parent` entry below `n` is `-1` or a visited vertex. -/
def ParentsVisited (n : Nat) (s : State) : Prop :=
  ∀ b, b < n → s.parent b = -1 ∨ ∃ p : Nat, s.parent b = p ∧ s.visited p ≠ 0

/-- What holds for `low[x]` once the call `dfnlow(x)` has returned: it is at most
`dfn[x]`, at most `dfn[w]` for every neighbour `w` other than the parent, at most the
`low` of every child, and it is attained by `dfn[x]` or by such a `dfn[w]` below a
descendant. -/
structure LowFacts (adj : Adj) (n : Nat) (t : State) (x : Nat) : Prop where
  vis : t.visited x ≠ 0
  le_dfn : t.low x ≤ t.dfn x
  nbr : ∀ w, w < n → adj x w ≠ 0 →
    t.visited w ≠ 0 ∧ ((w : Int) ≠ t.parent x → t.low x ≤ t.dfn w)
  kid : ∀ b, b < n → t.parent b = (x : Int) → t.low x ≤ t.low b
  att : t.low x = t.dfn x ∨
    ∃ y w, DescV n t x y ∧ t.visited y ≠ 0 ∧ w < n ∧ t.visited w ≠ 0 ∧ adj y w ≠ 0 ∧
      (w : Int) ≠ t.parent y ∧ t.low x = t.dfn w

/-- Invariant of the `for` loop of `dfnlow(u)` for the value of `low[u]`, after the
candidates `pre`. -/
structure LowInv (adj : Adj) (n u : Nat) (s0 : State) (pre : List Nat) (s : State) :
    Prop where
  fin : ∀ x, s0.visited x = 0 → s.visited x ≠ 0 → x ≠ u → LowFacts adj n s x
  nbr : ∀ w ∈ pre, adj u w ≠ 0 →
    s.visited w ≠ 0 ∧ ((w : Int) ≠ s.parent u → s.low u ≤ s.dfn w)
  kid : ∀ b, b < n → s.parent b = (u : Int) → s.low u ≤ s.low b
  att : s.low u = s.dfn u ∨
    ∃ y w, DescV n s u y ∧ s.visited y ≠ 0 ∧ w < n ∧ s.visited w ≠ 0 ∧ adj y w ≠ 0 ∧
      (w : Int) ≠ s.parent y ∧ s.low u = s.dfn w
  pv : ParentsVisited n s
  par0 : s0.parent u = -1 ∨ ∃ p : Nat, s0.parent u = p ∧ s0.visited p ≠ 0

/-! ## The 32-bit counter

The program keeps `time` in an `int` and never resets it. The definitions above compute
`++time` on `Int`; the ones below compute it with the wrap-around of a 32-bit `int`.
`findarticulationpointsWrap_eq` shows that both give the same run when `time` is between
`0` and `INT_MAX - V` at entry: a run increments `time` exactly `V` times. -/

/-- Largest value of the C type `int` (`INT_MAX` of `<limits.h>`, 32 bits). -/
def INT_MAX : Int := 2147483647

/-- Reduction of an integer to the range of a 32-bit `int` by two's-complement
wrap-around. -/
def wrapInt (x : Int) : Int :=
  (x + 2147483648) % 4294967296 - 2147483648

/-- Entry of `dfnlow`, `visited[u]=-1; low[u]=dfn[u]=++time;`, with `++time` computed in
32-bit arithmetic. -/
def enterWrap (u : Nat) (s : State) : State :=
  { s with
    visited := upd s.visited u (-1)
    time := wrapInt (s.time + 1)
    dfn := upd s.dfn u (wrapInt (s.time + 1))
    low := upd s.low u (wrapInt (s.time + 1)) }

/-- The function `dfnlow(u, adj, V)` with the 32-bit counter. -/
def dfnlowWrap (adj : Adj) (V : Int) : Nat → Nat → State → Option State
  | 0, _, _ => none
  | fuel + 1, u, s =>
    ((List.range V.toNat).foldlM (dfnlowBody (dfnlowWrap adj V fuel) adj u)
      (0, enterWrap u s)).map Prod.snd

/-- Second loop of `findarticulationpoints` with the 32-bit counter. -/
def rootLoopWrap (adj : Adj) (V : Int) (s : State) : Option State :=
  (List.range V.toNat).foldlM
    (fun s i => if s.visited i = 0 then dfnlowWrap adj V V.toNat i s else some s) s

/-- The function `findarticulationpoints(adj, V)` with the 32-bit counter. -/
def findarticulationpointsWrap (adj : Adj) (V : Int) (s : State) : Option (State × String) :=
  match rootLoopWrap adj V (resetLoop V s) with
  | none => none
  | some s1 => some (s1, printLoop V s1)

/-! ## Basic lemmas -/

@[simp] theorem upd_same (a : Nat → Int) (i : Nat) (x : Int) : upd a i x i = x := by
  simp [upd]

theorem upd_ne (a : Nat → Int) {i j : Nat} (x : Int) (h : j ≠ i) : upd a i x j = a j := by
  simp [upd, h]

theorem upd_apply (a : Nat → Int) (i j : Nat) (x : Int) :
    upd a i x j = if j = i then x else a j := rfl

@[simp] theorem backEdge_visited (u v : Nat) (s : State) :
    (backEdge u v s).visited = s.visited := by
  unfold backEdge; split <;> rfl

@[simp] theorem backEdge_parent (u v : Nat) (s : State) :
    (backEdge u v s).parent = s.parent := by
  unfold backEdge; split <;> rfl

@[simp] theorem backEdge_dfn (u v : Nat) (s : State) : (backEdge u v s).dfn = s.dfn := by
  unfold backEdge; split <;> rfl

@[simp] theorem backEdge_time (u v : Nat) (s : State) : (backEdge u v s).time = s.time := by
  unfold backEdge; split <;> rfl

@[simp] theorem backEdge_articulation (u v : Nat) (s : State) :
    (backEdge u v s).articulation = s.articulation := by
  unfold backEdge; split <;> rfl

theorem backEdge_low_ne (u v : Nat) (s : State) {x : Nat} (h : x ≠ u) :
    (backEdge u v s).low x = s.low x := by
  unfold backEdge; split
  · simp [upd, h]
  · rfl

theorem backEdge_low_le (u v : Nat) (s : State) : (backEdge u v s).low u ≤ s.low u := by
  unfold backEdge; split
  · simp only [upd_same]; split <;> omega
  · exact le_refl _

@[simp] theorem afterChild_visited (u v : Nat) (c : Int) (s : State) :
    (afterChild u v c s).visited = s.visited := by
  unfold afterChild; simp only; split_ifs <;> rfl

@[simp] theorem afterChild_parent (u v : Nat) (c : Int) (s : State) :
    (afterChild u v c s).parent = s.parent := by
  unfold afterChild; simp only; split_ifs <;> rfl

@[simp] theorem afterChild_dfn (u v : Nat) (c : Int) (s : State) :
    (afterChild u v c s).dfn = s.dfn := by
  unfold afterChild; simp only; split_ifs <;> rfl

@[simp] theorem afterChild_time (u v : Nat) (c : Int) (s : State) :
    (afterChild u v c s).time = s.time := by
  unfold afterChild; simp only; split_ifs <;> rfl

@[simp] theorem afterChild_low (u v : Nat) (c : Int) (s : State) :
    (afterChild u v c s).low
      = upd s.low u (if s.low u < s.low v then s.low u else s.low v) := by
  unfold afterChild; simp only; split_ifs <;> rfl

theorem afterChild_low_ne (u v : Nat) (c : Int) (s : State) {x : Nat} (h : x ≠ u) :
    (afterChild u v c s).low x = s.low x := by
  simp [upd, h]

theorem afterChild_low_le (u v : Nat) (c : Int) (s : State) :
    (afterChild u v c s).low u ≤ s.low u := by
  simp only [afterChild_low, upd_same]; split <;> omega

theorem afterChild_articulation_ne (u v : Nat) (c : Int) (s : State) {x : Nat} (h : x ≠ u) :
    (afterChild u v c s).articulation x = s.articulation x := by
  unfold afterChild; simp only; split_ifs <;> simp [upd, h]

/-- The marking done after a child returns, when the non-root test cannot succeed. -/
theorem afterChild_articulation_root (u v : Nat) (c : Int) (s : State)
    (h : s.low u < s.dfn v) :
    (afterChild u v c s).articulation u
      = if s.parent u = -1 ∧ c > 1 then 1 else s.articulation u := by
  have h2 : (if s.low u < s.low v then s.low u else s.low v) < s.dfn v := by
    split <;> omega
  have h3 : ¬ (s.parent u ≠ -1 ∧ (if s.low u < s.low v then s.low u else s.low v) ≥ s.dfn v) := by
    intro h3
    have := h3.2
    omega
  unfold afterChild
  simp only
  by_cases h1 : s.parent u = -1 ∧ c > 1
  · simp [h1]
  · simp [h1, h3]

/-! ## Proof rules for the traversal -/

/-- Loop rule for the `for` loop of `dfnlow(u)`. -/
theorem loop_rule (adj : Adj) (u : Nat) (call : Nat → State → Option State)
    (Pre : Nat → State → Prop) (Post : Nat → State → State → Prop)
    (I : List Nat → Int → State → Prop) (ord : List Nat)
    (hcall : ∀ v s s1, Pre v s → call v s = some s1 → Post v s s1)
    (hskip : ∀ pre v rest c s, pre ++ v :: rest = ord → I pre c s → adj u v = 0 →
      I (pre ++ [v]) c s)
    (hpre : ∀ pre v rest c s, pre ++ v :: rest = ord → I pre c s → adj u v ≠ 0 →
      s.visited v = 0 → Pre v { s with parent := upd s.parent v u })
    (hchild : ∀ pre v rest c s s1, pre ++ v :: rest = ord → I pre c s → adj u v ≠ 0 →
      s.visited v = 0 → call v { s with parent := upd s.parent v u } = some s1 →
      Post v { s with parent := upd s.parent v u } s1 →
      I (pre ++ [v]) (c + 1) (backEdge u v (afterChild u v (c + 1) s1)))
    (hback : ∀ pre v rest c s, pre ++ v :: rest = ord → I pre c s → adj u v ≠ 0 →
      s.visited v ≠ 0 → I (pre ++ [v]) c (backEdge u v s)) :
    ∀ (l pre : List Nat) (c : Int) (s : State) (r : Int × State), pre ++ l = ord → I pre c s →
      l.foldlM (dfnlowBody call adj u) (c, s) = some r → I ord r.1 r.2 := by
  intro l
  induction l with
  | nil =>
    intro pre c s r hp hI h
    simp at h hp
    subst h; subst hp; exact hI
  | cons v rest ih =>
    intro pre c s r hp hI h
    rw [List.foldlM_cons] at h
    have hp2 : (pre ++ [v]) ++ rest = ord := by simpa using hp
    by_cases ha : adj u v = 0
    · have hb : dfnlowBody call adj u (c, s) v = some (c, s) := by simp [dfnlowBody, ha]
      rw [hb] at h
      exact ih _ _ _ _ hp2 (hskip _ _ _ _ _ hp hI ha) h
    · by_cases hv : s.visited v = 0
      · cases hc : call v { s with parent := upd s.parent v u } with
        | none =>
          have hb : dfnlowBody call adj u (c, s) v = none := by simp [dfnlowBody, ha, hv, hc]
          rw [hb] at h
          simp at h
        | some s1 =>
          have hb : dfnlowBody call adj u (c, s) v
              = some (c + 1, backEdge u v (afterChild u v (c + 1) s1)) := by
            simp [dfnlowBody, ha, hv, hc]
          rw [hb] at h
          have hP := hcall _ _ _ (hpre _ _ _ _ _ hp hI ha hv) hc
          exact ih _ _ _ _ hp2 (hchild _ _ _ _ _ _ hp hI ha hv hc hP) h
      · have hb : dfnlowBody call adj u (c, s) v = some (c, backEdge u v s) := by
          simp [dfnlowBody, ha, hv]
        rw [hb] at h
        exact ih _ _ _ _ hp2 (hback _ _ _ _ _ hp hI ha hv) h

/-- Call rule: a specification of `dfnlow` follows from a loop invariant. -/
theorem call_rule (adj : Adj) (ord : List Nat)
    (Pre : Nat → State → Prop) (Post : Nat → State → State → Prop)
    (I : Nat → State → List Nat → Int → State → Prop)
    (henter : ∀ u s, Pre u s → I u s [] 0 (enter u s))
    (hskip : ∀ u s0 pre v rest c s, Pre u s0 → pre ++ v :: rest = ord → I u s0 pre c s →
      adj u v = 0 → I u s0 (pre ++ [v]) c s)
    (hpre : ∀ u s0 pre v rest c s, Pre u s0 → pre ++ v :: rest = ord → I u s0 pre c s →
      adj u v ≠ 0 → s.visited v = 0 → Pre v { s with parent := upd s.parent v u })
    (hchild : ∀ u s0 pre v rest c s s1, Pre u s0 → pre ++ v :: rest = ord → I u s0 pre c s →
      adj u v ≠ 0 → s.visited v = 0 →
      (∃ fuel, dfnlowOrd adj ord fuel v { s with parent := upd s.parent v u } = some s1) →
      Post v { s with parent := upd s.parent v u } s1 →
      I u s0 (pre ++ [v]) (c + 1) (backEdge u v (afterChild u v (c + 1) s1)))
    (hback : ∀ u s0 pre v rest c s, Pre u s0 → pre ++ v :: rest = ord → I u s0 pre c s →
      adj u v ≠ 0 → s.visited v ≠ 0 → I u s0 (pre ++ [v]) c (backEdge u v s))
    (hexit : ∀ u s0 c s, Pre u s0 → I u s0 ord c s → Post u s0 s) :
    ∀ (fuel u : Nat) (s t : State), Pre u s → dfnlowOrd adj ord fuel u s = some t →
      Post u s t := by
  intro fuel
  induction fuel with
  | zero => intro u s t _ h; simp [dfnlowOrd] at h
  | succ fuel ih =>
    intro u s t hP h
    simp only [dfnlowOrd, Option.map_eq_some'] at h
    obtain ⟨r, hr, rfl⟩ := h
    have key := loop_rule adj u (dfnlowOrd adj ord fuel) Pre
      (fun v a b => Post v a b ∧ ∃ fuel, dfnlowOrd adj ord fuel v a = some b)
      (I u s) ord
      (fun v a b hPa hc => ⟨ih v a b hPa hc, fuel, hc⟩)
      (fun pre v rest c a hp hI ha => hskip u s pre v rest c a hP hp hI ha)
      (fun pre v rest c a hp hI ha hv => hpre u s pre v rest c a hP hp hI ha hv)
      (fun pre v rest c a s1 hp hI ha hv _ hPost =>
        hchild u s pre v rest c a s1 hP hp hI ha hv hPost.2 hPost.1)
      (fun pre v rest c a hp hI ha hv => hback u s pre v rest c a hP hp hI ha hv)
      ord [] 0 (enter u s) r (by simp) (henter u s hP) hr
    exact hexit u s r.1 r.2 hP key

/-! ## Effect of a call on the globals -/

theorem frame_enter (n u : Nat) (s : State) (hu : u < n) (hv : s.visited u = 0) :
    FrameInv n u s (enter u s) := by
  have hne : ∀ x, s.visited x ≠ 0 ∨ (enter u s).visited x = 0 → x ≠ u := by
    rintro x hx rfl
    rcases hx with hx | hx
    · exact hx hv
    · simp [enter] at hx
  refine ⟨⟨?_, ?_, ?_, ?_, ?_, ?_, ?_, ?_, ?_, ?_⟩, hv, ?_, ?_⟩
  · simp [enter]
  · intro x hx
    have : x ≠ u := fun h => hx (h ▸ hv)
    simp [enter, upd, this]
  · intro x hx
    by_cases h : x = u
    · right; omega
    · left; simpa [enter, upd, h] using hx
  · intro x hx
    simp [enter, upd, hne x hx]
  · intro x hx
    simp [enter, upd, hne x hx]
  · intro x _; rfl
  · simp [enter]
  · simp [enter]
  · intro x _; rfl
  · intro _; rfl
  · simp [enter]
  · simp [enter]

theorem FrameInv.ne_of_old {n u : Nat} {s0 s : State} (h : FrameInv n u s0 s) {x : Nat}
    (hx : s0.visited x ≠ 0 ∨ s.visited x = 0) : x ≠ u := by
  rintro rfl
  rcases hx with hx | hx
  · exact hx h.vis0
  · exact h.frame.vis_u hx

theorem frame_back (n u v : Nat) (s0 s : State) (h : FrameInv n u s0 s) :
    FrameInv n u s0 (backEdge u v s) := by
  have hne := fun x => h.ne_of_old (x := x)
  obtain ⟨⟨h1, h2, h3, h4, h5, h6, h7, h8, h9, h10⟩, h0, h11, h12⟩ := h
  refine ⟨⟨?_, ?_, ?_, ?_, ?_, ?_, ?_, ?_, ?_, ?_⟩, h0, ?_, ?_⟩
  · simpa using h1
  · simpa using h2
  · simpa using h3
  · simpa using h4
  · intro x hx
    rw [backEdge_visited] at hx
    rw [backEdge_low_ne u v s (hne x hx)]
    exact h5 x hx
  · simpa using h6
  · simpa using h7
  · simpa using h8
  · simpa using h9
  · simpa using h10
  · rw [backEdge_dfn]
    exact le_trans (backEdge_low_le u v s) h11
  · simpa using h12

theorem frame_child (n u v : Nat) (c : Int) (s0 s s1 : State) (h : FrameInv n u s0 s)
    (hv : s.visited v = 0)
    (hc : Frame n v { s with parent := upd s.parent v u } s1) :
    FrameInv n u s0 (backEdge u v (afterChild u v c s1)) := by
  apply frame_back
  have hne := fun x => h.ne_of_old (x := x)
  obtain ⟨⟨h1, h2, h3, h4, h5, h6, h7, h8, h9, h10⟩, h0, h11, h12⟩ := h
  obtain ⟨c1, c2, c3, c4, c5, c6, c7, c8, c9, c10⟩ := hc
  simp only at c2 c3 c4 c5 c6 c7 c8 c9 c10
  have huv : u ≠ v := fun e => h1 (e ▸ hv)
  have hs1u : s1.visited u ≠ 0 := by rw [c2 u h1]; exact h1
  have hmono : ∀ x, s.visited x ≠ 0 → s1.visited x ≠ 0 := fun x hx => by rw [c2 x hx]; exact hx
  have hold : ∀ x, s0.visited x ≠ 0 ∨ s1.visited x = 0 → s0.visited x ≠ 0 ∨ s.visited x = 0 := by
    intro x hx
    rcases hx with hx | hx
    · exact Or.inl hx
    · right
      by_contra hc
      exact hmono x hc hx
  have hold2 : ∀ x, s0.visited x ≠ 0 ∨ s1.visited x = 0 → s.visited x ≠ 0 ∨ s1.visited x = 0 := by
    intro x hx
    rcases hx with hx | hx
    · left; rw [h2 x hx]; exact hx
    · exact Or.inr hx
  have hdv : s1.dfn v = s.time + 1 := c8
  have hdu : s1.dfn u = s.dfn u := c4 u (Or.inl h1)
  have hlu : s1.low u = s.low u := c5 u (Or.inl h1)
  have hpu : s1.parent u = s0.parent u := by
    rw [c6 u (Or.inl h1), upd_ne _ _ huv]
    exact h6 u (Or.inr (Or.inr rfl))
  have hau : s1.articulation u = s.articulation u := c9 u huv
  refine ⟨⟨?_, ?_, ?_, ?_, ?_, ?_, ?_, ?_, ?_, ?_⟩, h0, ?_, ?_⟩
  · simpa using hs1u
  · intro x hx
    rw [afterChild_visited, c2 x (by rw [h2 x hx]; exact hx)]
    exact h2 x hx
  · intro x hx
    rw [afterChild_visited] at hx
    rcases c3 x hx with hx | hx
    · exact h3 x hx
    · exact Or.inr hx
  · intro x hx
    rw [afterChild_visited] at hx
    rw [afterChild_dfn, c4 x (hold2 x hx)]
    exact h4 x (hold x hx)
  · intro x hx
    rw [afterChild_visited] at hx
    rw [afterChild_low_ne u v c s1 (hne x (hold x hx)), c5 x (hold2 x hx)]
    exact h5 x (hold x hx)
  · intro x hx
    rw [afterChild_visited] at hx
    rw [afterChild_parent]
    rcases hx with hx | hx | hx
    · have hxs : s.visited x ≠ 0 := by rw [h2 x hx]; exact hx
      have hxv : x ≠ v := fun e => hxs (e ▸ hv)
      rw [c6 x (Or.inl hxs), upd_ne _ _ hxv]
      exact h6 x (Or.inl hx)
    · have hxs : s.visited x = 0 := by
        by_contra hc
        exact hmono x hc hx
      have hxv : x ≠ v := fun e => c1 (e ▸ hx)
      rw [c6 x (Or.inr (Or.inl hx)), upd_ne _ _ hxv]
      exact h6 x (Or.inr (Or.inl hxs))
    · subst hx
      exact hpu
  · rw [afterChild_time]; omega
  · rw [afterChild_dfn, hdu]; exact h8
  · intro x hx
    rw [afterChild_articulation_ne u v c s1 hx]
    by_cases hxv : x = v
    · subst hxv
      rw [c10 (by simp [upd])]
      exact h9 x hx
    · rw [c9 x hxv]
      exact h9 x hx
  · intro hp
    rw [afterChild_articulation_root u v c s1 (by omega), hpu, if_neg (fun hh => hp hh.1), hau]
    exact h10 hp
  · rw [afterChild_dfn, hdu]
    have := afterChild_low_le u v c s1
    omega
  · rw [afterChild_dfn, afterChild_time, hdu]; omega

/-- Effect of a call `dfnlow(u)` on the globals. -/
theorem dfnlowOrd_frame {adj : Adj} {ord : List Nat} {n : Nat} (hord : ∀ v ∈ ord, v < n)
    (fuel u : Nat) (s t : State) (hu : u < n) (hv : s.visited u = 0)
    (h : dfnlowOrd adj ord fuel u s = some t) : Frame n u s t := by
  refine call_rule adj ord
    (fun u s => u < n ∧ s.visited u = 0)
    (fun u s t => Frame n u s t)
    (fun u s0 _ _ s => FrameInv n u s0 s)
    ?_ ?_ ?_ ?_ ?_ ?_ fuel u s t ⟨hu, hv⟩ h
  · intro u s hP
    exact frame_enter n u s hP.1 hP.2
  · intro u s0 pre v rest c s _ _ hI _
    exact hI
  · intro u s0 pre v rest c s _ hp _ _ hv
    refine ⟨hord v ?_, hv⟩
    rw [← hp]; simp
  · intro u s0 pre v rest c s s1 _ _ hI _ hv _ hpost
    exact frame_child n u v (c + 1) s0 s s1 hI hv hpost
  · intro u s0 pre v rest c s _ _ hI _ _
    exact frame_back n u v s0 s hI
  · intro u s0 c s _ hI
    exact hI.frame

/-! ## Termination -/

theorem unvisitedCount_mono (n : Nat) (s t : State)
    (h : ∀ x, s.visited x ≠ 0 → t.visited x ≠ 0) : unvisitedCount n t ≤ unvisitedCount n s := by
  unfold unvisitedCount
  apply Finset.card_le_card
  intro x hx
  simp only [Finset.mem_filter] at hx ⊢
  refine ⟨hx.1, ?_⟩
  by_contra hc
  exact h x hc hx.2

theorem unvisitedCount_lt (n : Nat) (s t : State) (u : Nat) (hu : u < n)
    (h : ∀ x, s.visited x ≠ 0 → t.visited x ≠ 0) (hs : s.visited u = 0)
    (ht : t.visited u ≠ 0) : unvisitedCount n t < unvisitedCount n s := by
  unfold unvisitedCount
  apply Finset.card_lt_card
  rw [Finset.ssubset_iff_of_subset]
  · exact ⟨u, by simp [hu, hs], by simp [ht]⟩
  · intro x hx
    simp only [Finset.mem_filter] at hx ⊢
    refine ⟨hx.1, ?_⟩
    by_contra hc
    exact h x hc hx.2

theorem Frame.vis_mono {n u : Nat} {s t : State} (h : Frame n u s t) (x : Nat)
    (hx : s.visited x ≠ 0) : t.visited x ≠ 0 := by
  rw [h.vis_old x hx]; exact hx

theorem loop_total {adj : Adj} {ord : List Nat} {n : Nat} (hord : ∀ v ∈ ord, v < n)
    (fuel u : Nat)
    (ih : ∀ (v : Nat) (s : State), v < n → s.visited v = 0 → unvisitedCount n s ≤ fuel →
      ∃ t, dfnlowOrd adj ord fuel v s = some t) :
    ∀ (l : List Nat) (c : Int) (s : State), (∀ v ∈ l, v < n) → unvisitedCount n s ≤ fuel →
      ∃ r, l.foldlM (dfnlowBody (dfnlowOrd adj ord fuel) adj u) (c, s) = some r := by
  intro l
  induction l with
  | nil => intro c s _ _; exact ⟨(c, s), rfl⟩
  | cons v rest ihl =>
    intro c s hl hs
    have hvn : v < n := hl v (by simp)
    have hrest : ∀ w ∈ rest, w < n := fun w hw => hl w (by simp [hw])
    rw [List.foldlM_cons]
    by_cases ha : adj u v = 0
    · have hb : dfnlowBody (dfnlowOrd adj ord fuel) adj u (c, s) v = some (c, s) := by
        simp [dfnlowBody, ha]
      rw [hb]
      exact ihl c s hrest hs
    · by_cases hv : s.visited v = 0
      · obtain ⟨s1, hs1⟩ := ih v { s with parent := upd s.parent v u } hvn hv hs
        have hF := dfnlowOrd_frame hord fuel v { s with parent := upd s.parent v u } s1 hvn hv hs1
        have hb : dfnlowBody (dfnlowOrd adj ord fuel) adj u (c, s) v
            = some (c + 1, backEdge u v (afterChild u v (c + 1) s1)) := by
          simp [dfnlowBody, ha, hv, hs1]
        rw [hb]
        refine ihl _ _ hrest (le_trans ?_ hs)
        apply unvisitedCount_mono
        intro x hx
        simpa using hF.vis_mono x hx
      · have hb : dfnlowBody (dfnlowOrd adj ord fuel) adj u (c, s) v
            = some (c, backEdge u v s) := by
          simp [dfnlowBody, ha, hv]
        rw [hb]
        refine ihl _ _ hrest (le_trans ?_ hs)
        apply unvisitedCount_mono
        intro x hx
        simpa using hx

/-- Termination of `dfnlow`: fuel that covers the unvisited vertices is enough. -/
theorem dfnlowOrd_total (adj : Adj) {ord : List Nat} {n : Nat} (hord : ∀ v ∈ ord, v < n) :
    ∀ (fuel u : Nat) (s : State), u < n → s.visited u = 0 → unvisitedCount n s ≤ fuel →
      ∃ t, dfnlowOrd adj ord fuel u s = some t := by
  intro fuel
  induction fuel with
  | zero =>
    intro u s hu hv hc
    exfalso
    have : 0 < unvisitedCount n s := by
      unfold unvisitedCount
      apply Finset.card_pos.mpr
      exact ⟨u, by simp [hu, hv]⟩
    omega
  | succ fuel ih =>
    intro u s hu hv hc
    have hlt : unvisitedCount n (enter u s) < unvisitedCount n s := by
      apply unvisitedCount_lt n s (enter u s) u hu _ hv (by simp [enter])
      intro x hx
      have : x ≠ u := fun e => hx (e ▸ hv)
      simpa [enter, upd, this] using hx
    obtain ⟨r, hr⟩ := loop_total hord fuel u ih ord 0 (enter u s) hord (by omega)
    exact ⟨r.2, by simp [dfnlowOrd, hr]⟩

theorem unvisitedCount_le (n : Nat) (s : State) : unvisitedCount n s ≤ n := by
  unfold unvisitedCount
  calc ((Finset.range n).filter (fun i => s.visited i = 0)).card
      ≤ (Finset.range n).card := Finset.card_filter_le _ _
    _ = n := Finset.card_range n

/-- The source `dfnlow` is the order variant for the order `0, 1, ..., V-1`. -/
theorem dfnlow_eq_ord (adj : Adj) (V : Int) :
    ∀ (fuel u : Nat) (s : State),
      dfnlow adj V fuel u s = dfnlowOrd adj (List.range V.toNat) fuel u s := by
  intro fuel
  induction fuel with
  | zero => intro u s; rfl
  | succ fuel ih =>
    intro u s
    have : dfnlow adj V fuel = dfnlowOrd adj (List.range V.toNat) fuel := by
      funext v a; exact ih v a
    simp only [dfnlow, dfnlowOrd, this]

theorem rootLoop_eq_ord (adj : Adj) (V : Int) (s : State) :
    rootLoop adj V s = rootLoopOrd adj (List.range V.toNat) V.toNat s := by
  unfold rootLoop rootLoopOrd
  congr 1
  funext a i
  rw [dfnlow_eq_ord]

theorem findarticulationpoints_eq_ord (adj : Adj) (V : Int) (s : State) :
    findarticulationpoints adj V s = findarticulationpointsOrd adj id V s := by
  unfold findarticulationpoints findarticulationpointsOrd
  rw [rootLoop_eq_ord, List.map_id]

/-! ## What a call explores -/

theorem Conn.weaken {adj : Adj} {n : Nat} {A B : Nat → Prop} (h : ∀ z, A z → B z)
    {a b : Nat} (hc : Conn adj n B a b) : Conn adj n A a b := by
  refine Relation.ReflTransGen.mono ?_ hc
  intro x y hxy
  exact ⟨hxy.1, hxy.2.1, hxy.2.2.1, fun ha => hxy.2.2.2.1 (h x ha), fun ha => hxy.2.2.2.2 (h y ha)⟩

theorem Conn.symm {adj : Adj} {n : Nat} {A : Nat → Prop}
    (hsym : ∀ x y, x < n → y < n → adj x y = adj y x) {a b : Nat} (hc : Conn adj n A a b) :
    Conn adj n A b a := by
  induction hc with
  | refl => exact Relation.ReflTransGen.refl
  | tail _ hxy ih =>
    refine Relation.ReflTransGen.head ?_ ih
    obtain ⟨h1, h2, h3, h4, h5⟩ := hxy
    exact ⟨h2, h1, by rw [← hsym _ _ h1 h2]; exact h3, h5, h4⟩

theorem explored_enter (adj : Adj) (n u : Nat) (s : State) :
    ExploredInv adj n u s [] (enter u s) := by
  have hne : ∀ x, s.visited x = 0 → (enter u s).visited x ≠ 0 → x = u := by
    intro x h0 h1
    by_contra hc
    simp [enter, upd, hc] at h1
    exact h1 h0
  refine ⟨?_, ?_, ?_, ?_⟩
  · intro x h0 h1 hx
    exact absurd (hne x h0 h1) hx
  · intro y hy
    simp at hy
  · intro x h0 h1
    rw [hne x h0 h1]
    exact Relation.ReflTransGen.refl
  · intro x h0 h1 hx
    exact absurd (hne x h0 h1) hx

theorem explored_skip (adj : Adj) (n u v : Nat) (s0 s : State) (pre : List Nat)
    (h : ExploredInv adj n u s0 pre s) (ha : adj u v = 0) :
    ExploredInv adj n u s0 (pre ++ [v]) s := by
  refine ⟨h.closed, ?_, h.reach, h.par_new⟩
  intro y hy hay
  simp only [List.mem_append, List.mem_singleton] at hy
  rcases hy with hy | hy
  · exact h.closed_u y hy hay
  · subst hy; exact absurd ha hay

theorem explored_back (adj : Adj) (n u v : Nat) (s0 s : State) (pre : List Nat)
    (h : ExploredInv adj n u s0 pre s) (hv : s.visited v ≠ 0) :
    ExploredInv adj n u s0 (pre ++ [v]) (backEdge u v s) := by
  refine ⟨?_, ?_, ?_, ?_⟩
  · simpa using h.closed
  · intro y hy hay
    simp only [List.mem_append, List.mem_singleton] at hy
    rw [backEdge_visited]
    rcases hy with hy | hy
    · exact h.closed_u y hy hay
    · subst hy; exact hv
  · simpa using h.reach
  · simpa using h.par_new

theorem explored_child (adj : Adj) (n u v : Nat) (c : Int) (s0 s s1 : State) (pre : List Nat)
    (hu : u < n) (hvn : v < n) (hF : FrameInv n u s0 s) (h : ExploredInv adj n u s0 pre s)
    (ha : adj u v ≠ 0) (hv : s.visited v = 0)
    (hFc : Frame n v { s with parent := upd s.parent v u } s1)
    (hc : Explored adj n v { s with parent := upd s.parent v u } s1) :
    ExploredInv adj n u s0 (pre ++ [v]) (backEdge u v (afterChild u v c s1)) := by
  have hmono : ∀ x, s.visited x ≠ 0 → s1.visited x ≠ 0 := fun x hx => hFc.vis_mono x hx
  have hmono0 : ∀ x, s0.visited x ≠ 0 → s.visited x ≠ 0 := fun x hx => hF.frame.vis_mono x hx
  have hv0 : s0.visited v = 0 := by
    by_contra hc0
    exact hmono0 v hc0 hv
  have huv : u ≠ v := fun e => hF.frame.vis_u (e ▸ hv)
  obtain ⟨g1, g2, g3, g4⟩ := h
  obtain ⟨c1, c2, c3⟩ := hc
  simp only at c1 c2 c3
  have huvc : Conn adj n (fun z => s0.visited z ≠ 0) u v :=
    Relation.ReflTransGen.single ⟨hu, hvn, ha, by simp [hF.vis0], by simp [hv0]⟩
  refine ⟨?_, ?_, ?_, ?_⟩
  · intro x h0 h1 hxu y hy hay
    simp only [backEdge_visited, afterChild_visited] at h1 ⊢
    by_cases hxs : s.visited x = 0
    · exact c1 x hxs h1 y hy hay
    · exact hmono y (g1 x h0 hxs hxu y hy hay)
  · intro y hy hay
    simp only [List.mem_append, List.mem_singleton] at hy
    simp only [backEdge_visited, afterChild_visited]
    rcases hy with hy | hy
    · exact hmono y (g2 y hy hay)
    · subst hy; exact hFc.vis_u
  · intro x h0 h1
    simp only [backEdge_visited, afterChild_visited] at h1
    by_cases hxs : s.visited x = 0
    · refine Relation.ReflTransGen.trans huvc (Conn.weaken ?_ (c2 x hxs h1))
      intro z hz
      exact hmono0 z hz
    · exact g3 x h0 hxs
  · intro x h0 h1 hxu
    simp only [backEdge_visited, afterChild_visited, backEdge_parent, afterChild_parent] at h1 ⊢
    by_cases hxs : s.visited x = 0
    · by_cases hxv : x = v
      · subst hxv
        refine ⟨u, ?_, hF.vis0, hmono u hF.frame.vis_u, ha⟩
        rw [hFc.par_old x (Or.inr (Or.inr rfl))]
        simp [upd]
      · obtain ⟨p, hp1, hp2, hp3, hp4⟩ := c3 x hxs h1 hxv
        refine ⟨p, hp1, ?_, hp3, hp4⟩
        by_contra hc0
        exact hmono0 p hc0 hp2
    · obtain ⟨p, hp1, hp2, hp3, hp4⟩ := g4 x h0 hxs hxu
      refine ⟨p, ?_, hp2, hmono p hp3, hp4⟩
      have hxv : x ≠ v := fun e => hxs (e ▸ hv)
      rw [hFc.par_old x (Or.inl hxs)]
      simp only [upd_ne _ _ hxv]
      exact hp1

/-- What a call `dfnlow(u)` explores. -/
theorem dfnlowOrd_explored {adj : Adj} {ord : List Nat} {n : Nat} (hord : ∀ v, v ∈ ord ↔ v < n)
    (fuel u : Nat) (s t : State) (hu : u < n) (hv : s.visited u = 0)
    (h : dfnlowOrd adj ord fuel u s = some t) : Explored adj n u s t := by
  have hord1 : ∀ v ∈ ord, v < n := fun v hv => (hord v).1 hv
  refine call_rule adj ord
    (fun u s => u < n ∧ s.visited u = 0)
    (fun u s t => Explored adj n u s t)
    (fun u s0 pre _ s => FrameInv n u s0 s ∧ ExploredInv adj n u s0 pre s)
    ?_ ?_ ?_ ?_ ?_ ?_ fuel u s t ⟨hu, hv⟩ h
  · intro u s hP
    exact ⟨frame_enter n u s hP.1 hP.2, explored_enter adj n u s⟩
  · intro u s0 pre v rest c s _ _ hI ha
    exact ⟨hI.1, explored_skip adj n u v s0 s pre hI.2 ha⟩
  · intro u s0 pre v rest c s _ hp _ _ hv
    refine ⟨hord1 v ?_, hv⟩
    rw [← hp]; simp
  · intro u s0 pre v rest c s s1 hP hp hI ha hv hex hpost
    have hvn : v < n := hord1 v (by rw [← hp]; simp)
    obtain ⟨fuel1, hf⟩ := hex
    have hFc := dfnlowOrd_frame hord1 fuel1 v { s with parent := upd s.parent v u } s1 hvn hv hf
    exact ⟨frame_child n u v (c + 1) s0 s s1 hI.1 hv hFc,
      explored_child adj n u v (c + 1) s0 s s1 pre hP.1 hvn hI.1 hI.2 ha hv hFc hpost⟩
  · intro u s0 pre v rest c s _ _ hI _ hv
    exact ⟨frame_back n u v s0 s hI.1, explored_back adj n u v s0 s pre hI.2 hv⟩
  · intro u s0 c s hP hI
    obtain ⟨hF, g1, g2, g3, g4⟩ := hI
    refine ⟨?_, g3, g4⟩
    intro x h0 h1 y hy hay
    by_cases hxu : x = u
    · subst hxu
      exact g2 y ((hord y).2 hy) hay
    · exact g1 x h0 h1 hxu y hy hay

/-- Every vertex that can be reached from `u` through vertices unvisited at the call is
visited when `dfnlow(u)` returns. -/
theorem visited_of_conn {adj : Adj} {n u : Nat} {s t : State} (hF : Frame n u s t)
    (hE : Explored adj n u s t) {x : Nat}
    (hc : Conn adj n (fun z => s.visited z ≠ 0) u x) : t.visited x ≠ 0 := by
  induction hc with
  | refl => exact hF.vis_u
  | @tail a b _ hxy ih =>
    obtain ⟨_, h2, h3, h4, _⟩ := hxy
    exact hE.closed a (by simpa using h4) ih b h2 h3

/-! ## Root calls -/

theorem afterChild_articulation_of_root (u v : Nat) (c : Int) (s : State)
    (h : s.parent u = -1) :
    (afterChild u v c s).articulation u = if c > 1 then 1 else s.articulation u := by
  unfold afterChild
  simp only
  by_cases h1 : c > 1
  · simp [h, h1]
  · simp [h, h1]

theorem root_enter (adj : Adj) (n r : Nat) (s : State) :
    RootInv adj n r s 0 (enter r s) := by
  refine ⟨by simp [enter], Or.inl ⟨rfl, ?_⟩⟩
  intro x h0 h1
  by_contra hc
  simp [enter, upd, hc] at h1
  exact h1 h0

theorem root_back (adj : Adj) (n r v : Nat) (c : Int) (s0 s : State)
    (h : RootInv adj n r s0 c s) : RootInv adj n r s0 c (backEdge r v s) := by
  unfold RootInv at h ⊢
  simpa using h

theorem root_child (adj : Adj) (n r v : Nat) (c : Int) (s0 s s1 : State)
    (hvn : v < n) (hp : s0.parent r = -1) (hF : FrameInv n r s0 s) (h : RootInv adj n r s0 c s)
    (ha : adj r v ≠ 0) (hv : s.visited v = 0)
    (hFc : Frame n v { s with parent := upd s.parent v r } s1)
    (hE : Explored adj n v { s with parent := upd s.parent v r } s1) :
    RootInv adj n r s0 (c + 1) (backEdge r v (afterChild r v (c + 1) s1)) := by
  have hmono : ∀ x, s.visited x ≠ 0 → s1.visited x ≠ 0 := fun x hx => hFc.vis_mono x hx
  have hmono0 : ∀ x, s0.visited x ≠ 0 → s.visited x ≠ 0 := fun x hx => hF.frame.vis_mono x hx
  have hv0 : s0.visited v = 0 := by
    by_contra hc0
    exact hmono0 v hc0 hv
  have hrv : r ≠ v := fun e => hF.frame.vis_u (e ▸ hv)
  have hF2 := frame_child n r v (c + 1) s0 s s1 hF hv hFc
  have hp1 : s1.parent r = -1 := by
    have := hF2.frame.par_old r (Or.inr (Or.inr rfl))
    simp only [backEdge_parent, afterChild_parent] at this
    rw [this]; exact hp
  have hart : s1.articulation r = s.articulation r := hFc.art_ne r hrv
  obtain ⟨h1, h2⟩ := h
  have hc0 : 0 ≤ c := by
    rcases h2 with h2 | h2 | h2 <;> omega
  refine ⟨?_, ?_⟩
  · rw [backEdge_articulation, afterChild_articulation_of_root r v (c + 1) s1 hp1, hart, h1]
    by_cases hc1 : c > 1
    · simp [hc1]; omega
    · simp [hc1]
  · rcases h2 with ⟨hc, h2⟩ | ⟨hc, v1, a1, a2, a3, a4, a5, a6⟩ | ⟨hc, h2⟩
    · right; left
      refine ⟨by omega, v, hvn, fun e => hrv e.symm, ha, hv0, ?_, ?_⟩
      · intro x hx0 hx1 hxr
        simp only [backEdge_visited, afterChild_visited] at hx1
        have hxs : s.visited x = 0 := by
          by_contra hcs
          exact hxr (h2 x hx0 hcs)
        refine Conn.weaken ?_ (hE.reach x hxs hx1)
        intro z hz
        rcases hz with hz | hz
        · exact hmono0 z hz
        · subst hz; exact hF.frame.vis_u
      · intro x hx
        simp only [backEdge_visited, afterChild_visited]
        refine visited_of_conn hFc hE (Conn.weaken ?_ hx)
        intro z hz
        by_cases hz0 : s0.visited z = 0
        · exact Or.inr (h2 z hz0 hz)
        · exact Or.inl hz0
    · right; right
      refine ⟨by omega, v1, v, a1, hvn, a2, fun e => hrv e.symm, a3, ha, a4, hv0, ?_⟩
      intro hcon
      exact a6 v hcon hv
    · right; right
      exact ⟨by omega, h2⟩

/-- The loop of a root call maintains `RootInv`. -/
theorem root_call {adj : Adj} {ord : List Nat} {n : Nat} (hord : ∀ v, v ∈ ord ↔ v < n)
    (fuel r : Nat) (s t : State) (hr : r < n) (hv : s.visited r = 0) (hp : s.parent r = -1)
    (h : dfnlowOrd adj ord fuel r s = some t) : ∃ c, RootInv adj n r s c t := by
  have hord1 : ∀ v ∈ ord, v < n := fun v hv => (hord v).1 hv
  cases fuel with
  | zero => simp [dfnlowOrd] at h
  | succ fuel =>
    simp only [dfnlowOrd, Option.map_eq_some'] at h
    obtain ⟨res, hres, rfl⟩ := h
    have key := loop_rule adj r (dfnlowOrd adj ord fuel)
      (fun v a => v < n ∧ a.visited v = 0)
      (fun v a b => Frame n v a b ∧ Explored adj n v a b)
      (fun _ c a => FrameInv n r s a ∧ RootInv adj n r s c a) ord
      (fun v a b hPa hc =>
        ⟨dfnlowOrd_frame hord1 fuel v a b hPa.1 hPa.2 hc,
          dfnlowOrd_explored hord fuel v a b hPa.1 hPa.2 hc⟩)
      (fun pre v rest c a _ hI _ => hI)
      (fun pre v rest c a hp _ _ hv => ⟨hord1 v (by rw [← hp]; simp), hv⟩)
      (fun pre v rest c a s1 hpp hI ha hv _ hPost =>
        ⟨frame_child n r v (c + 1) s a s1 hI.1 hv hPost.1,
          root_child adj n r v c s a s1 (hord1 v (by rw [← hpp]; simp)) hp hI.1 hI.2 ha hv
            hPost.1 hPost.2⟩)
      (fun pre v rest c a _ hI _ _ => ⟨frame_back n r v s a hI.1, root_back adj n r v c s a hI.2⟩)
      ord [] 0 (enter r s) res (by simp) ⟨frame_enter n r s hr hv, root_enter adj n r s⟩ hres
    exact ⟨res.1, key.2⟩

/-- A root is marked only if two of its neighbours are separated by it. -/
theorem root_marked_imp {adj : Adj} {n r : Nat} {s t : State} {c : Int}
    (h : RootInv adj n r s c t) (hne : t.articulation r ≠ s.articulation r) :
    ∃ v1 v2, v1 < n ∧ v2 < n ∧ v1 ≠ r ∧ v2 ≠ r ∧ adj r v1 ≠ 0 ∧ adj r v2 ≠ 0 ∧
      s.visited v1 = 0 ∧ s.visited v2 = 0 ∧
      ¬ Conn adj n (fun z => s.visited z ≠ 0 ∨ z = r) v1 v2 := by
  obtain ⟨h1, h2⟩ := h
  rcases h2 with ⟨hc, _⟩ | ⟨hc, _⟩ | ⟨_, h2⟩
  · rw [h1, if_neg (by omega)] at hne; exact absurd rfl hne
  · rw [h1, if_neg (by omega)] at hne; exact absurd rfl hne
  · exact h2

/-- In a symmetric graph, a root that separates two of its neighbours is marked. -/
theorem root_marked_of_sep {adj : Adj} {n r : Nat} {s t : State} {c : Int}
    (hsym : ∀ x y, x < n → y < n → adj x y = adj y x)
    (hF : Frame n r s t) (hE : Explored adj n r s t) (hv : s.visited r = 0)
    (h : RootInv adj n r s c t) {a b : Nat} (han : a < n) (hbn : b < n) (har : a ≠ r)
    (hbr : b ≠ r) (haa : adj r a ≠ 0) (hab : adj r b ≠ 0) (ha0 : s.visited a = 0)
    (hb0 : s.visited b = 0) (hsep : ¬ Conn adj n (fun z => s.visited z ≠ 0 ∨ z = r) a b) :
    t.articulation r = 1 := by
  have hta : t.visited a ≠ 0 := hE.closed r hv hF.vis_u a han haa
  have htb : t.visited b ≠ 0 := hE.closed r hv hF.vis_u b hbn hab
  obtain ⟨h1, h2⟩ := h
  rcases h2 with ⟨_, h2⟩ | ⟨_, v1, _, _, _, _, a5, _⟩ | ⟨hc, _⟩
  · exact absurd (h2 a ha0 hta) har
  · exfalso
    apply hsep
    exact Relation.ReflTransGen.trans (Conn.symm hsym (a5 a ha0 hta har)) (a5 b hb0 htb hbr)
  · rw [h1, if_pos hc]

/-! ## The loops of `findarticulationpoints` -/

theorem resetLoop_aux (n : Nat) (s : State) :
    let t := (List.range n).foldl
      (fun (s : State) i =>
        { s with
          parent := upd s.parent i (-1)
          articulation := upd s.articulation i 0
          visited := upd s.visited i 0 }) s
    (∀ i, i < n → t.parent i = -1 ∧ t.articulation i = 0 ∧ t.visited i = 0) ∧
    (∀ i, n ≤ i → t.parent i = s.parent i ∧ t.articulation i = s.articulation i ∧
      t.visited i = s.visited i) ∧
    t.dfn = s.dfn ∧ t.low = s.low ∧ t.time = s.time := by
  induction n with
  | zero => simp
  | succ n ih =>
    simp only [List.range_succ, List.foldl_append, List.foldl_cons, List.foldl_nil]
    obtain ⟨h1, h2, h3, h4, h5⟩ := ih
    refine ⟨?_, ?_, h3, h4, h5⟩
    · intro i hi
      by_cases hin : i = n
      · subst hin; simp
      · have := h1 i (by omega)
        simp [upd, hin, this]
    · intro i hi
      have hin : i ≠ n := by omega
      have := h2 i (by omega)
      simp [upd, hin, this]

theorem resetLoop_isReset (V : Int) (s : State) : IsReset V.toNat (resetLoop V s) :=
  (resetLoop_aux V.toNat s).1

theorem resetLoop_frame (V : Int) (s : State) :
    (resetLoop V s).dfn = s.dfn ∧ (resetLoop V s).low = s.low ∧
      (resetLoop V s).time = s.time :=
  (resetLoop_aux V.toNat s).2.2

/-- Rule for the second loop of `findarticulationpoints`. -/
theorem rootLoop_rule (adj : Adj) (ord : List Nat) (n : Nat) (J : Nat → State → Prop)
    (hskip : ∀ k s, k < n → J k s → s.visited k ≠ 0 → J (k + 1) s)
    (hcall : ∀ k s t, k < n → J k s → s.visited k = 0 → dfnlowOrd adj ord n k s = some t →
      J (k + 1) t)
    (s t : State) (h0 : J 0 s) (h : rootLoopOrd adj ord n s = some t) : J n t := by
  have key : ∀ m, m ≤ n → ∀ t, (List.range m).foldlM
      (fun s i => if s.visited i = 0 then dfnlowOrd adj ord n i s else some s) s = some t →
      J m t := by
    intro m
    induction m with
    | zero =>
      intro _ t ht
      simp at ht
      subst ht; exact h0
    | succ m ih =>
      intro hm t ht
      rw [List.range_succ, List.foldlM_append] at ht
      simp only [List.foldlM_cons, List.foldlM_nil, Option.bind_eq_bind,
        Option.bind_eq_some] at ht
      obtain ⟨a, ha, hb⟩ := ht
      have hJ := ih (by omega) a ha
      by_cases hv : a.visited m = 0
      · simp only [hv, if_true] at hb
        obtain ⟨b, hb1, hb2⟩ := hb
        simp at hb2
        subst hb2
        exact hcall m a b (by omega) hJ hv hb1
      · simp only [hv, if_false] at hb
        obtain ⟨b, hb1, hb2⟩ := hb
        simp at hb1 hb2
        subst hb1; subst hb2
        exact hskip m a (by omega) hJ hv
  exact key n (le_refl n) t h

/-- The second loop of `findarticulationpoints` never runs out of fuel. -/
theorem rootLoopOrd_total (adj : Adj) {ord : List Nat} {n : Nat} (hord : ∀ v ∈ ord, v < n)
    (s : State) : ∃ t, rootLoopOrd adj ord n s = some t := by
  have key : ∀ m, m ≤ n → ∃ t, (List.range m).foldlM
      (fun s i => if s.visited i = 0 then dfnlowOrd adj ord n i s else some s) s = some t := by
    intro m
    induction m with
    | zero => intro _; exact ⟨s, rfl⟩
    | succ m ih =>
      intro hm
      obtain ⟨a, ha⟩ := ih (by omega)
      rw [List.range_succ, List.foldlM_append, ha]
      by_cases hv : a.visited m = 0
      · obtain ⟨b, hb⟩ := dfnlowOrd_total adj hord n m a (by omega) hv
          (unvisitedCount_le n a)
        exact ⟨b, by simp [hv, hb]⟩
      · exact ⟨a, by simp [hv]⟩
  exact key n (le_refl n)

/-- For every matrix: a marked vertex is a traversal root with the mark `1`, and it has
two distinct neighbours other than itself. -/
theorem rootLoopOrd_marked {adj : Adj} {ord : List Nat} {n : Nat}
    (hord : ∀ v, v ∈ ord ↔ v < n) (s t : State) (hs : IsReset n s)
    (h : rootLoopOrd adj ord n s = some t) :
    ∀ x, x < n → t.articulation x ≠ 0 →
      t.parent x = -1 ∧ t.articulation x = 1 ∧
      ∃ v1 v2, v1 < n ∧ v2 < n ∧ v1 ≠ x ∧ v2 ≠ x ∧ v1 ≠ v2 ∧ adj x v1 ≠ 0 ∧ adj x v2 ≠ 0 := by
  have hord1 : ∀ v ∈ ord, v < n := fun v hv => (hord v).1 hv
  have key := rootLoop_rule adj ord n
    (fun _ a => (∀ x, x < n → a.visited x = 0 → a.parent x = -1 ∧ a.articulation x = 0) ∧
      ∀ x, x < n → a.articulation x ≠ 0 →
        a.parent x = -1 ∧ a.articulation x = 1 ∧
        ∃ v1 v2, v1 < n ∧ v2 < n ∧ v1 ≠ x ∧ v2 ≠ x ∧ v1 ≠ v2 ∧ adj x v1 ≠ 0 ∧ adj x v2 ≠ 0)
    (fun k a _ hJ _ => hJ) ?_ s t ?_ h
  · exact key.2
  · intro k a b hk hJ hv hcall
    obtain ⟨j1, j2⟩ := hJ
    have hF := dfnlowOrd_frame hord1 n k a b hk hv hcall
    obtain ⟨c, hR⟩ := root_call hord n k a b hk hv (j1 k hk hv).1 hcall
    have hpk : b.parent k = -1 := by
      rw [hF.par_old k (Or.inr (Or.inr rfl))]; exact (j1 k hk hv).1
    refine ⟨?_, ?_⟩
    · intro x hx hbx
      have hax : a.visited x = 0 := by
        by_contra hc
        exact hF.vis_mono x hc hbx
      have hxk : x ≠ k := fun e => hF.vis_u (e ▸ hbx)
      rw [hF.par_old x (Or.inr (Or.inl hbx)), hF.art_ne x hxk]
      exact j1 x hx hax
    · intro x hx hart
      by_cases hxk : x = k
      · subst hxk
        have hne : b.articulation x ≠ a.articulation x := by
          rw [(j1 x hx hv).2]; exact hart
        obtain ⟨v1, v2, a1, a2, a3, a4, a5, a6, _, _, a9⟩ := root_marked_imp hR hne
        refine ⟨hpk, ?_, v1, v2, a1, a2, a3, a4, ?_, a5, a6⟩
        · obtain ⟨h1, h2⟩ := hR
          rw [h1] at hne ⊢
          by_cases hc : c > 1
          · simp [hc]
          · simp [hc] at hne
        · rintro rfl
          exact a9 Relation.ReflTransGen.refl
      · rw [hF.art_ne x hxk] at hart ⊢
        have hvx : a.visited x ≠ 0 := fun e => hart (j1 x hx e).2
        rw [hF.par_old x (Or.inl hvx)]
        exact j2 x hx hart
  · refine ⟨fun x hx _ => ⟨(hs x hx).1, (hs x hx).2.1⟩, ?_⟩
    intro x hx hart
    exact absurd (hs x hx).2.1 hart

/-! ## Symmetric matrices: which vertices are marked -/

theorem Conn.lt_of_lt {adj : Adj} {n : Nat} {A : Nat → Prop} {a b : Nat}
    (hc : Conn adj n A a b) (ha : a < n) : b < n := by
  induction hc with
  | refl => exact ha
  | tail _ hxy _ => exact hxy.2.1

theorem RootLoopInv.unvis_of_conn {adj : Adj} {n k : Nat} {s : State}
    (hsym : ∀ x y, x < n → y < n → adj x y = adj y x) (hJ : RootLoopInv adj n k s)
    {a x : Nat} (ha : a < n) (hav : s.visited a = 0)
    (hc : Conn adj n (fun _ => False) a x) : s.visited x = 0 := by
  by_contra hx
  obtain ⟨j, hj, hjx⟩ := (hJ.vis_iff x (hc.lt_of_lt ha)).1 hx
  exact (hJ.vis_iff a ha).2 ⟨j, hj, Relation.ReflTransGen.trans hjx (Conn.symm hsym hc)⟩ hav

theorem RootLoopInv.conn_avoid {adj : Adj} {n k : Nat} {s : State}
    (hsym : ∀ x y, x < n → y < n → adj x y = adj y x) (hJ : RootLoopInv adj n k s)
    (B : Nat → Prop) {a b : Nat} (ha : a < n) (hav : s.visited a = 0)
    (hc : Conn adj n B a b) : Conn adj n (fun z => s.visited z ≠ 0 ∨ B z) a b := by
  induction hc with
  | refl => exact Relation.ReflTransGen.refl
  | @tail x y hax hxy ih =>
    have hx0 : s.visited x = 0 :=
      hJ.unvis_of_conn hsym ha hav (Conn.weaken (fun _ hf => hf.elim) hax)
    have hy0 : s.visited y = 0 :=
      hJ.unvis_of_conn hsym ha hav
        (Conn.weaken (fun _ hf => hf.elim) (Relation.ReflTransGen.tail hax hxy))
    refine Relation.ReflTransGen.tail ih ⟨hxy.1, hxy.2.1, hxy.2.2.1, ?_, ?_⟩
    · rintro (h | h)
      · exact h hx0
      · exact hxy.2.2.2.1 h
    · rintro (h | h)
      · exact h hy0
      · exact hxy.2.2.2.2 h

theorem rootLoopInv_init (adj : Adj) (n : Nat) (s : State) (hs : IsReset n s) :
    RootLoopInv adj n 0 s := by
  refine ⟨?_, ?_, ?_, ?_⟩
  · intro x hx
    constructor
    · intro h; exact absurd (hs x hx).2.2 h
    · rintro ⟨j, hj, _⟩; omega
  · intro x hx _; exact ⟨(hs x hx).1, (hs x hx).2.1⟩
  · intro x hx h; exact absurd (hs x hx).2.2 h
  · intro x hx h; exact absurd (hs x hx).2.2 h

theorem rootLoopInv_skip (adj : Adj) (n k : Nat) (s : State) (hk : k < n)
    (hJ : RootLoopInv adj n k s) (hv : s.visited k ≠ 0) : RootLoopInv adj n (k + 1) s := by
  refine ⟨?_, hJ.unvis, hJ.par_iff, hJ.art_iff⟩
  intro x hx
  rw [hJ.vis_iff x hx]
  constructor
  · rintro ⟨j, hj, hc⟩; exact ⟨j, by omega, hc⟩
  · rintro ⟨j, hj, hc⟩
    by_cases hjk : j = k
    · subst hjk
      obtain ⟨i, hi, hic⟩ := (hJ.vis_iff j hk).1 hv
      exact ⟨i, hi, Relation.ReflTransGen.trans hic hc⟩
    · exact ⟨j, by omega, hc⟩

theorem rootLoopInv_call {adj : Adj} {ord : List Nat} {n : Nat}
    (hsym : ∀ x y, x < n → y < n → adj x y = adj y x) (hord : ∀ v, v ∈ ord ↔ v < n)
    (k : Nat) (s t : State) (hk : k < n) (hJ : RootLoopInv adj n k s)
    (hv : s.visited k = 0) (hcall : dfnlowOrd adj ord n k s = some t) :
    RootLoopInv adj n (k + 1) t := by
  have hord1 : ∀ v ∈ ord, v < n := fun v hv => (hord v).1 hv
  have hF := dfnlowOrd_frame hord1 n k s t hk hv hcall
  have hE := dfnlowOrd_explored hord n k s t hk hv hcall
  have hpk0 : s.parent k = -1 := (hJ.unvis k hk hv).1
  obtain ⟨c, hR⟩ := root_call hord n k s t hk hv hpk0 hcall
  have hpk : t.parent k = -1 := by
    rw [hF.par_old k (Or.inr (Or.inr rfl))]; exact hpk0
  have hrootk : IsRoot adj n k := by
    intro j hj hc
    exact (hJ.vis_iff k hk).2 ⟨j, hj, hc⟩ hv
  have hlt : ∀ j, j < k → s.visited j ≠ 0 := fun j hj =>
    (hJ.vis_iff j (by omega)).2 ⟨j, hj, Relation.ReflTransGen.refl⟩
  have hnew : ∀ x, s.visited x = 0 → t.visited x ≠ 0 → Conn adj n (fun _ => False) k x :=
    fun x h0 h1 => Conn.weaken (fun _ hf => hf.elim) (hE.reach x h0 h1)
  refine ⟨?_, ?_, ?_, ?_⟩
  · intro x hx
    constructor
    · intro h
      by_cases hxs : s.visited x = 0
      · exact ⟨k, by omega, hnew x hxs h⟩
      · obtain ⟨j, hj, hc⟩ := (hJ.vis_iff x hx).1 hxs
        exact ⟨j, by omega, hc⟩
    · rintro ⟨j, hj, hc⟩
      by_cases hjk : j = k
      · subst hjk
        refine visited_of_conn hF hE (Conn.weaken ?_ (hJ.conn_avoid hsym _ hk hv hc))
        intro z hz
        exact Or.inl hz
      · exact hF.vis_mono x ((hJ.vis_iff x hx).2 ⟨j, by omega, hc⟩)
  · intro x hx htx
    have hsx : s.visited x = 0 := by
      by_contra hc
      exact hF.vis_mono x hc htx
    have hxk : x ≠ k := fun e => hF.vis_u (e ▸ htx)
    rw [hF.par_old x (Or.inr (Or.inl htx)), hF.art_ne x hxk]
    exact hJ.unvis x hx hsx
  · intro x hx htx
    by_cases hxs : s.visited x = 0
    · by_cases hxk : x = k
      · subst hxk
        exact ⟨fun _ => hrootk, fun _ => hpk⟩
      · obtain ⟨p, hp, _⟩ := hE.par_new x hxs htx hxk
        have hkx : k < x := by
          by_contra hc
          exact hlt x (by omega) hxs
        constructor
        · intro h; rw [hp] at h; omega
        · intro h; exact absurd (hnew x hxs htx) (h k hkx)
    · rw [hF.par_old x (Or.inl hxs)]
      exact hJ.par_iff x hx hxs
  · intro x hx htx
    by_cases hxs : s.visited x = 0
    · by_cases hxk : x = k
      · subst hxk
        have ha0 : s.articulation x = 0 := (hJ.unvis x hx hxs).2
        constructor
        · intro hart
          refine ⟨hrootk, ?_⟩
          obtain ⟨v1, v2, a1, a2, a3, a4, a5, a6, a7, _, a9⟩ :=
            root_marked_imp hR (by rw [ha0]; exact hart)
          refine ⟨v1, v2, a1, a2, a3, a4, a5, a6, ?_⟩
          intro hc
          exact a9 (hJ.conn_avoid hsym _ a1 a7 hc)
        · rintro ⟨_, a, b, a1, a2, a3, a4, a5, a6, a7⟩
          have hunv : ∀ y, y < n → adj x y ≠ 0 → s.visited y = 0 := by
            intro y hy hay
            exact hJ.unvis_of_conn hsym hx hxs
              (Relation.ReflTransGen.single ⟨hx, hy, hay, fun hf => hf, fun hf => hf⟩)
          have := root_marked_of_sep hsym hF hE hxs hR a1 a2 a3 a4 a5 a6 (hunv a a1 a5)
            (hunv b a2 a6) (fun hc => a7 (Conn.weaken (fun _ hz => Or.inr hz) hc))
          rw [this]; decide
      · have hkx : k < x := by
          by_contra hc
          exact hlt x (by omega) hxs
        rw [hF.art_ne x hxk, (hJ.unvis x hx hxs).2]
        constructor
        · intro h; exact absurd rfl h
        · rintro ⟨h, _⟩; exact absurd (hnew x hxs htx) (h k hkx)
    · have hxk : x ≠ k := fun e => hxs (e ▸ hv)
      rw [hF.art_ne x hxk]
      exact hJ.art_iff x hx hxs

/-- For a symmetric matrix: the state after the second loop of `findarticulationpoints`. -/
theorem rootLoopOrd_inv {adj : Adj} {ord : List Nat} {n : Nat}
    (hsym : ∀ x y, x < n → y < n → adj x y = adj y x) (hord : ∀ v, v ∈ ord ↔ v < n)
    (s t : State) (hs : IsReset n s) (h : rootLoopOrd adj ord n s = some t) :
    RootLoopInv adj n n t :=
  rootLoop_rule adj ord n (fun k a => RootLoopInv adj n k a)
    (fun k a hk hJ hv => rootLoopInv_skip adj n k a hk hJ hv)
    (fun k a b hk hJ hv hc => rootLoopInv_call hsym hord k a b hk hJ hv hc)
    s t (rootLoopInv_init adj n s hs) h

/-- For a symmetric matrix, the marked vertices are the component roots that separate
two of their neighbours, whatever the order in which neighbours are scanned. -/
theorem rootLoopOrd_marked_iff {adj : Adj} {ord : List Nat} {n : Nat}
    (hsym : ∀ x y, x < n → y < n → adj x y = adj y x) (hord : ∀ v, v ∈ ord ↔ v < n)
    (s t : State) (hs : IsReset n s) (h : rootLoopOrd adj ord n s = some t) (x : Nat)
    (hx : x < n) : t.articulation x ≠ 0 ↔ IsRoot adj n x ∧ Separates adj n x := by
  have hJ := rootLoopOrd_inv hsym hord s t hs h
  exact hJ.art_iff x hx ((hJ.vis_iff x hx).2 ⟨x, hx, Relation.ReflTransGen.refl⟩)

/-! ## Two runs from states that agree -/

theorem agree_setParent {n : Nat} {s t : State} (h : Agree n s t) (v u : Nat) :
    Agree n { s with parent := upd s.parent v u } { t with parent := upd t.parent v u } := by
  intro i hi
  obtain ⟨h1, h2, h3⟩ := h i hi
  refine ⟨h1, ?_, h3⟩
  simp only [upd]
  split
  · rfl
  · exact h2

theorem agree_back {n : Nat} {s t : State} (h : Agree n s t) (u v : Nat) :
    Agree n (backEdge u v s) (backEdge u v t) := by
  intro i hi
  simpa using h i hi

theorem agree_afterChild {n : Nat} {s t : State} (h : Agree n s t) (u v : Nat) (c : Int)
    (hu : u < n) (hs : s.low u < s.dfn v) (ht : t.low u < t.dfn v) :
    Agree n (afterChild u v c s) (afterChild u v c t) := by
  intro i hi
  obtain ⟨h1, h2, h3⟩ := h i hi
  refine ⟨by simpa using h1, by simpa using h2, ?_⟩
  by_cases hiu : i = u
  · subst hiu
    rw [afterChild_articulation_root i v c s hs, afterChild_articulation_root i v c t ht,
      h2, h3]
  · rw [afterChild_articulation_ne u v c s hiu, afterChild_articulation_ne u v c t hiu]
    exact h3

/-- In the loop of `dfnlow(u)`, the child just explored has a larger `dfn` than
`low[u]`. -/
theorem FrameInv.low_lt_child {n u v : Nat} {s0 s s1 : State} (hF : FrameInv n u s0 s)
    (hFc : Frame n v { s with parent := upd s.parent v u } s1) : s1.low u < s1.dfn v := by
  have h1 : s1.low u = s.low u := hFc.low_old u (Or.inl hF.frame.vis_u)
  have h2 : s1.dfn v = s.time + 1 := hFc.dfn_u
  have := hF.low_le
  have := hF.dfn_le
  omega

theorem loop_agree {adj : Adj} {ord : List Nat} {n : Nat} (hord : ∀ v ∈ ord, v < n)
    (fuel u : Nat) (hu : u < n) (s0 t0 : State)
    (ih : ∀ (v : Nat) (s t s1 t1 : State), v < n → s.visited v = 0 → Agree n s t →
      dfnlowOrd adj ord fuel v s = some s1 → dfnlowOrd adj ord fuel v t = some t1 →
      Agree n s1 t1) :
    ∀ (l : List Nat) (c : Int) (s t : State) (r1 r2 : Int × State), (∀ v ∈ l, v < n) →
      Agree n s t → FrameInv n u s0 s → FrameInv n u t0 t →
      l.foldlM (dfnlowBody (dfnlowOrd adj ord fuel) adj u) (c, s) = some r1 →
      l.foldlM (dfnlowBody (dfnlowOrd adj ord fuel) adj u) (c, t) = some r2 →
      Agree n r1.2 r2.2 := by
  intro l
  induction l with
  | nil =>
    intro c s t r1 r2 _ hA _ _ h1 h2
    simp at h1 h2
    subst h1; subst h2; exact hA
  | cons v rest ihl =>
    intro c s t r1 r2 hl hA hFs hFt h1 h2
    have hvn : v < n := hl v (by simp)
    have hrest : ∀ w ∈ rest, w < n := fun w hw => hl w (by simp [hw])
    rw [List.foldlM_cons] at h1 h2
    have hvis : s.visited v = t.visited v := (hA v hvn).1
    by_cases ha : adj u v = 0
    · have hb : ∀ a : State, dfnlowBody (dfnlowOrd adj ord fuel) adj u (c, a) v = some (c, a) := by
        intro a; simp [dfnlowBody, ha]
      rw [hb] at h1 h2
      exact ihl c s t r1 r2 hrest hA hFs hFt h1 h2
    · by_cases hv : s.visited v = 0
      · have hv2 : t.visited v = 0 := by rw [← hvis]; exact hv
        cases hc1 : dfnlowOrd adj ord fuel v { s with parent := upd s.parent v u } with
        | none =>
          have hb : dfnlowBody (dfnlowOrd adj ord fuel) adj u (c, s) v = none := by
            simp [dfnlowBody, ha, hv, hc1]
          rw [hb] at h1
          simp at h1
        | some s1 =>
          cases hc2 : dfnlowOrd adj ord fuel v { t with parent := upd t.parent v u } with
          | none =>
            have hb : dfnlowBody (dfnlowOrd adj ord fuel) adj u (c, t) v = none := by
              simp [dfnlowBody, ha, hv2, hc2]
            rw [hb] at h2
            simp at h2
          | some t1 =>
            have hb1 : dfnlowBody (dfnlowOrd adj ord fuel) adj u (c, s) v
                = some (c + 1, backEdge u v (afterChild u v (c + 1) s1)) := by
              simp [dfnlowBody, ha, hv, hc1]
            have hb2 : dfnlowBody (dfnlowOrd adj ord fuel) adj u (c, t) v
                = some (c + 1, backEdge u v (afterChild u v (c + 1) t1)) := by
              simp [dfnlowBody, ha, hv2, hc2]
            rw [hb1] at h1
            rw [hb2] at h2
            have hFc1 := dfnlowOrd_frame hord fuel v { s with parent := upd s.parent v u } s1
              hvn hv hc1
            have hFc2 := dfnlowOrd_frame hord fuel v { t with parent := upd t.parent v u } t1
              hvn hv2 hc2
            have hA1 : Agree n s1 t1 :=
              ih v { s with parent := upd s.parent v u } { t with parent := upd t.parent v u } s1 t1
                hvn hv (agree_setParent hA v u) hc1 hc2
            exact ihl (c + 1) _ _ r1 r2 hrest
              (agree_back (agree_afterChild hA1 u v (c + 1) hu (hFs.low_lt_child hFc1)
                (hFt.low_lt_child hFc2)) u v)
              (frame_child n u v (c + 1) s0 s s1 hFs hv hFc1)
              (frame_child n u v (c + 1) t0 t t1 hFt hv2 hFc2) h1 h2
      · have hv2 : t.visited v ≠ 0 := by rw [← hvis]; exact hv
        have hb1 : dfnlowBody (dfnlowOrd adj ord fuel) adj u (c, s) v
            = some (c, backEdge u v s) := by
          simp [dfnlowBody, ha, hv]
        have hb2 : dfnlowBody (dfnlowOrd adj ord fuel) adj u (c, t) v
            = some (c, backEdge u v t) := by
          simp [dfnlowBody, ha, hv2]
        rw [hb1] at h1
        rw [hb2] at h2
        exact ihl c _ _ r1 r2 hrest (agree_back hA u v) (frame_back n u v s0 s hFs)
          (frame_back n u v t0 t hFt) h1 h2

theorem agree_enter {n : Nat} {s t : State} (h : Agree n s t) (u : Nat) :
    Agree n (enter u s) (enter u t) := by
  intro i hi
  obtain ⟨h1, h2, h3⟩ := h i hi
  refine ⟨?_, h2, h3⟩
  simp only [enter, upd]
  split
  · rfl
  · exact h1

/-- Calls of `dfnlow` from states that agree on `visited`, `parent` and `articulation`
end in such states: the values of `time`, `dfn` and `low` at entry do not matter. -/
theorem dfnlowOrd_agree {adj : Adj} {ord : List Nat} {n : Nat} (hord : ∀ v ∈ ord, v < n) :
    ∀ (fuel u : Nat) (s t s1 t1 : State), u < n → s.visited u = 0 → Agree n s t →
      dfnlowOrd adj ord fuel u s = some s1 → dfnlowOrd adj ord fuel u t = some t1 →
      Agree n s1 t1 := by
  intro fuel
  induction fuel with
  | zero => intro u s t s1 t1 _ _ _ h; simp [dfnlowOrd] at h
  | succ fuel ih =>
    intro u s t s1 t1 hu hv hA h1 h2
    simp only [dfnlowOrd, Option.map_eq_some'] at h1 h2
    obtain ⟨r1, hr1, rfl⟩ := h1
    obtain ⟨r2, hr2, rfl⟩ := h2
    have hv2 : t.visited u = 0 := by rw [← (hA u hu).1]; exact hv
    exact loop_agree hord fuel u hu s t ih ord 0 (enter u s) (enter u t) r1 r2 hord
      (agree_enter hA u) (frame_enter n u s hu hv) (frame_enter n u t hu hv2) hr1 hr2

/-- The second loop of `findarticulationpoints` from two states that agree. -/
theorem rootLoopOrd_agree {adj : Adj} {ord : List Nat} {n : Nat} (hord : ∀ v ∈ ord, v < n)
    (s t s1 t1 : State) (hA : Agree n s t) (h1 : rootLoopOrd adj ord n s = some s1)
    (h2 : rootLoopOrd adj ord n t = some t1) : Agree n s1 t1 := by
  have key : ∀ m, m ≤ n → ∀ a b, (List.range m).foldlM
      (fun s i => if s.visited i = 0 then dfnlowOrd adj ord n i s else some s) s = some a →
      (List.range m).foldlM
      (fun s i => if s.visited i = 0 then dfnlowOrd adj ord n i s else some s) t = some b →
      Agree n a b := by
    intro m
    induction m with
    | zero =>
      intro _ a b ha hb
      simp at ha hb
      subst ha; subst hb; exact hA
    | succ m ih =>
      intro hm a b ha hb
      rw [List.range_succ, List.foldlM_append] at ha hb
      simp only [List.foldlM_cons, List.foldlM_nil, Option.bind_eq_bind,
        Option.bind_eq_some] at ha hb
      obtain ⟨a0, ha0, ha1⟩ := ha
      obtain ⟨b0, hb0, hb1⟩ := hb
      have hA0 := ih (by omega) a0 b0 ha0 hb0
      have hvis : a0.visited m = b0.visited m := (hA0 m (by omega)).1
      by_cases hv : a0.visited m = 0
      · have hv2 : b0.visited m = 0 := by rw [← hvis]; exact hv
        simp only [hv, hv2, if_true] at ha1 hb1
        obtain ⟨a2, ha2, ha3⟩ := ha1
        obtain ⟨b2, hb2, hb3⟩ := hb1
        simp at ha3 hb3
        subst ha3; subst hb3
        exact dfnlowOrd_agree hord n m a0 b0 a2 b2 (by omega) hv hA0 ha2 hb2
      · have hv2 : b0.visited m ≠ 0 := by rw [← hvis]; exact hv
        simp only [hv, hv2, if_false] at ha1 hb1
        obtain ⟨a2, ha2, ha3⟩ := ha1
        obtain ⟨b2, hb2, hb3⟩ := hb1
        simp at ha2 ha3 hb2 hb3
        subst ha2; subst ha3; subst hb2; subst hb3
        exact hA0
  exact key n (le_refl n) s1 t1 h1 h2

theorem agree_of_isReset {n : Nat} {s t : State} (hs : IsReset n s) (ht : IsReset n t) :
    Agree n s t := by
  intro i hi
  obtain ⟨a1, a2, a3⟩ := hs i hi
  obtain ⟨b1, b2, b3⟩ := ht i hi
  exact ⟨by rw [a3, b3], by rw [a1, b1], by rw [a2, b2]⟩

/-! ## Printing and termination of `findarticulationpoints` -/

theorem string_join_snoc (l : List String) (x : String) :
    String.join (l ++ [x]) = String.join l ++ x := by
  simp [String.join, List.foldl_append]

theorem printLoop_aux (n : Nat) (s : State) :
    (List.range n).foldl
      (fun out i => if s.articulation i ≠ 0 then out ++ ("router " ++ toString i) else out)
      "articulation points are:"
    = "articulation points are:" ++
        String.join (((List.range n).filter (fun i => s.articulation i ≠ 0)).map
          (fun i => "router " ++ toString i)) := by
  induction n with
  | zero => rfl
  | succ n ih =>
    rw [List.range_succ, List.foldl_append, ih, List.filter_append, List.map_append]
    by_cases h : s.articulation n = 0
    · simp [h]
    · simp [h, string_join_snoc, String.append_assoc]

/-- The printed text: the header followed by `router <i>` for the marked `i`, ascending. -/
theorem printLoop_eq (V : Int) (s : State) :
    printLoop V s = "articulation points are:" ++
      String.join ((marked V.toNat s).map (fun i => "router " ++ toString i)) :=
  printLoop_aux V.toNat s

theorem marked_eq_nil {n : Nat} {s : State} (h : ∀ i, i < n → s.articulation i = 0) :
    marked n s = [] := by
  unfold marked
  rw [List.filter_eq_nil_iff]
  intro i hi
  simp [h i (List.mem_range.1 hi)]

theorem marked_congr {n : Nat} {s t : State}
    (h : ∀ i, i < n → (s.articulation i ≠ 0 ↔ t.articulation i ≠ 0)) :
    marked n s = marked n t := by
  unfold marked
  apply List.filter_congr
  intro i hi
  have := h i (List.mem_range.1 hi)
  simp only [decide_eq_decide]
  exact this

theorem printLoop_of_unmarked {V : Int} {s : State} (h : marked V.toNat s = []) :
    printLoop V s = "articulation points are:" := by
  rw [printLoop_eq, h]; rfl

theorem mem_range_iff (n : Nat) : ∀ v, v ∈ List.range n ↔ v < n := fun _ => List.mem_range

/-- Termination of `findarticulationpoints` (order variant): the result exists and is
the state after the second loop together with the text of the third loop. -/
theorem findarticulationpointsOrd_total (adj : Adj) (σ : Nat → Nat) (V : Int) (s : State)
    (hσ : ∀ v ∈ (List.range V.toNat).map σ, v < V.toNat) :
    ∃ t, rootLoopOrd adj ((List.range V.toNat).map σ) V.toNat (resetLoop V s) = some t ∧
      findarticulationpointsOrd adj σ V s = some (t, printLoop V t) := by
  obtain ⟨t, ht⟩ := rootLoopOrd_total adj hσ (resetLoop V s)
  exact ⟨t, ht, by simp [findarticulationpointsOrd, ht]⟩

/-- Termination of `findarticulationpoints`: the fuel `V` given to each root call of
`dfnlow` is never exhausted. -/
theorem findarticulationpoints_total (adj : Adj) (V : Int) (s : State) :
    ∃ t, rootLoopOrd adj (List.range V.toNat) V.toNat (resetLoop V s) = some t ∧
      findarticulationpoints adj V s = some (t, printLoop V t) := by
  obtain ⟨t, ht⟩ := rootLoopOrd_total adj (fun v hv => (mem_range_iff _ v).1 hv)
    (resetLoop V s)
  exact ⟨t, ht, by simp [findarticulationpoints, rootLoop_eq_ord, ht]⟩

/-! ## Consequences for `findarticulationpoints` -/

theorem toNat_cast (V : Nat) : (V : Int).toNat = V := by simp

/-- For a symmetric matrix, the marks left by `findarticulationpoints` (any neighbour
order that enumerates `0..V-1`). -/
theorem findarticulationpointsOrd_marked_iff (adj : Adj) (σ : Nat → Nat) (V : Nat)
    (hsym : ∀ i j, i < V → j < V → adj i j = adj j i)
    (hσ : ∀ v, v ∈ (List.range V).map σ ↔ v < V) (s t : State)
    (h : rootLoopOrd adj ((List.range V).map σ) V (resetLoop V s) = some t) (x : Nat)
    (hx : x < V) : t.articulation x ≠ 0 ↔ IsRoot adj V x ∧ Separates adj V x := by
  have hs := resetLoop_isReset V s
  rw [toNat_cast] at hs
  exact rootLoopOrd_marked_iff hsym hσ _ t hs h x hx

theorem order_irrelevant_aux (V : Nat) (adj : Adj)
    (hsym : ∀ i j, i < V → j < V → adj i j = adj j i) (σ : Nat → Nat)
    (hσ : ((List.range V).map σ).Perm (List.range V)) (s : State) :
    ∃ t1 t2 out, findarticulationpoints adj V s = some (t1, out) ∧
      findarticulationpointsOrd adj σ V s = some (t2, out) ∧ marked V t1 = marked V t2 := by
  have hmem : ∀ v, v ∈ (List.range V).map σ ↔ v < V := by
    intro v
    rw [hσ.mem_iff]
    exact List.mem_range
  have hid : ∀ v, v ∈ (List.range V).map id ↔ v < V := by
    intro v
    rw [List.map_id]
    exact List.mem_range
  obtain ⟨t1, h1, e1⟩ := findarticulationpoints_total adj V s
  obtain ⟨t2, h2, e2⟩ := findarticulationpointsOrd_total adj σ V s (by
    intro v hv
    rw [toNat_cast] at hv ⊢
    exact (hmem v).1 hv)
  rw [toNat_cast] at h1 h2
  have h1' : rootLoopOrd adj ((List.range V).map id) V (resetLoop V s) = some t1 := by
    rw [List.map_id]; exact h1
  have hm : marked V t1 = marked V t2 := by
    apply marked_congr
    intro i hi
    rw [findarticulationpointsOrd_marked_iff adj id V hsym hid s t1 h1' i hi,
      findarticulationpointsOrd_marked_iff adj σ V hsym hmem s t2 h2 i hi]
  refine ⟨t1, t2, printLoop V t1, e1, ?_, hm⟩
  rw [e2, printLoop_eq, printLoop_eq, toNat_cast, hm]

/-- For every matrix, a vertex marked by `findarticulationpoints` has two distinct
neighbours other than itself. -/
theorem findarticulationpoints_marked (adj : Adj) (V : Int) (s t : State)
    (h : rootLoopOrd adj (List.range V.toNat) V.toNat (resetLoop V s) = some t) (x : Nat)
    (hx : x < V.toNat) (hm : t.articulation x ≠ 0) :
    t.parent x = -1 ∧ t.articulation x = 1 ∧
      ∃ v1 v2, v1 < V.toNat ∧ v2 < V.toNat ∧ v1 ≠ x ∧ v2 ≠ x ∧ v1 ≠ v2 ∧
        adj x v1 ≠ 0 ∧ adj x v2 ≠ 0 :=
  rootLoopOrd_marked (mem_range_iff _) _ t (resetLoop_isReset V s) h x hx hm

theorem small_unmarked_aux (adj : Adj) (V : Int) (hV : V ≤ 2) (s : State) :
    ∃ t, findarticulationpoints adj V s = some (t, "articulation points are:") ∧
      ∀ i : Nat, (i : Int) < V → t.articulation i = 0 := by
  obtain ⟨t, h, e⟩ := findarticulationpoints_total adj V s
  have hall : ∀ i, i < V.toNat → t.articulation i = 0 := by
    intro i hi
    by_contra hm
    obtain ⟨_, _, v1, v2, a1, a2, a3, a4, a5, _, _⟩ :=
      findarticulationpoints_marked adj V s t h i hi hm
    omega
  refine ⟨t, ?_, ?_⟩
  · rw [e, printLoop_of_unmarked (marked_eq_nil hall)]
  · intro i hi
    exact hall i (by omega)

theorem zero_unmarked_aux (V : Int) (s : State) :
    ∃ t, findarticulationpoints zeroAdj V s = some (t, "articulation points are:") ∧
      ∀ i : Nat, (i : Int) < V → t.articulation i = 0 := by
  obtain ⟨t, h, e⟩ := findarticulationpoints_total zeroAdj V s
  have hall : ∀ i, i < V.toNat → t.articulation i = 0 := by
    intro i hi
    by_contra hm
    obtain ⟨_, _, v1, v2, _, _, _, _, _, a6, _⟩ :=
      findarticulationpoints_marked zeroAdj V s t h i hi hm
    exact a6 rfl
  refine ⟨t, ?_, ?_⟩
  · rw [e, printLoop_of_unmarked (marked_eq_nil hall)]
  · intro i hi
    exact hall i (by omega)

theorem main_eq_aux (V E : Int) (pairs : List (Int × Int)) :
    main V E pairs = some (0, "enter the vertices" ++ "enter the edges" ++
      "enter the u and v connections" ++ "articulation points are:") := by
  obtain ⟨t, e, _⟩ := zero_unmarked_aux V initState
  simp only [main, e]

/-- Two calls of `findarticulationpoints` on the same graph from arbitrary globals mark
the same vertices and print the same text. -/
theorem findarticulationpoints_agree (adj : Adj) (V : Int) (s s' : State) :
    ∃ t t' out, findarticulationpoints adj V s = some (t, out) ∧
      findarticulationpoints adj V s' = some (t', out) ∧
      marked V.toNat t = marked V.toNat t' := by
  obtain ⟨t, h, e⟩ := findarticulationpoints_total adj V s
  obtain ⟨t', h', e'⟩ := findarticulationpoints_total adj V s'
  have hA : Agree V.toNat t t' :=
    rootLoopOrd_agree (fun v hv => (mem_range_iff _ v).1 hv) _ _ t t'
      (agree_of_isReset (resetLoop_isReset V s) (resetLoop_isReset V s')) h h'
  have hm : marked V.toNat t = marked V.toNat t' := by
    apply marked_congr
    intro i hi
    rw [(hA i hi).2.2]
  refine ⟨t, t', printLoop V t, e, ?_, hm⟩
  rw [e', printLoop_eq, printLoop_eq, hm]

theorem ringAdj_symm (V i j : Nat) : ringAdj V i j = ringAdj V j i := by
  unfold ringAdj
  apply if_congr _ rfl rfl
  constructor <;> rintro ⟨h1, h2, h3⟩ <;> exact ⟨h2, h1, Or.symm h3⟩

theorem ring_conn_zero (V : Nat) : ∀ x, x < V → Conn (ringAdj V) V (fun _ => False) 0 x := by
  intro x
  induction x with
  | zero => intro _; exact Relation.ReflTransGen.refl
  | succ x ih =>
    intro hx
    refine Relation.ReflTransGen.tail (ih (by omega)) ⟨by omega, hx, ?_, fun h => h, fun h => h⟩
    simp [ringAdj, Nat.mod_eq_of_lt hx, hx]
    omega

theorem ring_conn_one (V : Nat) :
    ∀ x, 1 ≤ x → x < V → Conn (ringAdj V) V (fun z => z = 0) 1 x := by
  intro x
  induction x with
  | zero => intro h; omega
  | succ x ih =>
    intro _ hx
    by_cases hx0 : x = 0
    · subst hx0; exact Relation.ReflTransGen.refl
    · refine Relation.ReflTransGen.tail (ih (by omega) (by omega))
        ⟨by omega, hx, ?_, hx0, by omega⟩
      simp [ringAdj, Nat.mod_eq_of_lt hx, hx]
      omega

theorem ring_not_marked (V : Nat) (x : Nat) (hx : x < V) :
    ¬ (IsRoot (ringAdj V) V x ∧ Separates (ringAdj V) V x) := by
  rintro ⟨hroot, a, b, ha, hb, ha0, hb0, _, _, hsep⟩
  by_cases hx0 : x = 0
  · subst hx0
    apply hsep
    have hsym : ∀ i j, i < V → j < V → ringAdj V i j = ringAdj V j i :=
      fun i j _ _ => ringAdj_symm V i j
    exact Relation.ReflTransGen.trans
      (Conn.symm hsym (ring_conn_one V a (by omega) ha)) (ring_conn_one V b (by omega) hb)
  · exact hroot 0 (by omega) (ring_conn_zero V x hx)

theorem ring_unmarked_aux (V : Nat) (s : State) :
    ∃ t, findarticulationpoints (ringAdj V) V s = some (t, "articulation points are:") ∧
      marked V t = [] := by
  obtain ⟨t, h, e⟩ := findarticulationpoints_total (ringAdj V) V s
  rw [toNat_cast] at h
  have hid : ∀ v, v ∈ (List.range V).map id ↔ v < V := by
    intro v
    rw [List.map_id]
    exact List.mem_range
  have h' : rootLoopOrd (ringAdj V) ((List.range V).map id) V (resetLoop V s) = some t := by
    rw [List.map_id]; exact h
  have hm : marked V t = [] := by
    apply marked_eq_nil
    intro i hi
    by_contra hc
    exact ring_not_marked V i hi
      ((findarticulationpointsOrd_marked_iff (ringAdj V) id V
        (fun i j _ _ => ringAdj_symm V i j) hid s t h' i hi).1 hc)
  refine ⟨t, ?_, hm⟩
  rw [e, printLoop_of_unmarked (by rw [toNat_cast]; exact hm)]

/-! ## The path `0 - 1 - 2` -/

theorem path3_conn_avoid_one {a b : Nat} (h : Conn (pathAdj 3) 3 (fun z => z = 1) a b) :
    a = b := by
  induction h with
  | refl => rfl
  | @tail x y _ hxy _ =>
    exfalso
    obtain ⟨h1, h2, h3, h4, h5⟩ := hxy
    simp only [pathAdj] at h3
    split at h3
    · omega
    · exact h3 rfl

theorem path3_cut_vertex : IsCutVertex (pathAdj 3) 3 1 := by
  have e01 : Conn (pathAdj 3) 3 (fun _ => False) 0 1 :=
    Relation.ReflTransGen.single ⟨by decide, by decide, by decide, fun h => h, fun h => h⟩
  have e12 : Conn (pathAdj 3) 3 (fun _ => False) 1 2 :=
    Relation.ReflTransGen.single ⟨by decide, by decide, by decide, fun h => h, fun h => h⟩
  refine ⟨by decide, 1, 2, ⟨{0}, rfl, ?_, ?_, ?_⟩, ⟨{0, 2}, rfl, ?_, ?_, ?_⟩, by decide⟩
  · intro r hr
    simp only [Finset.mem_singleton] at hr
    subst hr
    exact ⟨by decide, fun h => h⟩
  · intro x hx _
    refine ⟨0, by simp, ?_⟩
    interval_cases x
    · exact Relation.ReflTransGen.refl
    · exact e01
    · exact Relation.ReflTransGen.trans e01 e12
  · intro r hr r' hr' _
    simp only [Finset.mem_singleton] at hr hr'
    rw [hr, hr']
  · intro r hr
    simp only [Finset.mem_insert, Finset.mem_singleton] at hr
    rcases hr with rfl | rfl <;> exact ⟨by decide, by decide⟩
  · intro x hx hx1
    interval_cases x
    · exact ⟨0, by simp, Relation.ReflTransGen.refl⟩
    · exact absurd rfl hx1
    · exact ⟨2, by simp, Relation.ReflTransGen.refl⟩
  · intro r _ r' _ hc
    exact path3_conn_avoid_one hc

/-! ## Observed runs -/

theorem afterChild_eq (u v : Nat) (c : Int) (s : State) :
    afterChild u v c s = markNonRoot u v (markRoot u c (lowChild u v s)) := rfl

theorem bodyLog_fst (adj : Adj) (u : Nat) (call : Nat → State → Option (State × List Event))
    (call' : Nat → State → Option State)
    (h : ∀ v s, (call v s).map Prod.fst = call' v s) :
    ∀ (l : List Nat) (c : Int) (s : State) (log : List Event),
      (l.foldlM (dfnlowBodyLog call adj u) (c, s, log)).map (fun r => (r.1, r.2.1))
        = l.foldlM (dfnlowBody call' adj u) (c, s) := by
  intro l
  induction l with
  | nil => intro c s log; rfl
  | cons v rest ih =>
    intro c s log
    rw [List.foldlM_cons, List.foldlM_cons]
    by_cases ha : adj u v = 0
    · have h1 : dfnlowBodyLog call adj u (c, s, log) v
          = some (c, s, log ++ [Event.index u, Event.index v]) := by
        simp [dfnlowBodyLog, ha]
      have h2 : dfnlowBody call' adj u (c, s) v = some (c, s) := by simp [dfnlowBody, ha]
      rw [h1, h2]
      exact ih _ _ _
    · by_cases hv : s.visited v = 0
      · have hc := h v { s with parent := upd s.parent v u }
        cases hr : call v { s with parent := upd s.parent v u } with
        | none =>
          rw [hr] at hc
          have h1 : dfnlowBodyLog call adj u (c, s, log) v = none := by
            simp [dfnlowBodyLog, ha, hv, hr]
          have h2 : dfnlowBody call' adj u (c, s) v = none := by
            simp [dfnlowBody, ha, hv, ← hc]
          rw [h1, h2]
          rfl
        | some r =>
          rw [hr] at hc
          have h1 : dfnlowBodyLog call adj u (c, s, log) v
              = some (c + 1, backEdge u v (afterChild u v (c + 1) r.1),
                  log ++ (eventsBeforeCall u v s ++ (r.2 ++
                    eventsAfterCall u v (c + 1) r.1))) := by
            simp [dfnlowBodyLog, ha, hv, hr]
          have h2 : dfnlowBody call' adj u (c, s) v
              = some (c + 1, backEdge u v (afterChild u v (c + 1) r.1)) := by
            simp [dfnlowBody, ha, hv, ← hc]
          rw [h1, h2]
          exact ih _ _ _
      · have h1 : dfnlowBodyLog call adj u (c, s, log) v
            = some (c, backEdge u v s, log ++ eventsBack u v s) := by
          simp [dfnlowBodyLog, ha, hv]
        have h2 : dfnlowBody call' adj u (c, s) v = some (c, backEdge u v s) := by
          simp [dfnlowBody, ha, hv]
        rw [h1, h2]
        exact ih _ _ _

/-- Erasing the log of `dfnlowLog` gives `dfnlow`. -/
theorem dfnlowLog_fst (adj : Adj) (V : Int) :
    ∀ (fuel d u : Nat) (s : State),
      (dfnlowLog adj V fuel d u s).map Prod.fst = dfnlow adj V fuel u s := by
  intro fuel
  induction fuel with
  | zero => intro d u s; rfl
  | succ fuel ih =>
    intro d u s
    have key := bodyLog_fst adj u (dfnlowLog adj V fuel (d + 1)) (dfnlow adj V fuel)
      (fun v a => ih (d + 1) v a) (List.range V.toNat) 0 (enter u s) (eventsEnter u d s)
    simp only [dfnlowLog, dfnlow, ← key, Option.map_map]
    rfl

theorem dfnlowLog_some {adj : Adj} {V : Int} {fuel d u : Nat} {s t : State}
    {log : List Event} (h : dfnlowLog adj V fuel d u s = some (t, log)) :
    dfnlowOrd adj (List.range V.toNat) fuel u s = some t := by
  rw [← dfnlow_eq_ord, ← dfnlowLog_fst adj V fuel d u s, h]
  rfl

theorem callsOf_append (l1 l2 : List Event) : callsOf (l1 ++ l2) = callsOf l1 ++ callsOf l2 := by
  induction l1 with
  | nil => rfl
  | cons e l ih =>
    cases e <;> simp [callsOf, ih]

theorem mem_callsOf {l : List Event} {u d : Nat} {s : State} (h : Event.call u d s ∈ l) :
    u ∈ callsOf l := by
  induction l with
  | nil => simp at h
  | cons e l ih =>
    rcases List.mem_cons.1 h with h1 | h1
    · subst h1; simp [callsOf]
    · have := ih h1
      cases e <;> simp [callsOf, this]

theorem Seg.append {n : Nat} {sa sm sb : State} {l1 l2 : List Event} (h1 : Seg n sa sm l1)
    (h2 : Seg n sm sb l2) : Seg n sa sb (l1 ++ l2) := by
  refine ⟨fun x hx => h2.mono x (h1.mono x hx), ?_, ?_, ?_, ?_⟩
  · intro e he
    rcases List.mem_append.1 he with he | he
    · exact h1.ok e he
    · exact h2.ok e he
  · intro u hu
    rw [callsOf_append] at hu
    rcases List.mem_append.1 hu with hu | hu
    · exact ⟨(h1.calls u hu).1, h2.mono u (h1.calls u hu).2⟩
    · refine ⟨?_, (h2.calls u hu).2⟩
      by_contra hc
      exact h1.mono u hc (h2.calls u hu).1
  · rw [callsOf_append]
    refine List.Nodup.append h1.nodup h2.nodup ?_
    intro u hu1 hu2
    exact (h1.calls u hu1).2 (h2.calls u hu2).1
  · intro ht hl hi
    obtain ⟨a1, a2, a3, a4⟩ := h1.inv ht hl hi
    obtain ⟨b1, b2, b3, b4⟩ := h2.inv a2 a3 a4
    refine ⟨?_, b2, b3, b4⟩
    intro e he
    rcases List.mem_append.1 he with he | he
    · exact a1 e he
    · exact b1 e he

theorem Seg.refl (n : Nat) (s : State) : Seg n s s [] :=
  ⟨fun _ h => h, by simp, by simp [callsOf], by simp [callsOf],
    fun h1 h2 h3 => ⟨by simp, h1, h2, h3⟩⟩

/-- A stretch without calls of `dfnlow`. -/
theorem Seg.of_noCalls {n : Nat} {sa sb : State} {log : List Event}
    (hc : callsOf log = []) (hm : ∀ x, sa.visited x ≠ 0 → sb.visited x ≠ 0)
    (hok : ∀ e ∈ log, EventOK n e)
    (hinv : 0 ≤ sa.time → LowLeDfn n sa → LowDfnInv n sa →
      (∀ e ∈ log, PointOK n e) ∧ 0 ≤ sb.time ∧ LowLeDfn n sb ∧ LowDfnInv n sb) :
    Seg n sa sb log :=
  ⟨hm, hok, by simp [hc], by simp [hc], hinv⟩

theorem lowLeDfn_congr {n : Nat} {s t : State} (hl : t.low = s.low) (hd : t.dfn = s.dfn)
    (h : LowLeDfn n s) : LowLeDfn n t := by
  intro x hx
  rw [hl, hd]
  exact h x hx

theorem lowLeDfn_enter {n : Nat} (u : Nat) {s : State} (h : LowLeDfn n s) :
    LowLeDfn n (enter u s) := by
  intro x hx
  by_cases hxu : x = u
  · subst hxu
    simp [enter]
  · simp only [enter, upd, hxu, if_false]
    exact h x hx

theorem lowLeDfn_lowChild {n : Nat} (u v : Nat) {s : State} (h : LowLeDfn n s) :
    LowLeDfn n (lowChild u v s) := by
  intro x hx
  have hxs := h x hx
  by_cases hxu : x = u
  · subst hxu
    simp only [lowChild, upd_same]
    split <;> omega
  · simp only [lowChild, upd, hxu, if_false]
    exact hxs

theorem lowLeDfn_backEdge {n : Nat} (u v : Nat) {s : State} (h : LowLeDfn n s) :
    LowLeDfn n (backEdge u v s) := by
  intro x hx
  have hxs := h x hx
  rw [backEdge_dfn]
  by_cases hxu : x = u
  · subst hxu
    unfold backEdge
    split
    · simp only [upd_same]
      split <;> omega
    · exact hxs
  · rw [backEdge_low_ne u v s hxu]
    exact hxs

theorem seg_enter (n u d : Nat) (s : State) (hu : u < n) (hv : s.visited u = 0) (hd : 1 ≤ d)
    (hm : d + unvisitedCount n s ≤ n + 1) : Seg n s (enter u s) (eventsEnter u d s) := by
  refine ⟨?_, ?_, ?_, ?_, ?_⟩
  · intro x hx
    have : x ≠ u := fun e => hx (e ▸ hv)
    simpa [enter, upd, this] using hx
  · intro e he
    simp only [eventsEnter, List.mem_cons, List.mem_singleton, List.not_mem_nil, or_false] at he
    rcases he with rfl | rfl | rfl | rfl | rfl | rfl
    · exact ⟨hu, hv, hd, hm⟩
    · exact hu
    · trivial
    · exact hu
    · exact hu
    · trivial
  · intro x hx
    simp only [eventsEnter, callsOf, List.mem_singleton] at hx
    subst hx
    exact ⟨hv, by simp [enter]⟩
  · simp [eventsEnter, callsOf]
  · intro ht hl hi
    refine ⟨?_, by simp [enter]; omega, lowLeDfn_enter u hl, ?_⟩
    · intro e he
      simp only [eventsEnter, List.mem_cons, List.mem_singleton, List.not_mem_nil,
        or_false] at he
      rcases he with rfl | rfl | rfl | rfl | rfl | rfl
      · trivial
      · trivial
      · intro x hx hxv
        refine ⟨hl x hx, fun hxu => ?_⟩
        simp only [markVisited, upd, hxu, if_false] at hxv
        exact (hi x hx hxv).1
      · trivial
      · trivial
      · intro x hx hxv
        by_cases hxu : x = u
        · subst hxu
          simp [enter]; omega
        · simp only [enter, upd, hxu, if_false] at hxv ⊢
          exact hi x hx hxv
    · intro x hx hxv
      by_cases hxu : x = u
      · subst hxu
        simp [enter]; omega
      · simp only [enter, upd, hxu, if_false] at hxv ⊢
        exact hi x hx hxv

theorem lowDfnInv_congr {n : Nat} {s t : State} (hv : t.visited = s.visited)
    (hl : t.low = s.low) (hd : t.dfn = s.dfn) (h : LowDfnInv n s) : LowDfnInv n t := by
  intro x hx hxv
  rw [hv] at hxv
  rw [hl, hd]
  exact h x hx hxv

theorem lowDfnInv_lowChild {n u v : Nat} {s : State} (hv : s.visited v ≠ 0) (hvn : v < n)
    (h : LowDfnInv n s) : LowDfnInv n (lowChild u v s) := by
  intro x hx hxv
  have hxs := h x hx hxv
  have hvs := h v hvn hv
  by_cases hxu : x = u
  · subst hxu
    simp only [lowChild, upd_same]
    split <;> omega
  · simp only [lowChild, upd, hxu, if_false]
    exact hxs

theorem lowDfnInv_backEdge {n u v : Nat} {s : State} (hv : s.visited v ≠ 0) (hvn : v < n)
    (h : LowDfnInv n s) : LowDfnInv n (backEdge u v s) := by
  intro x hx hxv
  rw [backEdge_visited] at hxv
  have hxs := h x hx hxv
  have hvs := h v hvn hv
  rw [backEdge_dfn]
  by_cases hxu : x = u
  · subst hxu
    unfold backEdge
    split
    · simp only [upd_same]
      split <;> omega
    · exact hxs
  · rw [backEdge_low_ne u v s hxu]
    exact hxs

theorem seg_skip (n u v : Nat) (s : State) (hu : u < n) (hv : v < n) :
    Seg n s s [Event.index u, Event.index v] := by
  refine Seg.of_noCalls rfl (fun _ h => h) ?_ ?_
  · intro e he
    simp only [List.mem_cons, List.mem_singleton, List.not_mem_nil, or_false] at he
    rcases he with rfl | rfl
    · exact hu
    · exact hv
  · intro ht hl hi
    refine ⟨?_, ht, hl, hi⟩
    intro e he
    simp only [List.mem_cons, List.mem_singleton, List.not_mem_nil, or_false] at he
    rcases he with rfl | rfl <;> trivial

theorem seg_back (n u v : Nat) (s : State) (hu : u < n) (hvn : v < n)
    (hv : s.visited v ≠ 0) : Seg n s (backEdge u v s) (eventsBack u v s) := by
  refine Seg.of_noCalls rfl (fun x h => by simpa using h) ?_ ?_
  · intro e he
    simp only [eventsBack, List.mem_cons, List.mem_singleton, List.not_mem_nil,
      or_false] at he
    rcases he with rfl | rfl | rfl | rfl | rfl | rfl | rfl
    all_goals first | exact hu | exact hvn | trivial
  · intro ht hl hi
    refine ⟨?_, by simpa using ht, lowLeDfn_backEdge u v hl, lowDfnInv_backEdge hv hvn hi⟩
    intro e he
    simp only [eventsBack, List.mem_cons, List.mem_singleton, List.not_mem_nil,
      or_false] at he
    rcases he with rfl | rfl | rfl | rfl | rfl | rfl | rfl
    all_goals first | trivial | exact lowDfnInv_backEdge hv hvn hi

theorem seg_beforeCall (n u v : Nat) (s : State) (hu : u < n) (hvn : v < n) :
    Seg n s { s with parent := upd s.parent v u } (eventsBeforeCall u v s) := by
  refine Seg.of_noCalls rfl (fun _ h => h) ?_ ?_
  · intro e he
    simp only [eventsBeforeCall, List.mem_cons, List.mem_singleton, List.not_mem_nil,
      or_false] at he
    rcases he with rfl | rfl | rfl | rfl | rfl
    all_goals first | exact hu | exact hvn | trivial
  · intro ht hl hi
    refine ⟨?_, ht, hl, hi⟩
    intro e he
    simp only [eventsBeforeCall, List.mem_cons, List.mem_singleton, List.not_mem_nil,
      or_false] at he
    rcases he with rfl | rfl | rfl | rfl | rfl
    · trivial
    · trivial
    · trivial
    · trivial
    · exact hi

theorem markRoot_fields (u : Nat) (c : Int) (s : State) :
    (markRoot u c s).visited = s.visited ∧ (markRoot u c s).low = s.low ∧
      (markRoot u c s).dfn = s.dfn ∧ (markRoot u c s).time = s.time := by
  unfold markRoot; split <;> exact ⟨rfl, rfl, rfl, rfl⟩

theorem seg_afterCall (n u v : Nat) (c : Int) (s s1 : State) (s0 : State) (hu : u < n)
    (hvn : v < n) (hF : FrameInv n u s0 s)
    (hFc : Frame n v { s with parent := upd s.parent v u } s1) :
    Seg n s1 (backEdge u v (afterChild u v c s1)) (eventsAfterCall u v c s1) := by
  have hvis : s1.visited v ≠ 0 := hFc.vis_u
  have hlt := hF.low_lt_child hFc
  have hdu : s1.dfn u = s.dfn u := hFc.dfn_old u (Or.inl hF.frame.vis_u)
  have hlu : s1.low u = s.low u := hFc.low_old u (Or.inl hF.frame.vis_u)
  have hle := hF.low_le
  refine Seg.of_noCalls rfl (fun x h => by simpa using h) ?_ ?_
  · intro e he
    simp only [eventsAfterCall, List.mem_cons, List.mem_singleton, List.not_mem_nil,
      or_false] at he
    rcases he with rfl | rfl | rfl | rfl | rfl | rfl | rfl | rfl | rfl | rfl | rfl | rfl |
      rfl | rfl | rfl | rfl
    all_goals first | exact hu | exact hvn | trivial | skip
    have h1 := (markRoot_fields u c (lowChild u v s1)).2.1
    have h2 := (markRoot_fields u c (lowChild u v s1)).2.2.1
    show (markRoot u c (lowChild u v s1)).low u ≤ (markRoot u c (lowChild u v s1)).dfn u ∧
      (markRoot u c (lowChild u v s1)).dfn u < (markRoot u c (lowChild u v s1)).dfn v
    rw [h1, h2]
    simp only [lowChild, upd_same]
    constructor
    · split <;> omega
    · have := hF.dfn_le
      have := hFc.dfn_u
      simp only at this
      omega
  · intro ht hl hi
    have l1 : LowLeDfn n (afterChild u v c s1) :=
      lowLeDfn_congr (by simp [lowChild]) (by simp [lowChild]) (lowLeDfn_lowChild u v hl)
    have i1 : LowDfnInv n (lowChild u v s1) := lowDfnInv_lowChild hvis hvn hi
    have f := markRoot_fields u c (lowChild u v s1)
    have i2 : LowDfnInv n (markRoot u c (lowChild u v s1)) :=
      lowDfnInv_congr f.1 f.2.1 f.2.2.1 i1
    have i3 : LowDfnInv n (afterChild u v c s1) :=
      lowDfnInv_congr (by simp [lowChild]) (by simp [lowChild]) (by simp [lowChild]) i1
    have i4 : LowDfnInv n (backEdge u v (afterChild u v c s1)) :=
      lowDfnInv_backEdge (by simpa using hvis) hvn i3
    refine ⟨?_, by simpa using ht, lowLeDfn_backEdge u v l1, i4⟩
    intro e he
    simp only [eventsAfterCall, List.mem_cons, List.mem_singleton, List.not_mem_nil,
      or_false] at he
    rcases he with rfl | rfl | rfl | rfl | rfl | rfl | rfl | rfl | rfl | rfl | rfl | rfl |
      rfl | rfl | rfl | rfl
    all_goals trivial

theorem loopLog_seg (adj : Adj) (V : Int) (fuel d u : Nat) (s0 : State) (hu : u < V.toNat)
    (ih : ∀ (v : Nat) (s t : State) (log : List Event), v < V.toNat → s.visited v = 0 →
      (d + 1) + unvisitedCount V.toNat s ≤ V.toNat + 1 →
      dfnlowLog adj V fuel (d + 1) v s = some (t, log) → Seg V.toNat s t log) :
    ∀ (l : List Nat) (c : Int) (s : State) (log : List Event) (r : Int × State × List Event),
      (∀ v ∈ l, v < V.toNat) → FrameInv V.toNat u s0 s → Seg V.toNat s0 s log →
      d + unvisitedCount V.toNat s ≤ V.toNat →
      l.foldlM (dfnlowBodyLog (dfnlowLog adj V fuel (d + 1)) adj u) (c, s, log) = some r →
      Seg V.toNat s0 r.2.1 r.2.2 := by
  intro l
  induction l with
  | nil =>
    intro c s log r _ _ hS _ h
    simp at h
    subst h; exact hS
  | cons v rest ihl =>
    intro c s log r hl hF hS hm h
    have hvn : v < V.toNat := hl v (by simp)
    have hrest : ∀ w ∈ rest, w < V.toNat := fun w hw => hl w (by simp [hw])
    rw [List.foldlM_cons] at h
    by_cases ha : adj u v = 0
    · have hb : dfnlowBodyLog (dfnlowLog adj V fuel (d + 1)) adj u (c, s, log) v
          = some (c, s, log ++ [Event.index u, Event.index v]) := by
        simp [dfnlowBodyLog, ha]
      rw [hb] at h
      exact ihl _ _ _ r hrest hF (hS.append (seg_skip V.toNat u v s hu hvn)) hm h
    · by_cases hv : s.visited v = 0
      · cases hc : dfnlowLog adj V fuel (d + 1) v { s with parent := upd s.parent v u } with
        | none =>
          have hb : dfnlowBodyLog (dfnlowLog adj V fuel (d + 1)) adj u (c, s, log) v = none := by
            simp [dfnlowBodyLog, ha, hv, hc]
          rw [hb] at h
          simp at h
        | some r1 =>
          have hb : dfnlowBodyLog (dfnlowLog adj V fuel (d + 1)) adj u (c, s, log) v
              = some (c + 1, backEdge u v (afterChild u v (c + 1) r1.1),
                  log ++ (eventsBeforeCall u v s ++ (r1.2 ++
                    eventsAfterCall u v (c + 1) r1.1))) := by
            simp [dfnlowBodyLog, ha, hv, hc]
          rw [hb] at h
          have hc' : dfnlowLog adj V fuel (d + 1) v { s with parent := upd s.parent v u }
              = some (r1.1, r1.2) := hc
          have hFc := dfnlowOrd_frame (fun w hw => List.mem_range.1 hw) fuel v
            { s with parent := upd s.parent v u } r1.1 hvn hv (dfnlowLog_some hc')
          have hSc := ih v { s with parent := upd s.parent v u } r1.1 r1.2 hvn hv
            (by
              have : unvisitedCount V.toNat { s with parent := upd s.parent v u }
                  = unvisitedCount V.toNat s := rfl
              omega) hc'
          have hF2 := frame_child V.toNat u v (c + 1) s0 s r1.1 hF hv hFc
          have hS2 := hS.append ((seg_beforeCall V.toNat u v s hu hvn).append
            (hSc.append (seg_afterCall V.toNat u v (c + 1) s r1.1 s0 hu hvn hF hFc)))
          refine ihl _ _ _ r hrest hF2 hS2 ?_ h
          have := unvisitedCount_mono V.toNat s (backEdge u v (afterChild u v (c + 1) r1.1))
            (fun x hx => by simpa using hFc.vis_mono x hx)
          omega
      · have hb : dfnlowBodyLog (dfnlowLog adj V fuel (d + 1)) adj u (c, s, log) v
            = some (c, backEdge u v s, log ++ eventsBack u v s) := by
          simp [dfnlowBodyLog, ha, hv]
        rw [hb] at h
        refine ihl _ _ _ r hrest (frame_back V.toNat u v s0 s hF)
          (hS.append (seg_back V.toNat u v s hu hvn hv)) ?_ h
        have : unvisitedCount V.toNat (backEdge u v s) = unvisitedCount V.toNat s := by
          simp [unvisitedCount]
        omega

/-- Summary of a call of `dfnlow` at recursion depth `d`. -/
theorem dfnlowLog_seg (adj : Adj) (V : Int) :
    ∀ (fuel d u : Nat) (s t : State) (log : List Event), u < V.toNat → s.visited u = 0 →
      1 ≤ d → d + unvisitedCount V.toNat s ≤ V.toNat + 1 →
      dfnlowLog adj V fuel d u s = some (t, log) → Seg V.toNat s t log := by
  intro fuel
  induction fuel with
  | zero => intro d u s t log _ _ _ _ h; simp [dfnlowLog] at h
  | succ fuel ih =>
    intro d u s t log hu hv hd hm h
    simp only [dfnlowLog, Option.map_eq_some', Prod.mk.injEq] at h
    obtain ⟨r, hr, rfl, rfl⟩ := h
    have hlt : unvisitedCount V.toNat (enter u s) < unvisitedCount V.toNat s := by
      apply unvisitedCount_lt V.toNat s (enter u s) u hu _ hv (by simp [enter])
      intro x hx
      have : x ≠ u := fun e => hx (e ▸ hv)
      simpa [enter, upd, this] using hx
    exact loopLog_seg adj V fuel d u s hu
      (fun v a b l hvn hva hma hca => ih (d + 1) v a b l hvn hva (by omega) hma hca)
      (List.range V.toNat) 0 (enter u s) (eventsEnter u d s) r
      (fun w hw => List.mem_range.1 hw) (frame_enter V.toNat u s hu hv)
      (seg_enter V.toNat u d s hu hv hd hm) (by omega) hr

theorem rootLoopLog_aux (adj : Adj) (V : Int) (s : State) :
    ∀ m, m ≤ V.toNat → ∃ r : State × List Event,
      (List.range m).foldlM
        (fun (acc : State × List Event) i =>
          if acc.1.visited i = 0 then
            match dfnlowLog adj V V.toNat 1 i acc.1 with
            | none => none
            | some r => some (r.1, acc.2 ++ (Event.index i :: r.2))
          else some (acc.1, acc.2 ++ [Event.index i]))
        (s, []) = some r ∧
      (List.range m).foldlM
        (fun s i => if s.visited i = 0 then dfnlow adj V V.toNat i s else some s) s
        = some r.1 ∧
      Seg V.toNat s r.1 r.2 := by
  intro m
  induction m with
  | zero => intro _; exact ⟨(s, []), rfl, rfl, Seg.refl _ _⟩
  | succ m ih =>
    intro hm
    obtain ⟨r, h1, h2, hS⟩ := ih (by omega)
    rw [List.range_succ, List.foldlM_append, List.foldlM_append, h1, h2]
    have hmn : m < V.toNat := by omega
    have hidx : Seg V.toNat r.1 r.1 [Event.index m] :=
      Seg.of_noCalls rfl (fun _ h => h)
        (by intro e he; simp only [List.mem_singleton] at he; subst he; exact hmn)
        (by
          intro ht hl hi
          refine ⟨?_, ht, hl, hi⟩
          intro e he
          simp only [List.mem_singleton] at he
          subst he; trivial)
    by_cases hv : r.1.visited m = 0
    · obtain ⟨t, ht⟩ := dfnlowOrd_total adj (fun w hw => List.mem_range.1 hw) V.toNat m r.1
        hmn hv (unvisitedCount_le _ _)
      rw [← dfnlow_eq_ord, ← dfnlowLog_fst adj V V.toNat 1 m r.1] at ht
      cases hc : dfnlowLog adj V V.toNat 1 m r.1 with
      | none => rw [hc] at ht; simp at ht
      | some q =>
        rw [hc] at ht
        simp only [Option.map_some', Option.some.injEq] at ht
        have hq : dfnlowLog adj V V.toNat 1 m r.1 = some (q.1, q.2) := hc
        have hSq := dfnlowLog_seg adj V V.toNat 1 m r.1 q.1 q.2 hmn hv (le_refl 1)
          (by have := unvisitedCount_le V.toNat r.1; omega) hq
        have hplain : dfnlow adj V V.toNat m r.1 = some q.1 := by
          rw [← dfnlowLog_fst adj V V.toNat 1 m r.1, hc]; rfl
        refine ⟨(q.1, r.2 ++ (Event.index m :: q.2)), ?_, ?_, ?_⟩
        · simp [hv, hc]
        · simp [hv, hplain]
        · exact hS.append (Seg.append hidx hSq)
    · refine ⟨(r.1, r.2 ++ [Event.index m]), ?_, ?_, ?_⟩
      · simp [hv]
      · simp [hv]
      · exact hS.append hidx

/-- The second loop of `findarticulationpoints`, observed: it returns, erasing the log
gives `rootLoop`, and the log is summarised by `Seg`. -/
theorem rootLoopLog_seg (adj : Adj) (V : Int) (s : State) :
    ∃ (t : State) (log : List Event), rootLoopLog adj V s = some (t, log) ∧
      rootLoop adj V s = some t ∧ Seg V.toNat s t log := by
  obtain ⟨r, h1, h2, h3⟩ := rootLoopLog_aux adj V s V.toNat (le_refl _)
  exact ⟨r.1, r.2, h1, h2, h3⟩

theorem callsOf_eq_nil_of_index {l : List Event} (h : ∀ e ∈ l, ∃ k, e = Event.index k) :
    callsOf l = [] := by
  induction l with
  | nil => rfl
  | cons e l ih =>
    obtain ⟨k, rfl⟩ := h e (by simp)
    simp only [callsOf]
    exact ih (fun e he => h e (by simp [he]))

theorem eventsReset_index (V : Int) : ∀ e ∈ eventsReset V, ∃ k, k < V.toNat ∧ e = Event.index k := by
  intro e he
  simp only [eventsReset, List.mem_flatMap, List.mem_range, List.mem_cons, List.mem_singleton,
    List.not_mem_nil, or_false, or_self] at he
  obtain ⟨k, hk, rfl⟩ := he
  exact ⟨k, hk, rfl⟩

theorem eventsPrint_index (V : Int) : ∀ e ∈ eventsPrint V, ∃ k, k < V.toNat ∧ e = Event.index k := by
  intro e he
  simp only [eventsPrint, List.mem_map, List.mem_range] at he
  obtain ⟨k, hk, rfl⟩ := he
  exact ⟨k, hk, rfl⟩

/-- The observed run of `findarticulationpoints`: it returns the result of
`findarticulationpoints`, every call, test and subscript is as `EventOK` says, no vertex
is entered twice, every entered vertex ends visited, and when at entry `time` is not
negative and `low ≤ dfn` holds below `V` the logged globals are as `PointOK` says. -/
theorem findarticulationpointsLog_facts (adj : Adj) (V : Int) (s : State) :
    ∃ (t : State) (L : List Event),
      findarticulationpointsLog adj V s = some (t, printLoop V t, L) ∧
      findarticulationpoints adj V s = some (t, printLoop V t) ∧
      (∀ e ∈ L, EventOK V.toNat e) ∧ (callsOf L).Nodup ∧
      (∀ u ∈ callsOf L, t.visited u ≠ 0) ∧
      (0 ≤ s.time → LowLeDfn V.toNat s →
        (∀ e ∈ L, PointOK V.toNat e) ∧ LowDfnInv V.toNat t) := by
  obtain ⟨t, log, h1, h2, hS⟩ := rootLoopLog_seg adj V (resetLoop V s)
  have hreset : LowDfnInv V.toNat (resetLoop V s) := by
    intro x hx hxv
    exact absurd (resetLoop_isReset V s x hx).2.2 hxv
  have hc1 : callsOf (eventsReset V) = [] :=
    callsOf_eq_nil_of_index (fun e he => by
      obtain ⟨k, _, hk⟩ := eventsReset_index V e he; exact ⟨k, hk⟩)
  have hc2 : callsOf (eventsPrint V) = [] :=
    callsOf_eq_nil_of_index (fun e he => by
      obtain ⟨k, _, hk⟩ := eventsPrint_index V e he; exact ⟨k, hk⟩)
  have hcalls : callsOf (eventsReset V ++ (Event.point (resetLoop V s) ::
      (log ++ eventsPrint V))) = callsOf log := by
    rw [callsOf_append, hc1]
    simp only [callsOf, List.nil_append]
    rw [callsOf_append, hc2, List.append_nil]
  refine ⟨t, eventsReset V ++ (Event.point (resetLoop V s) :: (log ++ eventsPrint V)),
    by simp [findarticulationpointsLog, h1], by simp [findarticulationpoints, h2],
    ?_, ?_, ?_, ?_⟩
  · intro e he
    simp only [List.mem_append, List.mem_cons] at he
    rcases he with he | rfl | he | he
    · obtain ⟨k, hk, rfl⟩ := eventsReset_index V e he
      exact hk
    · trivial
    · exact hS.ok e he
    · obtain ⟨k, hk, rfl⟩ := eventsPrint_index V e he
      exact hk
  · rw [hcalls]; exact hS.nodup
  · intro u hu
    rw [hcalls] at hu
    exact (hS.calls u hu).2
  · intro ht hl
    have ht' : 0 ≤ (resetLoop V s).time := by rw [(resetLoop_frame V s).2.2]; exact ht
    have hl' : LowLeDfn V.toNat (resetLoop V s) :=
      lowLeDfn_congr (resetLoop_frame V s).2.1 (resetLoop_frame V s).1 hl
    obtain ⟨a1, _, _, a3⟩ := hS.inv ht' hl' hreset
    refine ⟨?_, a3⟩
    intro e he
    simp only [List.mem_append, List.mem_cons] at he
    rcases he with he | rfl | he | he
    · obtain ⟨k, _, rfl⟩ := eventsReset_index V e he
      trivial
    · exact hreset
    · exact a1 e he
    · obtain ⟨k, _, rfl⟩ := eventsPrint_index V e he
      trivial

/-! ## Numbering -/

theorem unvisitedCount_enter {n u : Nat} {s : State} (hu : u < n) (hv : s.visited u = 0) :
    unvisitedCount n (enter u s) + 1 = unvisitedCount n s := by
  unfold unvisitedCount
  have h : (Finset.range n).filter (fun i => (enter u s).visited i = 0)
      = ((Finset.range n).filter (fun i => s.visited i = 0)).erase u := by
    ext i
    simp only [Finset.mem_filter, Finset.mem_range, Finset.mem_erase, enter, upd]
    by_cases hi : i = u
    · subst hi; simp
    · simp [hi]
  rw [h, Finset.card_erase_of_mem (by simp [hu, hv])]
  have : 0 < ((Finset.range n).filter (fun i => s.visited i = 0)).card :=
    Finset.card_pos.mpr ⟨u, by simp [hu, hv]⟩
  omega

theorem dfnInv_congr {n : Nat} {T0 : Int} {s t : State} (hv : t.visited = s.visited)
    (hd : t.dfn = s.dfn) (ht : t.time = s.time) (h : DfnInv n T0 s) : DfnInv n T0 t := by
  have hc : unvisitedCount n t = unvisitedCount n s := by simp [unvisitedCount, hv]
  refine ⟨by rw [ht, hc]; exact h.cnt, ?_, ?_, ?_⟩
  · intro x hx hxv; rw [hd, ht]; rw [hv] at hxv; exact h.rng x hx hxv
  · intro x y hx hy hxv hyv hxy
    rw [hv] at hxv hyv; rw [hd] at hxy
    exact h.inj x y hx hy hxv hyv hxy
  · intro k h1 h2
    rw [ht] at h2
    obtain ⟨x, hx, hxv, hxk⟩ := h.sur k h1 h2
    exact ⟨x, hx, by rw [hv]; exact hxv, by rw [hd]; exact hxk⟩

theorem dfnInv_enter {n u : Nat} {T0 : Int} {s : State} (hu : u < n) (hv : s.visited u = 0)
    (h : DfnInv n T0 s) : DfnInv n T0 (enter u s) := by
  have hc := unvisitedCount_enter hu hv
  have hcnt := h.cnt
  have hT : T0 ≤ s.time := by
    have := unvisitedCount_le n s
    omega
  refine ⟨?_, ?_, ?_, ?_⟩
  · have ht : (enter u s).time = s.time + 1 := rfl
    rw [ht]; omega
  · intro x hx hxv
    by_cases hxu : x = u
    · subst hxu; simp only [enter, upd_same]; omega
    · simp only [enter, upd, hxu, if_false] at hxv ⊢
      have := h.rng x hx hxv
      omega
  · intro x y hx hy hxv hyv hxy
    by_cases hxu : x = u
    · by_cases hyu : y = u
      · rw [hxu, hyu]
      · exfalso
        subst hxu
        simp only [enter, upd, hyu, if_false, if_true] at hyv hxy
        have := h.rng y hy hyv
        omega
    · by_cases hyu : y = u
      · exfalso
        subst hyu
        simp only [enter, upd, hxu, if_false, if_true] at hxv hxy
        have := h.rng x hx hxv
        omega
      · simp only [enter, upd, hxu, hyu, if_false] at hxv hyv hxy
        exact h.inj x y hx hy hxv hyv hxy
  · intro k h1 h2
    simp only [enter] at h2
    by_cases hk : k = s.time + 1
    · exact ⟨u, hu, by simp [enter], by simp [enter, hk]⟩
    · obtain ⟨x, hx, hxv, hxk⟩ := h.sur k h1 (by omega)
      have hxu : x ≠ u := fun e => hxv (e ▸ hv)
      exact ⟨x, hx, by simpa [enter, upd, hxu] using hxv, by simpa [enter, upd, hxu] using hxk⟩

/-- A call of `dfnlow` keeps the numbering invariant. -/
theorem dfnlowOrd_dfnInv {adj : Adj} {ord : List Nat} {n : Nat} (hord : ∀ v ∈ ord, v < n)
    (T0 : Int) (fuel u : Nat) (s t : State) (hu : u < n) (hv : s.visited u = 0)
    (hI : DfnInv n T0 s) (h : dfnlowOrd adj ord fuel u s = some t) : DfnInv n T0 t := by
  refine call_rule adj ord
    (fun u s => u < n ∧ s.visited u = 0 ∧ DfnInv n T0 s)
    (fun _ _ t => DfnInv n T0 t)
    (fun _ _ _ _ s => DfnInv n T0 s)
    ?_ ?_ ?_ ?_ ?_ ?_ fuel u s t ⟨hu, hv, hI⟩ h
  · intro u s hP
    exact dfnInv_enter hP.1 hP.2.1 hP.2.2
  · intro u s0 pre v rest c s _ _ hI _
    exact hI
  · intro u s0 pre v rest c s _ hp hI _ hv
    exact ⟨hord v (by rw [← hp]; simp), hv, dfnInv_congr (s := s) rfl rfl rfl hI⟩
  · intro u s0 pre v rest c s s1 _ _ _ _ _ _ hpost
    exact dfnInv_congr (by simp) (by simp) (by simp) hpost
  · intro u s0 pre v rest c s _ _ hI _ _
    exact dfnInv_congr (by simp) (by simp) (by simp) hI
  · intro u s0 c s _ hI
    exact hI

/-- After `findarticulationpoints` entered with `time = T0`, every vertex below `V` is
visited and `dfn` is a bijection from `0..V-1` onto `T0+1 .. T0+V`. -/
theorem findarticulationpoints_dfn (adj : Adj) (V : Nat) (s t : State)
    (h : rootLoopOrd adj (List.range V) V (resetLoop V s) = some t) :
    (∀ i, i < V → t.visited i ≠ 0) ∧
    (∀ i, i < V → s.time + 1 ≤ t.dfn i ∧ t.dfn i ≤ s.time + V) ∧
    (∀ i j, i < V → j < V → t.dfn i = t.dfn j → i = j) ∧
    (∀ k : Int, s.time + 1 ≤ k → k ≤ s.time + V → ∃ i, i < V ∧ t.dfn i = k) := by
  have hord : ∀ v ∈ List.range V, v < V := fun v hv => List.mem_range.1 hv
  have hreset := resetLoop_isReset V s
  rw [toNat_cast] at hreset
  have htime := (resetLoop_frame V s).2.2
  have key := rootLoop_rule adj (List.range V) V
    (fun k a => DfnInv V s.time a ∧ ∀ j, j < k → a.visited j ≠ 0)
    ?_ ?_ (resetLoop V s) t ?_ h
  · obtain ⟨hD, hall⟩ := key
    have hcnt : unvisitedCount V t = 0 := by
      unfold unvisitedCount
      rw [Finset.card_eq_zero, Finset.filter_eq_empty_iff]
      intro x hx
      exact hall x (Finset.mem_range.1 hx)
    have htt : t.time = s.time + V := by
      have := hD.cnt
      rw [hcnt] at this
      simpa using this
    refine ⟨hall, ?_, ?_, ?_⟩
    · intro i hi
      have := hD.rng i hi (hall i hi)
      omega
    · intro i j hi hj hij
      exact hD.inj i j hi hj (hall i hi) (hall j hj) hij
    · intro k h1 h2
      obtain ⟨x, hx, _, hxk⟩ := hD.sur k (by omega) (by omega)
      exact ⟨x, hx, hxk⟩
  · intro k a hk hJ hv
    refine ⟨hJ.1, ?_⟩
    intro j hj
    by_cases hjk : j = k
    · subst hjk; exact hv
    · exact hJ.2 j (by omega)
  · intro k a b hk hJ hv hcall
    have hF := dfnlowOrd_frame hord V k a b hk hv hcall
    refine ⟨dfnlowOrd_dfnInv hord s.time V k a b hk hv hJ.1 hcall, ?_⟩
    intro j hj
    by_cases hjk : j = k
    · subst hjk; exact hF.vis_u
    · exact hF.vis_mono j (hJ.2 j (by omega))
  · refine ⟨⟨?_, ?_, ?_, ?_⟩, ?_⟩
    · have : unvisitedCount V (resetLoop V s) = V := by
        unfold unvisitedCount
        rw [Finset.filter_true_of_mem, Finset.card_range]
        intro x hx
        exact (hreset x (Finset.mem_range.1 hx)).2.2
      rw [this, htime]
    · intro x hx hxv
      exact absurd (hreset x hx).2.2 hxv
    · intro x y hx _ hxv
      exact absurd (hreset x hx).2.2 hxv
    · intro k h1 h2
      rw [htime] at h2
      omega
    · intro j hj
      omega

/-! ## Children of a root -/

theorem mem_kids {n r : Nat} {s : State} {v : Nat} :
    v ∈ kids n r s ↔ v < n ∧ s.parent v = (r : Int) := by
  simp [kids]

/-- In the loop of `dfnlow(u)`, everything that can be reached from a vertex found so far
without passing through `u` or a vertex visited before the call is visited. -/
theorem ExploredInv.conn_visited {adj : Adj} {n u : Nat} {s0 s : State} {pre : List Nat}
    (h : ExploredInv adj n u s0 pre s) {x y : Nat} (hx0 : s0.visited x = 0)
    (hx : s.visited x ≠ 0) (hxu : x ≠ u)
    (hc : Conn adj n (fun z => s0.visited z ≠ 0 ∨ z = u) x y) :
    s.visited y ≠ 0 ∧ s0.visited y = 0 ∧ y ≠ u := by
  induction hc with
  | refl => exact ⟨hx, hx0, hxu⟩
  | @tail a b _ hab ih =>
    obtain ⟨_, hb, hadj, _, hnb⟩ := hab
    have hb0 : s0.visited b = 0 := by
      by_contra hc0
      exact hnb (Or.inl hc0)
    exact ⟨h.closed a ih.2.1 ih.1 ih.2.2 b hb hadj, hb0, fun e => hnb (Or.inr e)⟩

theorem kids_enter (adj : Adj) (n r : Nat) (s : State) (hk : ∀ x, x < n → s.parent x ≠ r) :
    KidsInv adj n r s 0 (enter r s) := by
  have he : kids n r (enter r s) = ∅ := by
    ext v
    simp only [mem_kids, Finset.not_mem_empty, iff_false, not_and]
    intro hv
    exact hk v hv
  have hne : ∀ x, s.visited x = 0 → (enter r s).visited x ≠ 0 → x = r := by
    intro x h0 h1
    by_contra hc
    simp [enter, upd, hc] at h1
    exact h1 h0
  refine ⟨by rw [he]; rfl, ?_, ?_, ?_, by simp [enter]⟩
  · intro v hv; rw [he] at hv; simp at hv
  · intro x h0 h1 hx; exact absurd (hne x h0 h1) hx
  · intro _ v hv; rw [he] at hv; simp at hv

theorem kids_back (adj : Adj) (n r v : Nat) (c : Int) (s0 s : State)
    (h : KidsInv adj n r s0 c s) : KidsInv adj n r s0 c (backEdge r v s) := by
  have hk : kids n r (backEdge r v s) = kids n r s := by simp [kids]
  obtain ⟨h1, h2, h3, h4, h5⟩ := h
  refine ⟨by rw [hk]; exact h1, ?_, ?_, ?_, by simpa using h5⟩
  · rw [hk]; simpa using h2
  · rw [hk]; simpa using h3
  · rw [hk]; exact h4

theorem kids_child (adj : Adj) (n r v : Nat) (c : Int) (s0 s s1 : State) (pre : List Nat)
    (hr : r < n) (hvn : v < n) (hp : s0.parent r = -1)
    (hP2 : ∀ x, x < n → s0.visited x = 0 → s0.parent x = -1)
    (hF : FrameInv n r s0 s) (hX : ExploredInv adj n r s0 pre s)
    (h : KidsInv adj n r s0 c s) (ha : adj r v ≠ 0) (hv : s.visited v = 0)
    (hFc : Frame n v { s with parent := upd s.parent v r } s1)
    (hE : Explored adj n v { s with parent := upd s.parent v r } s1) :
    KidsInv adj n r s0 (c + 1) (backEdge r v (afterChild r v (c + 1) s1)) := by
  have hmono : ∀ x, s.visited x ≠ 0 → s1.visited x ≠ 0 := fun x hx => hFc.vis_mono x hx
  have hmono0 : ∀ x, s0.visited x ≠ 0 → s.visited x ≠ 0 := fun x hx => hF.frame.vis_mono x hx
  have hv0 : s0.visited v = 0 := by
    by_contra hc0
    exact hmono0 v hc0 hv
  have hrv : r ≠ v := fun e => hF.frame.vis_u (e ▸ hv)
  have hF2 := frame_child n r v (c + 1) s0 s s1 hF hv hFc
  have hp1 : s1.parent r = -1 := by
    have := hF2.frame.par_old r (Or.inr (Or.inr rfl))
    simp only [backEdge_parent, afterChild_parent] at this
    rw [this]; exact hp
  have hart : s1.articulation r = s.articulation r := hFc.art_ne r hrv
  -- the parent entries equal to `r`
  have hunv : ∀ x, x < n → s.visited x = 0 → s.parent x ≠ (r : Int) := by
    intro x hx hxs
    have hx0 : s0.visited x = 0 := by
      by_contra hc0
      exact hmono0 x hc0 hxs
    rw [hF.frame.par_old x (Or.inr (Or.inl hxs)), hP2 x hx hx0]
    omega
  have hpar : ∀ x, x < n → (s1.parent x = (r : Int) ↔ s.parent x = (r : Int) ∨ x = v) := by
    intro x hx
    by_cases hxv : x = v
    · subst hxv
      rw [hFc.par_old x (Or.inr (Or.inr rfl))]
      simp [upd]
    · by_cases hxs : s.visited x = 0
      · by_cases hx1 : s1.visited x = 0
        · rw [hFc.par_old x (Or.inr (Or.inl hx1))]
          simp [upd, hxv]
        · obtain ⟨p, hp1', hp2, _, _⟩ := hE.par_new x hxs hx1 hxv
          have hpr : p ≠ r := fun e => hF.frame.vis_u (e ▸ hp2)
          constructor
          · intro hh; rw [hp1'] at hh; exact absurd (Int.ofNat_inj.1 hh) hpr
          · rintro (hh | hh)
            · exact absurd hh (hunv x hx hxs)
            · exact absurd hh hxv
      · rw [hFc.par_old x (Or.inl hxs)]
        simp [upd, hxv]
  have hkids : kids n r (backEdge r v (afterChild r v (c + 1) s1)) = insert v (kids n r s) := by
    ext x
    simp only [mem_kids, backEdge_parent, afterChild_parent, Finset.mem_insert]
    constructor
    · rintro ⟨hx, hh⟩
      rcases (hpar x hx).1 hh with h1 | h1
      · exact Or.inr ⟨hx, h1⟩
      · exact Or.inl h1
    · rintro (hh | ⟨hx, hh⟩)
      · subst hh; exact ⟨hvn, (hpar x hvn).2 (Or.inr rfl)⟩
      · exact ⟨hx, (hpar x hx).2 (Or.inl hh)⟩
  have hvnot : v ∉ kids n r s := by
    rw [mem_kids]
    rintro ⟨_, hh⟩
    exact hunv v hvn hv hh
  obtain ⟨h1, h2, h3, h4, h5⟩ := h
  have hc0 : 0 ≤ c := by rw [h1]; omega
  refine ⟨?_, ?_, ?_, ?_, ?_⟩
  · rw [hkids, Finset.card_insert_of_not_mem hvnot, h1]
    push_cast; ring
  · intro w hw
    rw [hkids, Finset.mem_insert] at hw
    simp only [backEdge_visited, afterChild_visited]
    rcases hw with rfl | hw
    · exact ⟨ha, fun e => hrv e.symm, hv0, hFc.vis_u⟩
    · obtain ⟨b1, b2, b3, b4⟩ := h2 w hw
      exact ⟨b1, b2, b3, hmono w b4⟩
  · intro x hx0 hx1 hxr
    simp only [backEdge_visited, afterChild_visited] at hx1
    rw [hkids]
    by_cases hxs : s.visited x = 0
    · refine ⟨v, Finset.mem_insert_self _ _, Conn.weaken ?_ (hE.reach x hxs hx1)⟩
      intro z hz
      rcases hz with hz | hz
      · exact hmono0 z hz
      · subst hz; exact hF.frame.vis_u
    · obtain ⟨w, hw, hwc⟩ := h3 x hx0 hxs hxr
      exact ⟨w, Finset.mem_insert_of_mem hw, hwc⟩
  · intro hsym a ha' b hb' hab
    rw [hkids, Finset.mem_insert] at ha' hb'
    have hold : ∀ w ∈ kids n r s, ¬ Conn adj n (fun z => s0.visited z ≠ 0 ∨ z = r) w v := by
      intro w hw hc
      obtain ⟨_, b2, b3, b4⟩ := h2 w hw
      exact (hX.conn_visited b3 b4 b2 hc).1 hv
    rcases ha' with rfl | ha' <;> rcases hb' with rfl | hb'
    · rfl
    · exact absurd (Conn.symm hsym hab) (hold b hb')
    · exact absurd hab (hold a ha')
    · exact h4 hsym a ha' b hb' hab
  · rw [backEdge_articulation, afterChild_articulation_of_root r v (c + 1) s1 hp1, hart, h5]
    by_cases hc1 : c > 1
    · simp [hc1]; omega
    · simp [hc1]

/-- The loop of a root call maintains `KidsInv`. -/
theorem root_kids {adj : Adj} {ord : List Nat} {n : Nat} (hord : ∀ v, v ∈ ord ↔ v < n)
    (fuel r : Nat) (s t : State) (hr : r < n) (hv : s.visited r = 0) (hp : s.parent r = -1)
    (hP2 : ∀ x, x < n → s.visited x = 0 → s.parent x = -1)
    (hk : ∀ x, x < n → s.parent x ≠ r)
    (h : dfnlowOrd adj ord fuel r s = some t) : ∃ c, KidsInv adj n r s c t := by
  have hord1 : ∀ v ∈ ord, v < n := fun v hv => (hord v).1 hv
  cases fuel with
  | zero => simp [dfnlowOrd] at h
  | succ fuel =>
    simp only [dfnlowOrd, Option.map_eq_some'] at h
    obtain ⟨res, hres, rfl⟩ := h
    have key := loop_rule adj r (dfnlowOrd adj ord fuel)
      (fun v a => v < n ∧ a.visited v = 0)
      (fun v a b => Frame n v a b ∧ Explored adj n v a b)
      (fun pre c a => FrameInv n r s a ∧ ExploredInv adj n r s pre a ∧ KidsInv adj n r s c a)
      ord
      (fun v a b hPa hc =>
        ⟨dfnlowOrd_frame hord1 fuel v a b hPa.1 hPa.2 hc,
          dfnlowOrd_explored hord fuel v a b hPa.1 hPa.2 hc⟩)
      (fun pre v rest c a _ hI ha => ⟨hI.1, explored_skip adj n r v s a pre hI.2.1 ha, hI.2.2⟩)
      (fun pre v rest c a hp _ _ hv => ⟨hord1 v (by rw [← hp]; simp), hv⟩)
      (fun pre v rest c a s1 hpp hI ha hv _ hPost =>
        ⟨frame_child n r v (c + 1) s a s1 hI.1 hv hPost.1,
          explored_child adj n r v (c + 1) s a s1 pre hr (hord1 v (by rw [← hpp]; simp))
            hI.1 hI.2.1 ha hv hPost.1 hPost.2,
          kids_child adj n r v c s a s1 pre hr (hord1 v (by rw [← hpp]; simp)) hp hP2 hI.1
            hI.2.1 hI.2.2 ha hv hPost.1 hPost.2⟩)
      (fun pre v rest c a _ hI _ hv =>
        ⟨frame_back n r v s a hI.1, explored_back adj n r v s a pre hI.2.1 hv,
          kids_back adj n r v c s a hI.2.2⟩)
      ord [] 0 (enter r s) res (by simp)
      ⟨frame_enter n r s hr hv, explored_enter adj n r s, kids_enter adj n r s hk⟩ hres
    exact ⟨res.1, key.2.2⟩

/-! ## The traversal forest -/

theorem treeInv_init (adj : Adj) (n : Nat) (s : State) (hs : IsReset n s) :
    TreeInv adj n s := by
  refine ⟨fun x hx => Or.inl (hs x hx).1, fun x hx _ => ⟨(hs x hx).1, (hs x hx).2.1⟩, ?_⟩
  intro r hr hv
  exact absurd (hs r hr).2.2 hv

/-- A later root call does not change the children of an earlier vertex. -/
theorem kids_frame {adj : Adj} {n k r : Nat} {s t : State} (hT : TreeInv adj n s)
    (hF : Frame n k s t) (hE : Explored adj n k s t) (hr : s.visited r ≠ 0) :
    kids n r t = kids n r s := by
  ext x
  simp only [mem_kids]
  constructor
  · rintro ⟨hx, hh⟩
    refine ⟨hx, ?_⟩
    by_cases hxs : s.visited x = 0
    · exfalso
      by_cases hxt : t.visited x = 0
      · rw [hF.par_old x (Or.inr (Or.inl hxt)), (hT.unvis x hx hxs).1] at hh
        omega
      · by_cases hxk : x = k
        · rw [hF.par_old x (Or.inr (Or.inr hxk)), (hT.unvis x hx hxs).1] at hh
          omega
        · obtain ⟨p, hp1, hp2, _, _⟩ := hE.par_new x hxs hxt hxk
          rw [hp1] at hh
          have : p = r := Int.ofNat_inj.1 hh
          exact hr (this ▸ hp2)
    · rw [← hF.par_old x (Or.inl hxs)]; exact hh
  · rintro ⟨hx, hh⟩
    refine ⟨hx, ?_⟩
    have hxs : s.visited x ≠ 0 := by
      intro hxs
      rw [(hT.unvis x hx hxs).1] at hh
      omega
    rw [hF.par_old x (Or.inl hxs)]; exact hh

theorem treeInv_call {adj : Adj} {ord : List Nat} {n : Nat} (hord : ∀ v, v ∈ ord ↔ v < n)
    (k : Nat) (s t : State) (hk : k < n) (hT : TreeInv adj n s) (hv : s.visited k = 0)
    (hcall : dfnlowOrd adj ord n k s = some t) : TreeInv adj n t := by
  have hord1 : ∀ v ∈ ord, v < n := fun v hv => (hord v).1 hv
  have hF := dfnlowOrd_frame hord1 n k s t hk hv hcall
  have hE := dfnlowOrd_explored hord n k s t hk hv hcall
  have hpk0 : s.parent k = -1 := (hT.unvis k hk hv).1
  have hpk : t.parent k = -1 := by
    rw [hF.par_old k (Or.inr (Or.inr rfl))]; exact hpk0
  have hk0 : ∀ x, x < n → s.parent x ≠ k := by
    intro x hx hh
    rcases hT.par x hx with h1 | ⟨p, _, h1, h2, _⟩
    · rw [h1] at hh; omega
    · rw [h1] at hh
      have : p = k := Int.ofNat_inj.1 hh
      exact h2 (this ▸ hv)
  obtain ⟨c, hK⟩ := root_kids hord n k s t hk hv hpk0 (fun x hx h0 => (hT.unvis x hx h0).1)
    hk0 hcall
  refine ⟨?_, ?_, ?_⟩
  · intro x hx
    by_cases hxs : s.visited x = 0
    · by_cases hxt : t.visited x = 0
      · left; rw [hF.par_old x (Or.inr (Or.inl hxt))]; exact (hT.unvis x hx hxs).1
      · by_cases hxk : x = k
        · left; rw [hxk]; exact hpk
        · obtain ⟨p, hp1, hp2, hp3, hp4⟩ := hE.par_new x hxs hxt hxk
          right
          refine ⟨p, ?_, hp1, hp3, hxt, hp4⟩
          rcases hF.vis_new p hp3 with h | h
          · exact absurd hp2 h
          · exact h
    · rw [hF.par_old x (Or.inl hxs)]
      rcases hT.par x hx with h1 | ⟨p, a1, a2, a3, a4, a5⟩
      · exact Or.inl h1
      · exact Or.inr ⟨p, a1, a2, hF.vis_mono p a3, hF.vis_mono x a4, a5⟩
  · intro x hx htx
    have hsx : s.visited x = 0 := by
      by_contra hc
      exact hF.vis_mono x hc htx
    have hxk : x ≠ k := fun e => hF.vis_u (e ▸ htx)
    rw [hF.par_old x (Or.inr (Or.inl htx)), hF.art_ne x hxk]
    exact hT.unvis x hx hsx
  · intro r hr hrt hrp
    by_cases hrk : r = k
    · subst hrk
      have h1 := hK.art
      have h2 := hK.count
      rw [h1, (hT.unvis r hr hv).2]
      by_cases hc : c > 1
      · rw [if_pos hc, if_pos (by omega)]
      · rw [if_neg hc, if_neg (by omega)]
    · by_cases hrs : s.visited r = 0
      · exfalso
        obtain ⟨p, hp1, _⟩ := hE.par_new r hrs hrt hrk
        rw [hp1] at hrp; omega
      · rw [hF.art_ne r hrk, kids_frame hT hF hE hrs]
        rw [hF.par_old r (Or.inl hrs)] at hrp
        exact hT.root r hr hrs hrp

/-- For every matrix: the forest left by `findarticulationpoints`. -/
theorem rootLoopOrd_tree {adj : Adj} {ord : List Nat} {n : Nat} (hord : ∀ v, v ∈ ord ↔ v < n)
    (s t : State) (hs : IsReset n s) (h : rootLoopOrd adj ord n s = some t) :
    TreeInv adj n t ∧ ∀ j, j < n → t.visited j ≠ 0 := by
  have hord1 : ∀ v ∈ ord, v < n := fun v hv => (hord v).1 hv
  have key := rootLoop_rule adj ord n
    (fun k a => TreeInv adj n a ∧ ∀ j, j < k → a.visited j ≠ 0)
    ?_ ?_ s t ⟨treeInv_init adj n s hs, fun j hj => by omega⟩ h
  · exact key
  · intro k a hk hJ hv
    refine ⟨hJ.1, ?_⟩
    intro j hj
    by_cases hjk : j = k
    · subst hjk; exact hv
    · exact hJ.2 j (by omega)
  · intro k a b hk hJ hv hcall
    have hF := dfnlowOrd_frame hord1 n k a b hk hv hcall
    refine ⟨treeInv_call hord k a b hk hJ.1 hv hcall, ?_⟩
    intro j hj
    by_cases hjk : j = k
    · subst hjk; exact hF.vis_u
    · exact hF.vis_mono j (hJ.2 j (by omega))

theorem conn_inside {adj : Adj} {n k : Nat} {A0 : Nat → Prop} (hk : ∀ z, z = k → A0 z)
    {v x : Nat} (hv : Conn adj n (fun _ => False) k v) (hvk : v ≠ k)
    (hc : Conn adj n A0 v x) :
    Conn adj n (OutsideOrSelf adj n k) v x ∧ Conn adj n (fun _ => False) k x ∧ x ≠ k := by
  induction hc with
  | refl => exact ⟨Relation.ReflTransGen.refl, hv, hvk⟩
  | @tail a b _ hab ih =>
    obtain ⟨h1, h2, h3, h4, h5⟩ := hab
    have hkb : Conn adj n (fun _ => False) k b :=
      Relation.ReflTransGen.tail ih.2.1 ⟨h1, h2, h3, fun h => h, fun h => h⟩
    have hbk : b ≠ k := fun e => h5 (hk b e)
    refine ⟨Relation.ReflTransGen.tail ih.1 ⟨h1, h2, h3, ?_, ?_⟩, hkb, hbk⟩
    · rintro (h | h)
      · exact ih.2.2 h
      · exact h ih.2.1
    · rintro (h | h)
      · exact hbk h
      · exact h hkb

/-- For a symmetric matrix, the children of a root are representatives of the components
into which the root's component falls when the root is removed. -/
theorem root_components {adj : Adj} {n k : Nat} {s t : State} {c : Int}
    (hsym : ∀ x y, x < n → y < n → adj x y = adj y x) (hk : k < n)
    (hJ : RootLoopInv adj n k s) (hJ' : RootLoopInv adj n (k + 1) t)
    (hv : s.visited k = 0) (hK : KidsInv adj n k s c t) :
    HasComponents adj n (OutsideOrSelf adj n k) (kids n k t).card := by
  refine ⟨kids n k t, rfl, ?_, ?_, ?_⟩
  · intro v hv'
    obtain ⟨a1, a2, _, _⟩ := hK.edge v hv'
    refine ⟨(mem_kids.1 hv').1, ?_⟩
    rintro (h | h)
    · exact a2 h
    · exact h (Relation.ReflTransGen.single
        ⟨hk, (mem_kids.1 hv').1, a1, fun h => h, fun h => h⟩)
  · intro x hx hxo
    have hxk : x ≠ k := fun e => hxo (Or.inl e)
    have hkx : Conn adj n (fun _ => False) k x := by
      by_contra hc
      exact hxo (Or.inr hc)
    have hx0 : s.visited x = 0 := hJ.unvis_of_conn hsym hk hv hkx
    have hxt : t.visited x ≠ 0 := (hJ'.vis_iff x hx).2 ⟨k, by omega, hkx⟩
    obtain ⟨v, hv', hvc⟩ := hK.cover x hx0 hxt hxk
    obtain ⟨a1, a2, _, _⟩ := hK.edge v hv'
    have hkv : Conn adj n (fun _ => False) k v :=
      Relation.ReflTransGen.single ⟨hk, (mem_kids.1 hv').1, a1, fun h => h, fun h => h⟩
    exact ⟨v, hv', (conn_inside (fun z hz => Or.inr hz) hkv a2 hvc).1⟩
  · intro v hv' w hw' hvw
    refine hK.sep hsym v hv' w hw' (Conn.weaken ?_ hvw)
    intro z hz
    rcases hz with hz | hz
    · right
      intro hc
      exact hz (hJ.unvis_of_conn hsym hk hv hc)
    · exact Or.inl hz

/-- For a symmetric matrix: the state after the second loop of `findarticulationpoints`,
with the children of every root counted against the components of its component without
the root. -/
theorem rootLoopOrd_components {adj : Adj} {ord : List Nat} {n : Nat}
    (hsym : ∀ x y, x < n → y < n → adj x y = adj y x) (hord : ∀ v, v ∈ ord ↔ v < n)
    (s t : State) (hs : IsReset n s) (h : rootLoopOrd adj ord n s = some t) :
    ∀ r, r < n → t.parent r = -1 →
      HasComponents adj n (OutsideOrSelf adj n r) (kids n r t).card := by
  have hord1 : ∀ v ∈ ord, v < n := fun v hv => (hord v).1 hv
  have key := rootLoop_rule adj ord n
    (fun k a => RootLoopInv adj n k a ∧ TreeInv adj n a ∧
      ∀ r, r < n → a.visited r ≠ 0 → a.parent r = -1 →
        HasComponents adj n (OutsideOrSelf adj n r) (kids n r a).card)
    ?_ ?_ s t ⟨rootLoopInv_init adj n s hs, treeInv_init adj n s hs, ?_⟩ h
  · intro r hr hp
    obtain ⟨hJ, _, hC⟩ := key
    exact hC r hr ((hJ.vis_iff r hr).2 ⟨r, hr, Relation.ReflTransGen.refl⟩) hp
  · intro k a hk hJ hv
    exact ⟨rootLoopInv_skip adj n k a hk hJ.1 hv, hJ.2.1, hJ.2.2⟩
  · intro k a b hk hJ hv hcall
    obtain ⟨hR, hT, hC⟩ := hJ
    have hF := dfnlowOrd_frame hord1 n k a b hk hv hcall
    have hE := dfnlowOrd_explored hord n k a b hk hv hcall
    have hR' := rootLoopInv_call hsym hord k a b hk hR hv hcall
    have hk0 : ∀ x, x < n → a.parent x ≠ k := by
      intro x hx hh
      rcases hT.par x hx with h1 | ⟨p, _, h1, h2, _⟩
      · rw [h1] at hh; omega
      · rw [h1] at hh
        have : p = k := Int.ofNat_inj.1 hh
        exact h2 (this ▸ hv)
    obtain ⟨c, hK⟩ := root_kids hord n k a b hk hv (hT.unvis k hk hv).1
      (fun x hx h0 => (hT.unvis x hx h0).1) hk0 hcall
    refine ⟨hR', treeInv_call hord k a b hk hT hv hcall, ?_⟩
    intro r hr hrt hrp
    by_cases hrk : r = k
    · subst hrk
      exact root_components hsym hr hR hR' hv hK
    · by_cases hrs : a.visited r = 0
      · exfalso
        obtain ⟨p, hp1, _⟩ := hE.par_new r hrs hrt hrk
        rw [hp1] at hrp; omega
      · rw [kids_frame hT hF hE hrs]
        rw [hF.par_old r (Or.inl hrs)] at hrp
        exact hC r hr hrs hrp
  · intro r hr hv
    exact absurd (hs r hr).2.2 hv

/-! ## Cut vertices -/

theorem Conn.alive_left {adj : Adj} {n : Nat} {A : Nat → Prop} {a b : Nat}
    (hc : Conn adj n A a b) : a = b ∨ ¬ A a := by
  induction hc with
  | refl => exact Or.inl rfl
  | @tail x y _ hxy ih =>
    rcases ih with h | h
    · right; rw [h]; exact hxy.2.2.2.1
    · exact Or.inr h

/-- For a symmetric matrix the components outside `A` can be counted. -/
theorem hasComponents_exists {adj : Adj} {n : Nat}
    (hsym : ∀ x y, x < n → y < n → adj x y = adj y x) (A : Nat → Prop) :
    ∃ k, HasComponents adj n A k := by
  classical
  let reps : Finset Nat :=
    (Finset.range n).filter (fun x => ¬ A x ∧ ∀ y, y < x → ¬ Conn adj n A y x)
  have hmem : ∀ x, x ∈ reps ↔ x < n ∧ ¬ A x ∧ ∀ y, y < x → ¬ Conn adj n A y x := by
    intro x
    simp [reps]
  refine ⟨reps.card, reps, rfl, ?_, ?_, ?_⟩
  · intro r hr
    exact ⟨((hmem r).1 hr).1, ((hmem r).1 hr).2.1⟩
  · intro x
    induction x using Nat.strong_induction_on with
    | _ x ih =>
      intro hx hAx
      by_cases hmin : ∀ y, y < x → ¬ Conn adj n A y x
      · exact ⟨x, (hmem x).2 ⟨hx, hAx, hmin⟩, Relation.ReflTransGen.refl⟩
      · push_neg at hmin
        obtain ⟨y, hy, hyx⟩ := hmin
        have hAy : ¬ A y := by
          rcases hyx.alive_left with h | h
          · omega
          · exact h
        obtain ⟨r, hr, hry⟩ := ih y hy (by omega) hAy
        exact ⟨r, hr, Relation.ReflTransGen.trans hry hyx⟩
  · intro r hr r' hr' hc
    rcases Nat.lt_trichotomy r r' with h | h | h
    · exact absurd hc (((hmem r').1 hr').2.2 r h)
    · exact h
    · exact absurd (Conn.symm hsym hc) (((hmem r).1 hr).2.2 r' h)

/-- For a symmetric matrix, a vertex that separates two of its neighbours is a cut
vertex: removing it increases the number of components. -/
theorem isCutVertex_of_separates {adj : Adj} {n r : Nat}
    (hsym : ∀ x y, x < n → y < n → adj x y = adj y x) (hr : r < n)
    (h : Separates adj n r) : IsCutVertex adj n r := by
  classical
  obtain ⟨a, b, han, hbn, har, hbr, haa, hab, hsep⟩ := h
  obtain ⟨k, R, hk, hR1, hR2, hR3⟩ := hasComponents_exists hsym (fun _ => False)
  obtain ⟨k', R', hk', hR1', hR2', hR3'⟩ := hasComponents_exists hsym (fun z => z = r)
  refine ⟨hr, k, k', ⟨R, hk, hR1, hR2, hR3⟩, ⟨R', hk', hR1', hR2', hR3'⟩, ?_⟩
  have hex : ∀ y, ∃ m, y < n → y ≠ r → m ∈ R' ∧ Conn adj n (fun z => z = r) m y := by
    intro y
    by_cases hy : y < n ∧ y ≠ r
    · obtain ⟨m, hm, hc⟩ := hR2' y hy.1 hy.2
      exact ⟨m, fun _ _ => ⟨hm, hc⟩⟩
    · exact ⟨0, fun h1 h2 => absurd ⟨h1, h2⟩ hy⟩
  choose g hg using hex
  have hw : ∀ {x y}, Conn adj n (fun z => z = r) x y → Conn adj n (fun _ => False) x y :=
    fun hc => Conn.weaken (fun _ hf => hf.elim) hc
  have hra : Conn adj n (fun _ => False) r a :=
    Relation.ReflTransGen.single ⟨hr, han, haa, fun h => h, fun h => h⟩
  have hrb : Conn adj n (fun _ => False) r b :=
    Relation.ReflTransGen.single ⟨hr, hbn, hab, fun h => h, fun h => h⟩
  have hga := hg a han har
  have hgb := hg b hbn hbr
  let f : Nat → Nat := fun x => if Conn adj n (fun _ => False) x r then g a else g x
  have hfx : ∀ x, x ∈ R → f x ∈ R' ∧ f x ≠ g b ∧ Conn adj n (fun _ => False) x (f x) := by
    intro x hx
    by_cases hxr : Conn adj n (fun _ => False) x r
    · have hf : f x = g a := by simp [f, hxr]
      rw [hf]
      refine ⟨hga.1, ?_, ?_⟩
      · intro e
        apply hsep
        exact Relation.ReflTransGen.trans (Conn.symm hsym hga.2) (by rw [e]; exact hgb.2)
      · exact Relation.ReflTransGen.trans hxr
          (Relation.ReflTransGen.trans hra (Conn.symm hsym (hw hga.2)))
    · have hf : f x = g x := by simp [f, hxr]
      have hxne : x ≠ r := fun e => hxr (e ▸ Relation.ReflTransGen.refl)
      have hgx := hg x (hR1 x hx).1 hxne
      rw [hf]
      refine ⟨hgx.1, ?_, Conn.symm hsym (hw hgx.2)⟩
      intro e
      apply hxr
      have h1 : Conn adj n (fun _ => False) x b :=
        Relation.ReflTransGen.trans (Conn.symm hsym (hw hgx.2)) (by rw [e]; exact hw hgb.2)
      exact Relation.ReflTransGen.trans h1 (Conn.symm hsym hrb)
  have hinj : Set.InjOn f (R : Set Nat) := by
    intro x hx y hy hxy
    have h1 := (hfx x hx).2.2
    have h2 := (hfx y hy).2.2
    rw [hxy] at h1
    exact hR3 x hx y hy (Relation.ReflTransGen.trans h1 (Conn.symm hsym h2))
  have hle : R.card ≤ (R'.erase (g b)).card :=
    Finset.card_le_card_of_injOn f
      (fun x hx => Finset.mem_erase.2 ⟨(hfx x hx).2.1, (hfx x hx).1⟩) hinj
  have hpos : 0 < R'.card := Finset.card_pos.mpr ⟨g b, hgb.1⟩
  rw [Finset.card_erase_of_mem hgb.1] at hle
  omega

theorem conn_through {adj : Adj} {n r : Nat}
    (hsym : ∀ x y, x < n → y < n → adj x y = adj y x)
    (hns : ∀ a b, a < n → b < n → a ≠ r → b ≠ r → adj r a ≠ 0 → adj r b ≠ 0 →
      Conn adj n (fun z => z = r) a b)
    {x y : Nat} (hx : x ≠ r) (hc : Conn adj n (fun _ => False) x y) :
    (y ≠ r → Conn adj n (fun z => z = r) x y) ∧
      (y = r → ∃ a, a < n ∧ a ≠ r ∧ adj r a ≠ 0 ∧ Conn adj n (fun z => z = r) x a) := by
  induction hc with
  | refl => exact ⟨fun _ => Relation.ReflTransGen.refl, fun e => absurd e hx⟩
  | @tail z y _ hzy ih =>
    obtain ⟨hz, hy, hadj, _, _⟩ := hzy
    constructor
    · intro hyr
      by_cases hzr : z = r
      · obtain ⟨a, a1, a2, a3, a4⟩ := ih.2 hzr
        rw [hzr] at hadj
        exact Relation.ReflTransGen.trans a4 (hns a y a1 hy a2 hyr a3 hadj)
      · exact Relation.ReflTransGen.tail (ih.1 hzr) ⟨hz, hy, hadj, hzr, hyr⟩
    · intro hyr
      by_cases hzr : z = r
      · exact ih.2 hzr
      · refine ⟨z, hz, hzr, ?_, ih.1 hzr⟩
        rw [hyr] at hadj hy
        rw [hsym r z hy hz]
        exact hadj

/-- For a symmetric matrix, a cut vertex separates two of its neighbours. -/
theorem separates_of_isCutVertex {adj : Adj} {n r : Nat}
    (hsym : ∀ x y, x < n → y < n → adj x y = adj y x) (h : IsCutVertex adj n r) :
    Separates adj n r := by
  classical
  by_contra hns
  have hns' : ∀ a b, a < n → b < n → a ≠ r → b ≠ r → adj r a ≠ 0 → adj r b ≠ 0 →
      Conn adj n (fun z => z = r) a b := by
    intro a b h1 h2 h3 h4 h5 h6
    by_contra hc
    exact hns ⟨a, b, h1, h2, h3, h4, h5, h6, hc⟩
  obtain ⟨_, k, k', ⟨R, hk, hR1, hR2, hR3⟩, ⟨R', hk', hR1', _, hR3'⟩, hlt⟩ := h
  have hex : ∀ y, ∃ m, y < n → m ∈ R ∧ Conn adj n (fun _ => False) m y := by
    intro y
    by_cases hy : y < n
    · obtain ⟨m, hm, hc⟩ := hR2 y hy (fun h => h)
      exact ⟨m, fun _ => ⟨hm, hc⟩⟩
    · exact ⟨0, fun h1 => absurd h1 hy⟩
  choose g hg using hex
  have hinj : Set.InjOn g (R' : Set Nat) := by
    intro x hx y hy hxy
    have h1 := (hg x (hR1' x hx).1).2
    have h2 := (hg y (hR1' y hy).1).2
    rw [hxy] at h1
    have hxy' : Conn adj n (fun _ => False) x y :=
      Relation.ReflTransGen.trans (Conn.symm hsym h1) h2
    exact hR3' x hx y hy ((conn_through hsym hns' (hR1' x hx).2 hxy').1 (hR1' y hy).2)
  have hle : R'.card ≤ R.card :=
    Finset.card_le_card_of_injOn g (fun x hx => (hg x (hR1' x hx).1).1) hinj
  omega

/-! ## The values of low -/

theorem DescV.carry {n : Nat} {s t : State}
    (hvis : ∀ z, s.visited z ≠ 0 → t.visited z ≠ 0)
    (hpar : ∀ z, s.visited z ≠ 0 → t.parent z = s.parent z) {x y : Nat}
    (h : DescV n s x y) : DescV n t x y := by
  refine Relation.ReflTransGen.mono ?_ h
  intro a b hab
  exact ⟨hab.1, by rw [hpar b hab.2.2]; exact hab.2.1, hvis b hab.2.2⟩

theorem DescV.toDesc {n : Nat} {t : State} {x y : Nat} (h : DescV n t x y) : Desc n t x y :=
  Relation.ReflTransGen.mono (fun _ _ hab => ⟨hab.1, hab.2.1⟩) h

/-- The facts about a vertex whose call has returned survive every later change that
leaves the visited vertices, their `dfn` and `parent`, and the `low` of the vertex and of
its children alone. -/
theorem LowFacts.persist {adj : Adj} {n : Nat} {s t : State} {x : Nat}
    (h : LowFacts adj n s x)
    (hvis : ∀ z, s.visited z ≠ 0 → t.visited z ≠ 0)
    (hdfn : ∀ z, s.visited z ≠ 0 → t.dfn z = s.dfn z)
    (hpar : ∀ z, s.visited z ≠ 0 → t.parent z = s.parent z)
    (hlow : t.low x = s.low x)
    (hkid : ∀ b, b < n → t.parent b = (x : Int) → s.parent b = (x : Int) ∧ t.low b = s.low b) :
    LowFacts adj n t x := by
  refine ⟨hvis x h.vis, ?_, ?_, ?_, ?_⟩
  · rw [hlow, hdfn x h.vis]; exact h.le_dfn
  · intro w hw hadj
    obtain ⟨h1, h2⟩ := h.nbr w hw hadj
    refine ⟨hvis w h1, ?_⟩
    rw [hpar x h.vis, hlow, hdfn w h1]
    exact h2
  · intro b hb hpb
    obtain ⟨h1, h2⟩ := hkid b hb hpb
    rw [hlow, h2]
    exact h.kid b hb h1
  · rcases h.att with h1 | ⟨y, w, a1, a2, a3, a4, a5, a6, a7⟩
    · left; rw [hlow, hdfn x h.vis]; exact h1
    · right
      refine ⟨y, w, a1.carry hvis hpar, hvis y a2, a3, hvis w a4, a5, ?_, ?_⟩
      · rw [hpar y a2]; exact a6
      · rw [hlow, hdfn w a4]; exact a7

theorem backEdge_low_le_dfn (u v : Nat) (s : State) (h : (v : Int) ≠ s.parent u) :
    (backEdge u v s).low u ≤ s.dfn v := by
  unfold backEdge
  rw [if_pos h]
  simp only [upd_same]
  split <;> omega

theorem backEdge_low_cases (u v : Nat) (s : State) :
    (backEdge u v s).low u = s.low u ∨
      ((v : Int) ≠ s.parent u ∧ (backEdge u v s).low u = s.dfn v) := by
  unfold backEdge
  by_cases h : (v : Int) ≠ s.parent u
  · rw [if_pos h]
    simp only [upd_same]
    by_cases h2 : s.low u < s.dfn v
    · left; rw [if_pos h2]
    · right; rw [if_neg h2]; exact ⟨h, rfl⟩
  · left; rw [if_neg h]

theorem afterChild_low_cases (u v : Nat) (c : Int) (s : State) :
    ((afterChild u v c s).low u = s.low u ∨ (afterChild u v c s).low u = s.low v) ∧
      (afterChild u v c s).low u ≤ s.low v := by
  rw [afterChild_low]
  simp only [upd_same]
  by_cases h : s.low u < s.low v
  · rw [if_pos h]; exact ⟨Or.inl rfl, by omega⟩
  · rw [if_neg h]; exact ⟨Or.inr rfl, le_refl _⟩

theorem parentsVisited_call {adj : Adj} {n v : Nat} {s t : State}
    (hP : ParentsVisited n s) (hF : Frame n v s t) (hE : Explored adj n v s t) :
    ParentsVisited n t := by
  intro b hb
  by_cases hbs : s.visited b ≠ 0 ∨ t.visited b = 0 ∨ b = v
  · rw [hF.par_old b hbs]
    rcases hP b hb with h | ⟨p, h1, h2⟩
    · exact Or.inl h
    · exact Or.inr ⟨p, h1, hF.vis_mono p h2⟩
  · push_neg at hbs
    obtain ⟨p, h1, _, h3, _⟩ := hE.par_new b hbs.1 hbs.2.1 hbs.2.2
    exact Or.inr ⟨p, h1, h3⟩

theorem parentsVisited_congr {n : Nat} {s t : State} (hp : t.parent = s.parent)
    (hv : ∀ z, s.visited z ≠ 0 → t.visited z ≠ 0) (h : ParentsVisited n s) :
    ParentsVisited n t := by
  intro b hb
  rw [hp]
  rcases h b hb with h1 | ⟨p, h1, h2⟩
  · exact Or.inl h1
  · exact Or.inr ⟨p, h1, hv p h2⟩

theorem parentsVisited_setParent {n u v : Nat} {s : State} (hu : s.visited u ≠ 0)
    (h : ParentsVisited n s) : ParentsVisited n { s with parent := upd s.parent v u } := by
  intro b hb
  by_cases hbv : b = v
  · subst hbv
    exact Or.inr ⟨u, by simp [upd], hu⟩
  · simp only [upd, hbv, if_false]
    exact h b hb

/-- The parent of the vertex whose loop is running was visited before the call, so it is
none of the vertices found since. -/
theorem FrameInv.parent_ne_new {n u : Nat} {s0 s : State} (hF : FrameInv n u s0 s)
    (hp : s0.parent u = -1 ∨ ∃ p : Nat, s0.parent u = p ∧ s0.visited p ≠ 0) {x : Nat}
    (hx : s0.visited x = 0) : s.parent u ≠ (x : Int) := by
  rw [hF.frame.par_old u (Or.inr (Or.inr rfl))]
  rcases hp with h | ⟨p, h1, h2⟩
  · rw [h]; omega
  · rw [h1]
    intro e
    have : p = x := Int.ofNat_inj.1 e
    exact h2 (this ▸ hx)

theorem low_enter (adj : Adj) (n u : Nat) (s : State) (hv : s.visited u = 0)
    (hP : ParentsVisited n s) (hu : u < n) : LowInv adj n u s [] (enter u s) := by
  have hne : ∀ x, s.visited x = 0 → (enter u s).visited x ≠ 0 → x = u := by
    intro x h0 h1
    by_contra hc
    simp [enter, upd, hc] at h1
    exact h1 h0
  refine ⟨?_, ?_, ?_, Or.inl (by simp [enter]), ?_, hP u hu⟩
  · intro x h0 h1 hx
    exact absurd (hne x h0 h1) hx
  · intro w hw; simp at hw
  · intro b hb hpb
    exfalso
    have hpb' : s.parent b = (u : Int) := hpb
    rcases hP b hb with h | ⟨p, h1, h2⟩
    · rw [h] at hpb'; omega
    · rw [h1] at hpb'
      have : p = u := Int.ofNat_inj.1 hpb'
      exact h2 (this ▸ hv)
  · refine parentsVisited_congr (s := s) (t := enter u s) rfl ?_ hP
    intro z hz
    have : z ≠ u := fun e => hz (e ▸ hv)
    simpa [enter, upd, this] using hz

theorem low_skip (adj : Adj) (n u v : Nat) (s0 s : State) (pre : List Nat)
    (h : LowInv adj n u s0 pre s) (ha : adj u v = 0) : LowInv adj n u s0 (pre ++ [v]) s := by
  refine ⟨h.fin, ?_, h.kid, h.att, h.pv, h.par0⟩
  intro w hw haw
  simp only [List.mem_append, List.mem_singleton] at hw
  rcases hw with hw | hw
  · exact h.nbr w hw haw
  · subst hw; exact absurd ha haw

theorem low_back (adj : Adj) (n u v : Nat) (s0 s : State) (pre : List Nat) (hvn : v < n)
    (hF : FrameInv n u s0 s) (h : LowInv adj n u s0 pre s) (ha : adj u v ≠ 0)
    (hv : s.visited v ≠ 0) : LowInv adj n u s0 (pre ++ [v]) (backEdge u v s) := by
  have hle := backEdge_low_le u v s
  refine ⟨?_, ?_, ?_, ?_, parentsVisited_congr (by simp) (fun z hz => by simpa using hz) h.pv,
    h.par0⟩
  · intro x hx0 hx1 hxu
    rw [backEdge_visited] at hx1
    refine (h.fin x hx0 hx1 hxu).persist (fun z hz => by simpa using hz) (fun z _ => by simp)
      (fun z _ => by simp) (backEdge_low_ne u v s hxu) ?_
    intro b hb hpb
    rw [backEdge_parent] at hpb
    refine ⟨hpb, backEdge_low_ne u v s ?_⟩
    rintro rfl
    exact hF.parent_ne_new h.par0 hx0 hpb
  · intro w hw haw
    simp only [List.mem_append, List.mem_singleton] at hw
    rw [backEdge_visited, backEdge_parent, backEdge_dfn]
    rcases hw with hw | hw
    · obtain ⟨h1, h2⟩ := h.nbr w hw haw
      exact ⟨h1, fun hne => le_trans hle (h2 hne)⟩
    · subst hw
      exact ⟨hv, fun hne => backEdge_low_le_dfn u w s hne⟩
  · intro b hb hpb
    rw [backEdge_parent] at hpb
    by_cases hbu : b = u
    · rw [hbu]
    · rw [backEdge_low_ne u v s hbu]
      exact le_trans hle (h.kid b hb hpb)
  · rcases backEdge_low_cases u v s with h1 | ⟨h1, h2⟩
    · rcases h.att with a | ⟨y, w, a1, a2, a3, a4, a5, a6, a7⟩
      · left; rw [h1, backEdge_dfn]; exact a
      · right
        refine ⟨y, w, a1.carry (fun z hz => by simpa using hz) (fun z _ => by simp),
          by simpa using a2, a3, by simpa using a4, a5, by simpa using a6, ?_⟩
        rw [h1, backEdge_dfn]; exact a7
    · right
      exact ⟨u, v, Relation.ReflTransGen.refl, by simpa using hF.frame.vis_u, hvn,
        by simpa using hv, ha, by simpa using h1, by rw [h2, backEdge_dfn]⟩

theorem low_child (adj : Adj) (n u v : Nat) (c : Int) (s0 s s1 : State) (pre : List Nat)
    (hvn : v < n) (hF : FrameInv n u s0 s) (h : LowInv adj n u s0 pre s)
    (ha : adj u v ≠ 0) (hv : s.visited v = 0)
    (hFc : Frame n v { s with parent := upd s.parent v u } s1)
    (hE : Explored adj n v { s with parent := upd s.parent v u } s1)
    (hpost : ∀ x, s.visited x = 0 → s1.visited x ≠ 0 → LowFacts adj n s1 x) :
    LowInv adj n u s0 (pre ++ [v]) (backEdge u v (afterChild u v c s1)) := by
  have hsu : s.visited u ≠ 0 := hF.frame.vis_u
  have huv : u ≠ v := fun e => hsu (e ▸ hv)
  have hmono : ∀ z, s.visited z ≠ 0 → s1.visited z ≠ 0 := fun z hz => hFc.vis_mono z hz
  have hmono0 : ∀ z, s0.visited z ≠ 0 → s.visited z ≠ 0 := fun z hz => hF.frame.vis_mono z hz
  have hv0 : s0.visited v = 0 := by
    by_contra hc0
    exact hmono0 v hc0 hv
  have hdfn : ∀ z, s.visited z ≠ 0 → s1.dfn z = s.dfn z := fun z hz => hFc.dfn_old z (Or.inl hz)
  have hlow : ∀ z, s.visited z ≠ 0 ∨ s1.visited z = 0 → s1.low z = s.low z :=
    fun z hz => hFc.low_old z hz
  have hpar : ∀ z, z ≠ v → s.visited z ≠ 0 ∨ s1.visited z = 0 → s1.parent z = s.parent z := by
    intro z hzv hz
    rw [hFc.par_old z (hz.elim Or.inl (fun h => Or.inr (Or.inl h)))]
    simp [upd, hzv]
  have hparv : s1.parent v = (u : Int) := by
    rw [hFc.par_old v (Or.inr (Or.inr rfl))]
    simp [upd]
  have hpu : s1.parent u = s.parent u := hpar u huv (Or.inl hsu)
  have hpne : ∀ x, s0.visited x = 0 → s1.parent u ≠ (x : Int) := by
    intro x hx
    rw [hpu]
    exact hF.parent_ne_new h.par0 hx
  have hnewpar : ∀ b, b ≠ v → s.visited b = 0 → s1.visited b ≠ 0 →
      ∃ p : Nat, s1.parent b = p ∧ s.visited p = 0 := by
    intro b hbv hb0 hb1
    obtain ⟨p, h1, h2, _, _⟩ := hE.par_new b hb0 hb1 hbv
    exact ⟨p, h1, h2⟩
  have hlu1 : s1.low u = s.low u := hlow u (Or.inl hsu)
  have hac := afterChild_low_cases u v c s1
  have hbe := backEdge_low_cases u v (afterChild u v c s1)
  have hble := backEdge_low_le u v (afterChild u v c s1)
  have hale := afterChild_low_le u v c s1
  have hvis1 : s1.visited v ≠ 0 := hFc.vis_u
  refine ⟨?_, ?_, ?_, ?_, ?_, h.par0⟩
  · -- vertices whose call has returned
    intro x hx0 hx1 hxu
    simp only [backEdge_visited, afterChild_visited] at hx1
    by_cases hxs : s.visited x = 0
    · refine (hpost x hxs hx1).persist (fun z hz => by simpa using hz) (fun z _ => by simp)
        (fun z _ => by simp) ?_ ?_
      · rw [backEdge_low_ne u v _ hxu, afterChild_low_ne u v c s1 hxu]
      · intro b hb hpb
        simp only [backEdge_parent, afterChild_parent] at hpb
        refine ⟨hpb, ?_⟩
        have hbu : b ≠ u := by
          rintro rfl
          exact hpne x hx0 hpb
        rw [backEdge_low_ne u v _ hbu, afterChild_low_ne u v c s1 hbu]
    · have hxv : x ≠ v := fun e => hxs (e ▸ hv)
      refine (h.fin x hx0 hxs hxu).persist (fun z hz => by simpa using hmono z hz)
        (fun z hz => by simpa using hdfn z hz)
        (fun z hz => by
          have hzv : z ≠ v := fun e => hz (e ▸ hv)
          simpa using hpar z hzv (Or.inl hz)) ?_ ?_
      · rw [backEdge_low_ne u v _ hxu, afterChild_low_ne u v c s1 hxu]
        exact hlow x (Or.inl hxs)
      · intro b hb hpb
        simp only [backEdge_parent, afterChild_parent] at hpb
        by_cases hbv : b = v
        · exfalso
          rw [hbv, hparv] at hpb
          exact hxu (Int.ofNat_inj.1 hpb).symm
        · by_cases hbs : s.visited b = 0
          · by_cases hb1 : s1.visited b = 0
            · have hbu : b ≠ u := fun e => hsu (e ▸ hbs)
              rw [hpar b hbv (Or.inr hb1)] at hpb
              refine ⟨hpb, ?_⟩
              rw [backEdge_low_ne u v _ hbu, afterChild_low_ne u v c s1 hbu]
              exact hlow b (Or.inr hb1)
            · exfalso
              obtain ⟨p, h1, h2⟩ := hnewpar b hbv hbs hb1
              rw [h1] at hpb
              have : p = x := Int.ofNat_inj.1 hpb
              exact hxs (this ▸ h2)
          · rw [hpar b hbv (Or.inl hbs)] at hpb
            have hbu : b ≠ u := by
              rintro rfl
              exact hF.parent_ne_new h.par0 hx0 hpb
            refine ⟨hpb, ?_⟩
            rw [backEdge_low_ne u v _ hbu, afterChild_low_ne u v c s1 hbu]
            exact hlow b (Or.inl hbs)
  · -- neighbours scanned so far
    intro w hw haw
    simp only [List.mem_append, List.mem_singleton] at hw
    simp only [backEdge_visited, afterChild_visited, backEdge_parent, afterChild_parent,
      backEdge_dfn, afterChild_dfn]
    rcases hw with hw | hw
    · obtain ⟨h1, h2⟩ := h.nbr w hw haw
      refine ⟨hmono w h1, fun hne => ?_⟩
      rw [hpu] at hne
      have := h2 hne
      rw [hdfn w h1]
      omega
    · subst hw
      refine ⟨hvis1, fun hne => ?_⟩
      have := backEdge_low_le_dfn u w (afterChild u w c s1) (by simpa using hne)
      simpa using this
  · -- children
    intro b hb hpb
    simp only [backEdge_parent, afterChild_parent] at hpb
    by_cases hbu : b = u
    · rw [hbu]
    · rw [backEdge_low_ne u v _ hbu, afterChild_low_ne u v c s1 hbu]
      by_cases hbv : b = v
      · rw [hbv]
        exact le_trans hble hac.2
      · have hold : s.visited b ≠ 0 ∨ s1.visited b = 0 := by
          by_contra hc
          push_neg at hc
          obtain ⟨p, h1, h2⟩ := hnewpar b hbv hc.1 hc.2
          rw [h1] at hpb
          have : p = u := Int.ofNat_inj.1 hpb
          exact hsu (this ▸ h2)
        rw [hpar b hbv hold] at hpb
        have := h.kid b hb hpb
        rw [hlow b hold]
        omega
  · -- the value is attained
    have hwitness : (v : Int) ≠ (backEdge u v (afterChild u v c s1)).parent u := by
      simp only [backEdge_parent, afterChild_parent]
      exact fun e => hpne v hv0 e.symm
    have hself : ∃ y w, DescV n (backEdge u v (afterChild u v c s1)) u y ∧
        (backEdge u v (afterChild u v c s1)).visited y ≠ 0 ∧ w < n ∧
        (backEdge u v (afterChild u v c s1)).visited w ≠ 0 ∧ adj y w ≠ 0 ∧
        (w : Int) ≠ (backEdge u v (afterChild u v c s1)).parent y ∧
        s1.dfn v = (backEdge u v (afterChild u v c s1)).dfn w :=
      ⟨u, v, Relation.ReflTransGen.refl, by simpa using hmono u hsu, hvn, by simpa using hvis1,
        ha, hwitness, by simp⟩
    rcases hbe with hb1 | ⟨_, hb2⟩
    · rcases hac.1 with ha1 | ha1
      · -- the old value
        rcases h.att with a | ⟨y, w, a1, a2, a3, a4, a5, a6, a7⟩
        · left
          rw [hb1, ha1, hlu1, a]
          simp only [backEdge_dfn, afterChild_dfn]
          exact (hdfn u hsu).symm
        · right
          have hyv : y ≠ v := fun e => a2 (e ▸ hv)
          refine ⟨y, w, a1.carry (fun z hz => by simpa using hmono z hz) (fun z hz => ?_),
            by simpa using hmono y a2, a3, by simpa using hmono w a4, a5, ?_, ?_⟩
          · have hzv : z ≠ v := fun e => hz (e ▸ hv)
            simpa using hpar z hzv (Or.inl hz)
          · simp only [backEdge_parent, afterChild_parent]
            rw [hpar y hyv (Or.inl a2)]; exact a6
          · rw [hb1, ha1, hlu1, a7]
            simp only [backEdge_dfn, afterChild_dfn]
            exact (hdfn w a4).symm
      · -- the value of the child
        rcases (hpost v hv hvis1).att with a | ⟨y, w, a1, a2, a3, a4, a5, a6, a7⟩
        · right
          obtain ⟨y, w, b1, b2, b3, b4, b5, b6, b7⟩ := hself
          exact ⟨y, w, b1, b2, b3, b4, b5, b6, by rw [hb1, ha1, a]; exact b7⟩
        · right
          have hstep : DescV n (backEdge u v (afterChild u v c s1)) u v :=
            Relation.ReflTransGen.single ⟨hvn, by simpa using hparv, by simpa using hvis1⟩
          refine ⟨y, w, Relation.ReflTransGen.trans hstep
              (a1.carry (fun z hz => by simpa using hz) (fun z _ => by simp)),
            by simpa using a2, a3, by simpa using a4, a5, by simpa using a6, ?_⟩
          rw [hb1, ha1, a7]
          simp
    · right
      obtain ⟨y, w, b1, b2, b3, b4, b5, b6, b7⟩ := hself
      refine ⟨y, w, b1, b2, b3, b4, b5, b6, ?_⟩
      rw [hb2, afterChild_dfn]; exact b7
  · -- parents
    have h1 : ParentsVisited n s1 :=
      parentsVisited_call (parentsVisited_setParent hsu h.pv) hFc hE
    exact parentsVisited_congr (by simp) (fun z hz => by simpa using hz) h1

/-- When `dfnlow(u)` returns, `LowFacts` holds for every vertex found during the call. -/
theorem dfnlowOrd_low {adj : Adj} {ord : List Nat} {n : Nat} (hord : ∀ v, v ∈ ord ↔ v < n)
    (fuel u : Nat) (s t : State) (hu : u < n) (hv : s.visited u = 0)
    (hP : ParentsVisited n s) (h : dfnlowOrd adj ord fuel u s = some t) :
    ∀ x, s.visited x = 0 → t.visited x ≠ 0 → LowFacts adj n t x := by
  have hord1 : ∀ v ∈ ord, v < n := fun v hv => (hord v).1 hv
  refine call_rule adj ord
    (fun u s => u < n ∧ s.visited u = 0 ∧ ParentsVisited n s)
    (fun _ s t => ∀ x, s.visited x = 0 → t.visited x ≠ 0 → LowFacts adj n t x)
    (fun u s0 pre _ s => FrameInv n u s0 s ∧ LowInv adj n u s0 pre s)
    ?_ ?_ ?_ ?_ ?_ ?_ fuel u s t ⟨hu, hv, hP⟩ h
  · intro u s hP
    exact ⟨frame_enter n u s hP.1 hP.2.1, low_enter adj n u s hP.2.1 hP.2.2 hP.1⟩
  · intro u s0 pre v rest c s _ _ hI ha
    exact ⟨hI.1, low_skip adj n u v s0 s pre hI.2 ha⟩
  · intro u s0 pre v rest c s _ hp hI _ hv
    exact ⟨hord1 v (by rw [← hp]; simp), hv,
      parentsVisited_setParent hI.1.frame.vis_u hI.2.pv⟩
  · intro u s0 pre v rest c s s1 _ hp hI ha hv hex hpost
    have hvn : v < n := hord1 v (by rw [← hp]; simp)
    obtain ⟨fuel1, hf⟩ := hex
    have hFc := dfnlowOrd_frame hord1 fuel1 v { s with parent := upd s.parent v u } s1 hvn hv hf
    have hEc := dfnlowOrd_explored hord fuel1 v { s with parent := upd s.parent v u } s1 hvn
      hv hf
    exact ⟨frame_child n u v (c + 1) s0 s s1 hI.1 hv hFc,
      low_child adj n u v (c + 1) s0 s s1 pre hvn hI.1 hI.2 ha hv hFc hEc hpost⟩
  · intro u s0 pre v rest c s _ hp hI ha hv
    exact ⟨frame_back n u v s0 s hI.1,
      low_back adj n u v s0 s pre (hord1 v (by rw [← hp]; simp)) hI.1 hI.2 ha hv⟩
  · intro u s0 c s _ hI x hx0 hx1
    by_cases hxu : x = u
    · subst hxu
      exact ⟨hx1, hI.1.low_le, fun w hw haw => hI.2.nbr w ((hord w).2 hw) haw, hI.2.kid,
        hI.2.att⟩
    · exact hI.2.fin x hx0 hx1 hxu

theorem TreeInv.parentsVisited {adj : Adj} {n : Nat} {s : State} (h : TreeInv adj n s) :
    ParentsVisited n s := by
  intro b hb
  rcases h.par b hb with h1 | ⟨p, _, h1, h2, _⟩
  · exact Or.inl h1
  · exact Or.inr ⟨p, h1, h2⟩

/-- After the second loop of `findarticulationpoints`, `LowFacts` holds for every vertex
below `n`. -/
theorem rootLoopOrd_low {adj : Adj} {ord : List Nat} {n : Nat} (hord : ∀ v, v ∈ ord ↔ v < n)
    (s t : State) (hs : IsReset n s) (h : rootLoopOrd adj ord n s = some t) :
    ∀ x, x < n → LowFacts adj n t x := by
  have hord1 : ∀ v ∈ ord, v < n := fun v hv => (hord v).1 hv
  have key := rootLoop_rule adj ord n
    (fun k a => TreeInv adj n a ∧ (∀ x, x < n → a.visited x ≠ 0 → LowFacts adj n a x) ∧
      ∀ j, j < k → a.visited j ≠ 0)
    ?_ ?_ s t ⟨treeInv_init adj n s hs, fun x hx hv => absurd (hs x hx).2.2 hv,
      fun j hj => by omega⟩ h
  · intro x hx
    exact key.2.1 x hx (key.2.2 x hx)
  · intro k a hk hJ hv
    refine ⟨hJ.1, hJ.2.1, ?_⟩
    intro j hj
    by_cases hjk : j = k
    · subst hjk; exact hv
    · exact hJ.2.2 j (by omega)
  · intro k a b hk hJ hv hcall
    obtain ⟨hT, hL, hvis⟩ := hJ
    have hF := dfnlowOrd_frame hord1 n k a b hk hv hcall
    have hE := dfnlowOrd_explored hord n k a b hk hv hcall
    have hnew := dfnlowOrd_low hord n k a b hk hv hT.parentsVisited hcall
    refine ⟨treeInv_call hord k a b hk hT hv hcall, ?_, ?_⟩
    · intro x hx hxb
      by_cases hxa : a.visited x = 0
      · exact hnew x hxa hxb
      · refine (hL x hx hxa).persist (fun z hz => hF.vis_mono z hz)
          (fun z hz => hF.dfn_old z (Or.inl hz)) (fun z hz => hF.par_old z (Or.inl hz))
          (hF.low_old x (Or.inl hxa)) ?_
        intro c hc hpc
        by_cases hold : a.visited c ≠ 0 ∨ b.visited c = 0
        · rw [hF.par_old c (hold.elim Or.inl (fun h => Or.inr (Or.inl h)))] at hpc
          exact ⟨hpc, hF.low_old c hold⟩
        · exfalso
          push_neg at hold
          by_cases hck : c = k
          · rw [hF.par_old c (Or.inr (Or.inr hck)), (hT.unvis c hc hold.1).1] at hpc
            omega
          · obtain ⟨p, h1, h2, _, _⟩ := hE.par_new c hold.1 hold.2 hck
            rw [h1] at hpc
            have : p = x := Int.ofNat_inj.1 hpc
            exact hxa (this ▸ h2)
    · intro j hj
      by_cases hjk : j = k
      · subst hjk; exact hF.vis_u
      · exact hF.vis_mono j (hvis j (by omega))

theorem low_le_of_desc {adj : Adj} {n : Nat} {t : State}
    (hL : ∀ x, x < n → LowFacts adj n t x) {u x : Nat} (hu : u < n) (h : Desc n t u x) :
    x < n ∧ t.low u ≤ t.low x := by
  induction h with
  | refl => exact ⟨hu, le_refl _⟩
  | @tail a b _ hab ih =>
    exact ⟨hab.1, le_trans ih.2 ((hL a ih.1).kid b hab.1 hab.2)⟩

/-! ## The 32-bit counter -/

theorem wrapInt_eq {x : Int} (h0 : -2147483648 ≤ x) (h1 : x ≤ INT_MAX) : wrapInt x = x := by
  unfold INT_MAX at h1
  unfold wrapInt
  omega

theorem enterWrap_eq (u : Nat) (s : State) (h0 : 0 ≤ s.time) (h1 : s.time + 1 ≤ INT_MAX) :
    enterWrap u s = enter u s := by
  unfold enterWrap enter
  rw [wrapInt_eq (by omega) h1]

/-- A call of `dfnlow` increments `time` once for every vertex it visits. -/
theorem dfnlowOrd_time {adj : Adj} {ord : List Nat} {n : Nat} (hord : ∀ v ∈ ord, v < n)
    (B : Int) (fuel u : Nat) (s t : State) (hu : u < n) (hv : s.visited u = 0)
    (hB : s.time + (unvisitedCount n s : Int) = B)
    (h : dfnlowOrd adj ord fuel u s = some t) : t.time + (unvisitedCount n t : Int) = B := by
  refine call_rule adj ord
    (fun u s => u < n ∧ s.visited u = 0 ∧ s.time + (unvisitedCount n s : Int) = B)
    (fun _ _ t => t.time + (unvisitedCount n t : Int) = B)
    (fun _ _ _ _ s => s.time + (unvisitedCount n s : Int) = B)
    ?_ ?_ ?_ ?_ ?_ ?_ fuel u s t ⟨hu, hv, hB⟩ h
  · intro u s hP
    have h1 := unvisitedCount_enter hP.1 hP.2.1
    have h2 : (enter u s).time = s.time + 1 := rfl
    have h3 := hP.2.2
    rw [h2]; omega
  · intro u s0 pre v rest c s _ _ hI _
    exact hI
  · intro u s0 pre v rest c s _ hp hI _ hv
    exact ⟨hord v (by rw [← hp]; simp), hv, hI⟩
  · intro u s0 pre v rest c s s1 _ _ _ _ _ _ hpost
    have h1 : unvisitedCount n (backEdge u v (afterChild u v (c + 1) s1))
        = unvisitedCount n s1 := by simp [unvisitedCount]
    have h2 : (backEdge u v (afterChild u v (c + 1) s1)).time = s1.time := by simp
    rw [h1, h2]; exact hpost
  · intro u s0 pre v rest c s _ _ hI _ _
    have h1 : unvisitedCount n (backEdge u v s) = unvisitedCount n s := by
      simp [unvisitedCount]
    have h2 : (backEdge u v s).time = s.time := by simp
    rw [h1, h2]; exact hI
  · intro u s0 c s _ hI
    exact hI

theorem loopWrap_eq (adj : Adj) (V : Int) (fuel u : Nat)
    (ih : ∀ (v : Nat) (s : State), v < V.toNat → s.visited v = 0 → 0 ≤ s.time →
      s.time + (unvisitedCount V.toNat s : Int) ≤ INT_MAX →
      dfnlowWrap adj V fuel v s = dfnlow adj V fuel v s) :
    ∀ (l : List Nat) (c : Int) (s : State), (∀ v ∈ l, v < V.toNat) → 0 ≤ s.time →
      s.time + (unvisitedCount V.toNat s : Int) ≤ INT_MAX →
      l.foldlM (dfnlowBody (dfnlowWrap adj V fuel) adj u) (c, s)
        = l.foldlM (dfnlowBody (dfnlow adj V fuel) adj u) (c, s) := by
  intro l
  induction l with
  | nil => intro c s _ _ _; rfl
  | cons v rest ihl =>
    intro c s hl h0 h1
    have hvn : v < V.toNat := hl v (by simp)
    have hrest : ∀ w ∈ rest, w < V.toNat := fun w hw => hl w (by simp [hw])
    rw [List.foldlM_cons, List.foldlM_cons]
    by_cases ha : adj u v = 0
    · have hb : ∀ call, dfnlowBody call adj u (c, s) v = some (c, s) := by
        intro call; simp [dfnlowBody, ha]
      rw [hb, hb]
      exact ihl c s hrest h0 h1
    · by_cases hv : s.visited v = 0
      · have hcall := ih v { s with parent := upd s.parent v u } hvn hv h0 h1
        have hb : dfnlowBody (dfnlowWrap adj V fuel) adj u (c, s) v
            = dfnlowBody (dfnlow adj V fuel) adj u (c, s) v := by
          simp only [dfnlowBody, hcall]
        rw [hb]
        cases hc : dfnlow adj V fuel v { s with parent := upd s.parent v u } with
        | none =>
          have hn : dfnlowBody (dfnlow adj V fuel) adj u (c, s) v = none := by
            simp [dfnlowBody, ha, hv, hc]
          rw [hn]; rfl
        | some s1 =>
          have hsome : dfnlowBody (dfnlow adj V fuel) adj u (c, s) v
              = some (c + 1, backEdge u v (afterChild u v (c + 1) s1)) := by
            simp [dfnlowBody, ha, hv, hc]
          rw [hsome]
          have hc' := hc
          rw [dfnlow_eq_ord] at hc'
          have hord : ∀ w ∈ List.range V.toNat, w < V.toNat := fun w hw => List.mem_range.1 hw
          have hF := dfnlowOrd_frame hord fuel v { s with parent := upd s.parent v u } s1 hvn hv hc'
          have hT := dfnlowOrd_time hord (s.time + (unvisitedCount V.toNat s : Int)) fuel v
            { s with parent := upd s.parent v u } s1 hvn hv rfl hc'
          have e1 : unvisitedCount V.toNat (backEdge u v (afterChild u v (c + 1) s1))
              = unvisitedCount V.toNat s1 := by simp [unvisitedCount]
          have e2 : (backEdge u v (afterChild u v (c + 1) s1)).time = s1.time := by simp
          have hlt := hF.time_lt
          simp only at hlt
          exact ihl _ _ hrest (by rw [e2]; omega) (by rw [e1, e2]; omega)
      · have hb : ∀ call, dfnlowBody call adj u (c, s) v = some (c, backEdge u v s) := by
          intro call; simp [dfnlowBody, ha, hv]
        rw [hb, hb]
        have e1 : unvisitedCount V.toNat (backEdge u v s) = unvisitedCount V.toNat s := by
          simp [unvisitedCount]
        have e2 : (backEdge u v s).time = s.time := by simp
        exact ihl _ _ hrest (by rw [e2]; exact h0) (by rw [e1, e2]; exact h1)

/-- With `time` between `0` and `INT_MAX` minus the number of unvisited vertices at
entry, a call of `dfnlow` is the same with the 32-bit counter. -/
theorem dfnlowWrap_eq (adj : Adj) (V : Int) :
    ∀ (fuel u : Nat) (s : State), u < V.toNat → s.visited u = 0 → 0 ≤ s.time →
      s.time + (unvisitedCount V.toNat s : Int) ≤ INT_MAX →
      dfnlowWrap adj V fuel u s = dfnlow adj V fuel u s := by
  intro fuel
  induction fuel with
  | zero => intro u s _ _ _ _; rfl
  | succ fuel ih =>
    intro u s hu hv h0 h1
    have hc := unvisitedCount_enter hu hv
    have hpos : 0 < unvisitedCount V.toNat s := by omega
    simp only [dfnlowWrap, dfnlow]
    rw [enterWrap_eq u s h0 (by omega)]
    have ht : (enter u s).time = s.time + 1 := rfl
    rw [loopWrap_eq adj V fuel u ih (List.range V.toNat) 0 (enter u s)
      (fun w hw => List.mem_range.1 hw) (by rw [ht]; omega) (by rw [ht]; omega)]

theorem rootLoopWrap_aux (adj : Adj) (V : Int) (s : State) (h0 : 0 ≤ s.time)
    (h1 : s.time + (unvisitedCount V.toNat s : Int) ≤ INT_MAX) :
    ∀ m, m ≤ V.toNat →
      (List.range m).foldlM
          (fun s i => if s.visited i = 0 then dfnlowWrap adj V V.toNat i s else some s) s
        = (List.range m).foldlM
          (fun s i => if s.visited i = 0 then dfnlow adj V V.toNat i s else some s) s ∧
      ∀ a, (List.range m).foldlM
          (fun s i => if s.visited i = 0 then dfnlow adj V V.toNat i s else some s) s = some a →
        0 ≤ a.time ∧ a.time + (unvisitedCount V.toNat a : Int) ≤ INT_MAX := by
  intro m
  induction m with
  | zero =>
    intro _
    refine ⟨rfl, ?_⟩
    intro a ha
    simp at ha
    subst ha
    exact ⟨h0, h1⟩
  | succ m ih =>
    intro hm
    obtain ⟨e, hb⟩ := ih (by omega)
    have hmn : m < V.toNat := by omega
    rw [List.range_succ, List.foldlM_append, List.foldlM_append, e]
    cases hr : (List.range m).foldlM
        (fun s i => if s.visited i = 0 then dfnlow adj V V.toNat i s else some s) s with
    | none => exact ⟨rfl, fun a ha => by simp at ha⟩
    | some r =>
      obtain ⟨b0, b1⟩ := hb r hr
      by_cases hv : r.visited m = 0
      · have hw := dfnlowWrap_eq adj V V.toNat m r hmn hv b0 b1
        refine ⟨by simp [hv, hw], ?_⟩
        intro a ha
        simp [hv] at ha
        have ha' := ha
        rw [dfnlow_eq_ord] at ha'
        have hord : ∀ w ∈ List.range V.toNat, w < V.toNat := fun w hw => List.mem_range.1 hw
        have hF := dfnlowOrd_frame hord V.toNat m r a hmn hv ha'
        have hT := dfnlowOrd_time hord (r.time + (unvisitedCount V.toNat r : Int)) V.toNat m
          r a hmn hv rfl ha'
        have hlt := hF.time_lt
        exact ⟨by omega, by omega⟩
      · refine ⟨by simp [hv], ?_⟩
        intro a ha
        simp [hv] at ha
        subst ha
        exact ⟨b0, b1⟩

/-- With `0 ≤ time` and `time + V ≤ INT_MAX` at entry, `findarticulationpoints` with the
32-bit counter is `findarticulationpoints`: no `++time` leaves the range of `int`. -/
theorem findarticulationpointsWrap_eq (adj : Adj) (V : Nat) (s : State) (h0 : 0 ≤ s.time)
    (h1 : s.time + V ≤ INT_MAX) :
    findarticulationpointsWrap adj V s = findarticulationpoints adj V s := by
  have ht := (resetLoop_frame V s).2.2
  have hc := unvisitedCount_le (V : Int).toNat (resetLoop V s)
  rw [toNat_cast] at hc
  have e := (rootLoopWrap_aux adj V (resetLoop V s) (by rw [ht]; exact h0)
    (by rw [ht, toNat_cast]; omega) (V : Int).toNat (le_refl _)).1
  unfold findarticulationpointsWrap findarticulationpoints rootLoopWrap rootLoop
  rw [e]

/-- A call of `dfnlow` keeps `low ≤ dfn` below any bound `m`. -/
theorem dfnlowOrd_lowLeDfn (adj : Adj) (ord : List Nat) (m : Nat) (fuel u : Nat) (s t : State)
    (hI : LowLeDfn m s) (h : dfnlowOrd adj ord fuel u s = some t) : LowLeDfn m t := by
  refine call_rule adj ord
    (fun _ s => LowLeDfn m s)
    (fun _ _ t => LowLeDfn m t)
    (fun _ _ _ _ s => LowLeDfn m s)
    ?_ ?_ ?_ ?_ ?_ ?_ fuel u s t hI h
  · intro u s hP
    exact lowLeDfn_enter u hP
  · intro u s0 pre v rest c s _ _ hI _
    exact hI
  · intro u s0 pre v rest c s _ _ hI _ _
    exact lowLeDfn_congr (s := s) rfl rfl hI
  · intro u s0 pre v rest c s s1 _ _ _ _ _ _ hpost
    exact lowLeDfn_backEdge u v
      (lowLeDfn_congr (by simp [lowChild]) (by simp [lowChild]) (lowLeDfn_lowChild u v hpost))
  · intro u s0 pre v rest c s _ _ hI _ _
    exact lowLeDfn_backEdge u v hI
  · intro u s0 c s _ hI
    exact hI

/-- What a run of `findarticulationpoints` leaves for the next one: `time` has grown by
exactly `V`, and `low ≤ dfn` holds wherever it held at entry. -/
theorem findarticulationpoints_next (adj : Adj) (V m : Nat) (s t : State) (out : String)
    (h : findarticulationpoints adj V s = some (t, out)) :
    t.time = s.time + V ∧ (LowLeDfn m s → LowLeDfn m t) := by
  obtain ⟨t', hr, e⟩ := findarticulationpoints_total adj V s
  rw [h] at e
  simp only [Option.some.injEq, Prod.mk.injEq] at e
  obtain ⟨rfl, _⟩ := e
  rw [toNat_cast] at hr
  have hord : ∀ v ∈ List.range V, v < V := fun v hv => List.mem_range.1 hv
  have hvis := (findarticulationpoints_dfn adj V s t hr).1
  have hf := resetLoop_frame V s
  have hreset := resetLoop_isReset V s
  rw [toNat_cast] at hreset
  have key := rootLoop_rule adj (List.range V) V
    (fun _ a => a.time + (unvisitedCount V a : Int) = s.time + V ∧
      (LowLeDfn m s → LowLeDfn m a))
    ?_ ?_ (resetLoop V s) t ?_ hr
  · have hcnt : unvisitedCount V t = 0 := by
      unfold unvisitedCount
      rw [Finset.card_eq_zero, Finset.filter_eq_empty_iff]
      intro x hx
      exact hvis x (Finset.mem_range.1 hx)
    refine ⟨?_, key.2⟩
    have := key.1
    rw [hcnt] at this
    simpa using this
  · intro k a _ hJ _
    exact hJ
  · intro k a b hk hJ hv hc
    exact ⟨dfnlowOrd_time hord _ V k a b hk hv hJ.1 hc,
      fun hl => dfnlowOrd_lowLeDfn adj _ m V k a b (hJ.2 hl) hc⟩
  · refine ⟨?_, fun hl => lowLeDfn_congr hf.2.1 hf.1 hl⟩
    have hcnt : unvisitedCount V (resetLoop V s) = V := by
      unfold unvisitedCount
      rw [Finset.filter_true_of_mem, Finset.card_range]
      intro x hx
      exact (hreset x (Finset.mem_range.1 hx)).2.2
    rw [hcnt, hf.2.2]

/-! ## The claims -/

/-- C1 (violated by the code): on the path `0 - 1 - 2`, started from the initial globals,
`findarticulationpoints` leaves `articulation[1] = 0` although vertex `1` is a cut vertex:
the graph has one connected component and two after vertex `1` is removed. -/
theorem C1_cut_vertex_not_marked :
    (findarticulationpoints (pathAdj 3) 3 initState).map (fun r => r.1.articulation 1) = some 0 ∧
      IsCutVertex (pathAdj 3) 3 1 :=
  ⟨by decide, path3_cut_vertex⟩

/-- C2 (violated by the code): on the path `0 - 1 - 2 - 3` with `V = 4`, started from the
initial globals, `findarticulationpoints` marks no vertex and prints only the header,
where the claim expects the marked set `{1, 2}`. -/
theorem C2_path_marks_nothing :
    (findarticulationpoints (pathAdj 4) 4 initState).map (fun r => (marked 4 r.1, r.2))
      = some ([], "articulation points are:") := by
  decide

/-- C3 (violated by the code): on the star with `V = 4` and centre `1`, started from the
initial globals, `findarticulationpoints` marks no vertex, where the claim expects the
marked set `{1}`; with centre `0` the centre is marked. -/
theorem C3_star_centre_not_marked :
    (findarticulationpoints (starAdj 4 1) 4 initState).map (fun r => marked 4 r.1) = some [] ∧
      (findarticulationpoints (starAdj 4 0) 4 initState).map (fun r => marked 4 r.1)
        = some [0] := by
  decide

/-- C4 (violated by the code): on the two triangles `{0, 1, 2}` and `{2, 3, 4}` with
`V = 5`, started from the initial globals, `findarticulationpoints` marks no vertex, where
the claim expects the shared vertex `2`; when the shared vertex is `0` it is marked. -/
theorem C4_shared_vertex_not_marked :
    (findarticulationpoints (twoTrianglesAdj 0 1 2 3 4) 5 initState).map
        (fun r => marked 5 r.1) = some [] ∧
      (findarticulationpoints (twoTrianglesAdj 1 2 0 3 4) 5 initState).map
        (fun r => marked 5 r.1) = some [0] := by
  decide

/-- C5: for `3 ≤ V ≤ 100` and globals at entry with `0 ≤ time` and `time + V ≤ INT_MAX`
(no `++time` overflows; so it is in the initial globals), `findarticulationpoints` on the
ring `i - (i+1) mod V` returns, marks no vertex and prints only the header. -/
theorem C5_ring_unmarked (V : Nat) (_h3 : 3 ≤ V) (_hV : V ≤ max) (s : State)
    (_h0 : 0 ≤ s.time) (_hT : s.time + V ≤ INT_MAX) :
    ∃ t, findarticulationpoints (ringAdj V) V s = some (t, "articulation points are:") ∧
      marked V t = [] :=
  ring_unmarked_aux V s

/-- Witness of C5 on the ring with five vertices. -/
theorem C5_ring_unmarked_witness :
    3 ≤ 5 ∧ 5 ≤ max ∧ 0 ≤ initState.time ∧ initState.time + (5 : Nat) ≤ INT_MAX ∧
      ∃ t, findarticulationpoints (ringAdj 5) (5 : Nat) initState
          = some (t, "articulation points are:") ∧ marked 5 t = [] :=
  ⟨by decide, by decide, by decide, by decide,
    C5_ring_unmarked 5 (by decide) (by decide) initState (by decide) (by decide)⟩

/-- C6: for every matrix, every `V ≤ 2` (negative values included) and any globals at
entry, `findarticulationpoints` returns, prints only the header and leaves
`articulation[i] = 0` for every `i < V`; the single-edge graph is the case `V = 2`. -/
theorem C6_small_graph_unmarked (adj : Adj) (V : Int) (hV : V ≤ 2) (s : State) :
    ∃ t, findarticulationpoints adj V s = some (t, "articulation points are:") ∧
      ∀ i : Nat, (i : Int) < V → t.articulation i = 0 :=
  small_unmarked_aux adj V hV s

/-- Witness of C6 on the single-edge graph. -/
theorem C6_small_graph_unmarked_witness :
    (2 : Int) ≤ 2 ∧
      ∃ t, findarticulationpoints (edgesAdj [(0, 1)]) 2 initState
          = some (t, "articulation points are:") ∧
        ∀ i : Nat, (i : Int) < 2 → t.articulation i = 0 :=
  ⟨by decide, C6_small_graph_unmarked (edgesAdj [(0, 1)]) 2 (by decide) initState⟩

/-- C7: for every matrix, every `V ≤ 100` and globals `s0` at entry with `0 ≤ time` and
`time + 2 * V ≤ INT_MAX` (the first call ends with `time` grown by `V`, so no `++time` of
the two calls overflows; so it is in the initial globals), the call `findarticulationpoints(adj, V)` returns, and a second call started
from the globals left by the first one returns too, marks the same vertices and prints
the same text. -/
theorem C7_second_call_same_marks (adj : Adj) (V : Nat) (_hV : V ≤ max) (s0 : State)
    (_h0 : 0 ≤ s0.time) (_hT : s0.time + 2 * V ≤ INT_MAX) :
    ∃ t1 t2 out, findarticulationpoints adj V s0 = some (t1, out) ∧
      findarticulationpoints adj V t1 = some (t2, out) ∧ marked V t2 = marked V t1 := by
  obtain ⟨t1, _, e1⟩ := findarticulationpoints_total adj V s0
  obtain ⟨a, b, out, ha, hb, hm⟩ := findarticulationpoints_agree adj V s0 t1
  rw [e1] at ha
  simp only [Option.some.injEq, Prod.mk.injEq] at ha
  obtain ⟨rfl, rfl⟩ := ha
  rw [toNat_cast] at hm
  exact ⟨t1, b, _, e1, hb, hm.symm⟩

/-- Witness of C7 on the star with centre `0` and four vertices. -/
theorem C7_second_call_same_marks_witness :
    4 ≤ max ∧ 0 ≤ initState.time ∧ initState.time + 2 * (4 : Nat) ≤ INT_MAX ∧
      ∃ t1 t2 out, findarticulationpoints (starAdj 4 0) (4 : Nat) initState = some (t1, out) ∧
        findarticulationpoints (starAdj 4 0) (4 : Nat) t1 = some (t2, out) ∧
        marked 4 t2 = marked 4 t1 :=
  ⟨by decide, by decide, by decide,
    C7_second_call_same_marks (starAdj 4 0) 4 (by decide) initState (by decide) (by decide)⟩

/-- C8: for every `V ≤ 100` and all edge inputs, the call made by `main`, on the all-zero
matrix from the initial globals, marks no vertex, and `main` writes the three prompts
followed by the header only, so its output does not depend on the edge inputs. -/
theorem C8_main_ignores_edges (V : Int) (_hV : V ≤ 100) (E E' : Int)
    (pairs pairs' : List (Int × Int)) :
    (∃ t, findarticulationpoints zeroAdj V initState = some (t, "articulation points are:") ∧
      ∀ i : Nat, (i : Int) < V → t.articulation i = 0) ∧
    main V E pairs = some (0, "enter the vertices" ++ "enter the edges" ++
      "enter the u and v connections" ++ "articulation points are:") ∧
    main V E pairs = main V E' pairs' :=
  ⟨zero_unmarked_aux V initState, main_eq_aux V E pairs,
    (main_eq_aux V E pairs).trans (main_eq_aux V E' pairs').symm⟩

/-- Witness of C8 for three vertices and the edges of the path `0 - 1 - 2`. -/
theorem C8_main_ignores_edges_witness :
    (3 : Int) ≤ 100 ∧
      (∃ t, findarticulationpoints zeroAdj 3 initState
          = some (t, "articulation points are:") ∧
        ∀ i : Nat, (i : Int) < 3 → t.articulation i = 0) ∧
      main 3 2 [(0, 1), (1, 2)] = some (0, "enter the vertices" ++ "enter the edges" ++
        "enter the u and v connections" ++ "articulation points are:") ∧
      main 3 2 [(0, 1), (1, 2)] = main 3 0 [] :=
  ⟨by decide, C8_main_ignores_edges 3 (by decide) 2 0 [(0, 1), (1, 2)] []⟩

/-- C9: for every matrix, every `V ≤ 100` and any globals at entry,
`findarticulationpoints` returns and the text it prints is the header
`articulation points are:` followed by `router <i>`, in ascending order of `i`, for
exactly the `i < V` whose `articulation[i]` is nonzero in the final globals. -/
theorem C9_printed_text (adj : Adj) (V : Nat) (_hV : V ≤ max) (s : State) :
    ∃ t, findarticulationpoints adj V s = some (t, "articulation points are:" ++
      String.join (((List.range V).filter (fun i => t.articulation i ≠ 0)).map
        (fun i => "router " ++ toString i))) := by
  obtain ⟨t, _, e⟩ := findarticulationpoints_total adj V s
  refine ⟨t, ?_⟩
  rw [e, printLoop_eq, toNat_cast]
  rfl

/-- Witness of C9 on the star with centre `0` and four vertices. -/
theorem C9_printed_text_witness :
    4 ≤ max ∧
      ∃ t, findarticulationpoints (starAdj 4 0) (4 : Nat) initState
        = some (t, "articulation points are:" ++
          String.join (((List.range 4).filter (fun i => t.articulation i ≠ 0)).map
            (fun i => "router " ++ toString i))) :=
  ⟨by decide, C9_printed_text (starAdj 4 0) 4 (by decide) initState⟩

/-- C10: for `V ≤ 100`, a symmetric matrix, a permutation `σ` of `0..V-1` and globals at
entry with `0 ≤ time` and `time + V ≤ INT_MAX` (no `++time` overflows; so it is in the
initial globals), `findarticulationpoints` and its variant that scans the neighbours in
the order `σ 0, ..., σ (V-1)` both return, mark the same vertices and print the same
text. -/
theorem C10_neighbour_order_irrelevant (V : Nat) (_hV : V ≤ max) (adj : Adj)
    (hsym : ∀ i j, i < V → j < V → adj i j = adj j i) (σ : Nat → Nat)
    (hσ : ((List.range V).map σ).Perm (List.range V)) (s : State)
    (_h0 : 0 ≤ s.time) (_hT : s.time + V ≤ INT_MAX) :
    ∃ t1 t2 out, findarticulationpoints adj V s = some (t1, out) ∧
      findarticulationpointsOrd adj σ V s = some (t2, out) ∧ marked V t1 = marked V t2 :=
  order_irrelevant_aux V adj hsym σ hσ s

/-- Witness of C10 on the star with centre `0` and the reversed neighbour order. -/
theorem C10_neighbour_order_irrelevant_witness :
    4 ≤ max ∧ ((List.range 4).map (fun i => 3 - i)).Perm (List.range 4) ∧
      0 ≤ initState.time ∧ initState.time + (4 : Nat) ≤ INT_MAX ∧
      ∃ t1 t2 out, findarticulationpoints (starAdj 4 0) (4 : Nat) initState = some (t1, out) ∧
        findarticulationpointsOrd (starAdj 4 0) (fun i => 3 - i) (4 : Nat) initState
          = some (t2, out) ∧
        marked 4 t1 = marked 4 t2 :=
  ⟨by decide, by decide, by decide, by decide,
    C10_neighbour_order_irrelevant 4 (by decide) (starAdj 4 0)
      (by unfold starAdj; intro i j hi hj; apply if_congr _ rfl rfl; constructor <;>
          rintro ⟨h1, h2, h3, h4⟩ <;> exact ⟨h2, h1, Ne.symm h3, Or.symm h4⟩)
      (fun i => 3 - i) (by decide) initState (by decide) (by decide)⟩

theorem unvisitedCount_pos {n u : Nat} {s : State} (hu : u < n) (hv : s.visited u = 0) :
    0 < unvisitedCount n s := by
  unfold unvisitedCount
  exact Finset.card_pos.mpr ⟨u, by simp [hu, hv]⟩

theorem lowDfn_fails_aux :
    (findarticulationpointsLog zeroAdj 1 initState).map
      (fun (r : State × String × List Event) => decide (∀ a ∈ statesOf r.2.2, LowDfnInv 1 a))
      = some false := by
  decide

/-- C11 (as stated, violated by the code): for `V = 1`, the all-zero matrix and the initial
globals, the globals between `visited[0]=-1;` and `low[0]=dfn[0]=++time;` of the call
`dfnlow(0)` have `visited[0] != 0` and `low[0] = 0`, so not every logged point satisfies
`1 <= low[u] <= dfn[u]` for every visited `u < V`. -/
theorem C11_counterexample :
    ∃ r, findarticulationpointsLog zeroAdj 1 initState = some r ∧
      ¬ ∀ a ∈ statesOf r.2.2, LowDfnInv 1 a := by
  have h := lowDfn_fails_aux
  cases hr : findarticulationpointsLog zeroAdj 1 initState with
  | none => rw [hr] at h; simp at h
  | some r =>
    rw [hr] at h
    refine ⟨r, rfl, ?_⟩
    simpa using h

/-- C11 (amended): for every matrix, `V ≤ 100` and globals at entry with `0 ≤ time`,
`time + V ≤ INT_MAX` (no `++time` overflows) and `low[x] ≤ dfn[x]` for every `x < V` (so it
is in the initial globals, and every run keeps it, `findarticulationpoints_next`), the
observed run of `findarticulationpoints` returns, and at every point of the traversal,
from the end of the first loop on, and at the end, every vertex `x < V` with
`visited[x] != 0` has
`1 ≤ low[x] ≤ dfn[x]`; the one exception is the bound `1 ≤ low[u]` for the vertex `u`
itself at the point between `visited[u]=-1;` and `low[u]=dfn[u]=++time;` of a call
`dfnlow(u)`, where `low[u] ≤ dfn[u]` still holds (`PointOK`). -/
theorem C11_low_le_dfn (adj : Adj) (V : Nat) (_hV : V ≤ max) (s : State)
    (h0 : 0 ≤ s.time) (_hT : s.time + V ≤ INT_MAX)
    (hle : ∀ x, x < V → s.low x ≤ s.dfn x) :
    ∃ t out L, findarticulationpointsLog adj V s = some (t, out, L) ∧
      (∀ e ∈ L, PointOK V e) ∧ LowDfnInv V t := by
  obtain ⟨t, L, h1, _, _, _, _, h6⟩ := findarticulationpointsLog_facts adj V s
  rw [toNat_cast] at h6
  exact ⟨t, _, L, h1, (h6 h0 hle).1, (h6 h0 hle).2⟩

/-- Witness of C11 (amended) on the ring with four vertices. -/
theorem C11_low_le_dfn_witness :
    4 ≤ max ∧ 0 ≤ initState.time ∧ initState.time + (4 : Nat) ≤ INT_MAX ∧
      (∀ x, x < 4 → initState.low x ≤ initState.dfn x) ∧
      ∃ t out L, findarticulationpointsLog (ringAdj 4) (4 : Nat) initState = some (t, out, L) ∧
        (∀ e ∈ L, PointOK 4 e) ∧ LowDfnInv 4 t :=
  ⟨by decide, by decide, by decide, by decide,
    C11_low_le_dfn (ringAdj 4) 4 (by decide) initState (by decide) (by decide) (by decide)⟩

/-- C16: for every matrix, `V ≤ 100` and any globals at entry, `findarticulationpoints`
returns; in its observed run every call of `dfnlow` (from the second loop or recursive)
is on a vertex `u < V` that is unvisited at the call and visited afterwards, no vertex is
entered twice, and the recursion depth of every call is between `1` and `V`. -/
theorem C16_terminates_depth_bounded (adj : Adj) (V : Nat) (_hV : V ≤ max) (s : State) :
    ∃ t out L, findarticulationpointsLog adj V s = some (t, out, L) ∧
      findarticulationpoints adj V s = some (t, out) ∧
      (callsOf L).Nodup ∧
      ∀ u d a, Event.call u d a ∈ L →
        u < V ∧ a.visited u = 0 ∧ t.visited u ≠ 0 ∧ 1 ≤ d ∧ d ≤ V := by
  obtain ⟨t, L, h1, h2, h3, h4, h5, _⟩ := findarticulationpointsLog_facts adj V s
  rw [toNat_cast] at h3
  refine ⟨t, _, L, h1, h2, h4, ?_⟩
  intro u d a he
  obtain ⟨a1, a2, a3, a4⟩ := h3 _ he
  have := unvisitedCount_pos a1 a2
  exact ⟨a1, a2, h5 u (mem_callsOf he), a3, by omega⟩

/-- Witness of C16 on the path `0 - 1 - 2`. -/
theorem C16_terminates_depth_bounded_witness :
    3 ≤ max ∧
      ∃ t out L, findarticulationpointsLog (pathAdj 3) (3 : Nat) initState = some (t, out, L) ∧
        findarticulationpoints (pathAdj 3) (3 : Nat) initState = some (t, out) ∧
        (callsOf L).Nodup ∧
        ∀ u d a, Event.call u d a ∈ L →
          u < 3 ∧ a.visited u = 0 ∧ t.visited u ≠ 0 ∧ 1 ≤ d ∧ d ≤ 3 :=
  ⟨by decide, C16_terminates_depth_bounded (pathAdj 3) 3 (by decide) initState⟩

/-- C17: for every matrix, every `V ≤ 100` (values `V ≤ 0` included) and any globals at
entry, every subscript `k` used by `findarticulationpoints` and `dfnlow` in an access to
`parent`, `low`, `dfn`, `articulation`, `visited` or `adj` satisfies `0 ≤ k < V`, hence
`k ≤ 99`, and `dfnlow` is only called with `0 ≤ u < V`. The subscripts are the loop
counters and call arguments of the source; no value read from `parent` is among them. -/
theorem C17_subscripts_in_range (adj : Adj) (V : Int) (hV : V ≤ 100) (s : State) :
    ∃ t out L, findarticulationpointsLog adj V s = some (t, out, L) ∧
      (∀ k, Event.index k ∈ L → 0 ≤ (k : Int) ∧ (k : Int) < V ∧ k ≤ 99) ∧
      (∀ u d a, Event.call u d a ∈ L → 0 ≤ (u : Int) ∧ (u : Int) < V) := by
  obtain ⟨t, L, h1, _, h3, _, _, _⟩ := findarticulationpointsLog_facts adj V s
  refine ⟨t, _, L, h1, ?_, ?_⟩
  · intro k he
    have hk : k < V.toNat := h3 _ he
    omega
  · intro u d a he
    have hu : u < V.toNat := (h3 _ he).1
    omega

/-- Witness of C17 on the star with centre `0` and four vertices. -/
theorem C17_subscripts_in_range_witness :
    (4 : Int) ≤ 100 ∧
      ∃ t out L, findarticulationpointsLog (starAdj 4 0) 4 initState = some (t, out, L) ∧
        (∀ k, Event.index k ∈ L → 0 ≤ (k : Int) ∧ (k : Int) < 4 ∧ k ≤ 99) ∧
        (∀ u d a, Event.call u d a ∈ L → 0 ≤ (u : Int) ∧ (u : Int) < 4) :=
  ⟨by decide, C17_subscripts_in_range (starAdj 4 0) 4 (by decide) initState⟩

/-- C18: for every matrix, `V ≤ 100` and globals at entry with `0 ≤ time` and
`time + V ≤ INT_MAX` (no `++time` overflows; so it is in the initial globals), after
`findarticulationpoints` every `u < V` with `articulation[u]` nonzero has
`parent[u] = -1`; and at every evaluation of the non-root test in the observed run,
`low[u] ≤ dfn[u] < dfn[v]` for the child `v` just explored, so `low[u] >= dfn[v]` is
false. -/
theorem C18_children_never_marked (adj : Adj) (V : Nat) (_hV : V ≤ max) (s : State)
    (_h0 : 0 ≤ s.time) (_hT : s.time + V ≤ INT_MAX) :
    ∃ t out L, findarticulationpointsLog adj V s = some (t, out, L) ∧
      findarticulationpoints adj V s = some (t, out) ∧
      (∀ u, u < V → t.articulation u ≠ 0 → t.parent u = -1) ∧
      (∀ u v a, Event.test u v a ∈ L →
        a.low u ≤ a.dfn u ∧ a.dfn u < a.dfn v ∧ ¬ a.low u ≥ a.dfn v) := by
  obtain ⟨t, L, h1, h2, h3, _, _, _⟩ := findarticulationpointsLog_facts adj V s
  obtain ⟨t', hr, h2'⟩ := findarticulationpoints_total adj V s
  rw [h2] at h2'
  simp only [Option.some.injEq, Prod.mk.injEq] at h2'
  obtain ⟨rfl, _⟩ := h2'
  refine ⟨t, _, L, h1, h2, ?_, ?_⟩
  · intro u hu hm
    exact (findarticulationpoints_marked adj V s t hr u (by rw [toNat_cast]; exact hu) hm).1
  · intro u v a he
    have hle : a.low u ≤ a.dfn u ∧ a.dfn u < a.dfn v := h3 _ he
    exact ⟨hle.1, hle.2, by omega⟩

/-- Witness of C18 on the two triangles `{0, 1, 2}` and `{2, 3, 4}`. -/
theorem C18_children_never_marked_witness :
    5 ≤ max ∧ 0 ≤ initState.time ∧ initState.time + (5 : Nat) ≤ INT_MAX ∧
      ∃ t out L, findarticulationpointsLog (twoTrianglesAdj 0 1 2 3 4) (5 : Nat) initState
          = some (t, out, L) ∧
        findarticulationpoints (twoTrianglesAdj 0 1 2 3 4) (5 : Nat) initState
          = some (t, out) ∧
        (∀ u, u < 5 → t.articulation u ≠ 0 → t.parent u = -1) ∧
        (∀ u v a, Event.test u v a ∈ L →
          a.low u ≤ a.dfn u ∧ a.dfn u < a.dfn v ∧ ¬ a.low u ≥ a.dfn v) :=
  ⟨by decide, by decide, by decide,
    C18_children_never_marked (twoTrianglesAdj 0 1 2 3 4) 5 (by decide) initState
      (by decide) (by decide)⟩

/-- The run of `findarticulationpoints` on `V` vertices, with the state after its second
loop. -/
theorem findarticulationpoints_run (adj : Adj) (V : Nat) (s : State) :
    ∃ t, rootLoopOrd adj (List.range V) V (resetLoop V s) = some t ∧
      IsReset V (resetLoop V s) ∧
      findarticulationpoints adj V s = some (t, printLoop V t) := by
  obtain ⟨t, h, e⟩ := findarticulationpoints_total adj V s
  have hs := resetLoop_isReset V s
  rw [toNat_cast] at h hs
  exact ⟨t, h, hs, e⟩

/-- C12: for every matrix and `V ≤ 100`, after `findarticulationpoints` entered with
`time = 0` (the program's initial value) every vertex `i < V` is visited and `i ↦ dfn[i]`
is a bijection from `0..V-1` onto `1..V`: values in range, injective, surjective. -/
theorem C12_dfn_bijection (adj : Adj) (V : Nat) (_hV : V ≤ max) (s : State)
    (ht : s.time = 0) :
    ∃ t out, findarticulationpoints adj V s = some (t, out) ∧
      (∀ i, i < V → t.visited i ≠ 0) ∧
      (∀ i, i < V → 1 ≤ t.dfn i ∧ t.dfn i ≤ V) ∧
      (∀ i j, i < V → j < V → t.dfn i = t.dfn j → i = j) ∧
      (∀ k : Int, 1 ≤ k → k ≤ V → ∃ i, i < V ∧ t.dfn i = k) := by
  obtain ⟨t, h, _, e⟩ := findarticulationpoints_run adj V s
  obtain ⟨h1, h2, h3, h4⟩ := findarticulationpoints_dfn adj V s t h
  rw [ht] at h2 h4
  refine ⟨t, _, e, h1, ?_, h3, ?_⟩
  · intro i hi
    have := h2 i hi
    omega
  · intro k hk1 hk2
    exact h4 k (by omega) (by omega)

/-- Witness of C12 on the path `0 - 1 - 2` from the initial globals. -/
theorem C12_dfn_bijection_witness :
    3 ≤ max ∧ initState.time = 0 ∧
      ∃ t out, findarticulationpoints (pathAdj 3) (3 : Nat) initState = some (t, out) ∧
        (∀ i, i < 3 → t.visited i ≠ 0) ∧
        (∀ i, i < 3 → 1 ≤ t.dfn i ∧ t.dfn i ≤ (3 : Nat)) ∧
        (∀ i j, i < 3 → j < 3 → t.dfn i = t.dfn j → i = j) ∧
        (∀ k : Int, 1 ≤ k → k ≤ (3 : Nat) → ∃ i, i < 3 ∧ t.dfn i = k) :=
  ⟨by decide, rfl, C12_dfn_bijection (pathAdj 3) 3 (by decide) initState rfl⟩

/-- C13: for every matrix, `V ≤ 100` and any globals at entry, after
`findarticulationpoints` every `r < V` with `parent[r] = -1` has `articulation[r] = 1` if
and only if two distinct vertices `v < V` have `parent[v] = r`. -/
theorem C13_root_rule (adj : Adj) (V : Nat) (_hV : V ≤ max) (s : State) :
    ∃ t out, findarticulationpoints adj V s = some (t, out) ∧
      ∀ r, r < V → t.parent r = -1 →
        (t.articulation r = 1 ↔
          ∃ v1 v2, v1 < V ∧ v2 < V ∧ v1 ≠ v2 ∧ t.parent v1 = r ∧ t.parent v2 = r) := by
  obtain ⟨t, h, hs, e⟩ := findarticulationpoints_run adj V s
  obtain ⟨hT, hvis⟩ := rootLoopOrd_tree (mem_range_iff V) _ t hs h
  refine ⟨t, _, e, ?_⟩
  intro r hr hp
  rw [hT.root r hr (hvis r hr) hp]
  have hcard : 2 ≤ (kids V r t).card ↔
      ∃ v1 v2, v1 < V ∧ v2 < V ∧ v1 ≠ v2 ∧ t.parent v1 = r ∧ t.parent v2 = r := by
    rw [show (2 ≤ (kids V r t).card) ↔ 1 < (kids V r t).card from Iff.rfl,
      Finset.one_lt_card_iff]
    constructor
    · rintro ⟨a, b, ha, hb, hab⟩
      exact ⟨a, b, (mem_kids.1 ha).1, (mem_kids.1 hb).1, hab, (mem_kids.1 ha).2,
        (mem_kids.1 hb).2⟩
    · rintro ⟨a, b, ha, hb, hab, hpa, hpb⟩
      exact ⟨a, b, mem_kids.2 ⟨ha, hpa⟩, mem_kids.2 ⟨hb, hpb⟩, hab⟩
  rw [← hcard]
  by_cases hc : 2 ≤ (kids V r t).card
  · simp [hc]
  · simp [hc]

/-- Witness of C13 on the star with centre `0` and four vertices. -/
theorem C13_root_rule_witness :
    4 ≤ max ∧
      ∃ t out, findarticulationpoints (starAdj 4 0) (4 : Nat) initState = some (t, out) ∧
        ∀ r, r < 4 → t.parent r = -1 →
          (t.articulation r = 1 ↔
            ∃ v1 v2, v1 < 4 ∧ v2 < 4 ∧ v1 ≠ v2 ∧ t.parent v1 = r ∧ t.parent v2 = r) :=
  ⟨by decide, C13_root_rule (starAdj 4 0) 4 (by decide) initState⟩

/-- C15: for a symmetric matrix, `V ≤ 100` and any globals at entry, after
`findarticulationpoints` every `u < V` is visited, `parent[u] = -1` holds exactly when `u`
has the smallest index of its connected component, and every other vertex has a parent
`p < V` with `adj[p][u]` nonzero, hence in the same component. -/
theorem C15_roots_and_parents (adj : Adj) (V : Nat) (_hV : V ≤ max)
    (hsym : ∀ i j, i < V → j < V → adj i j = adj j i) (s : State) :
    ∃ t out, findarticulationpoints adj V s = some (t, out) ∧
      ∀ u, u < V →
        t.visited u ≠ 0 ∧ (t.parent u = -1 ↔ IsRoot adj V u) ∧
        (t.parent u ≠ -1 → ∃ p : Nat, p < V ∧ t.parent u = p ∧ adj p u ≠ 0 ∧
          Conn adj V (fun _ => False) p u) := by
  obtain ⟨t, h, hs, e⟩ := findarticulationpoints_run adj V s
  obtain ⟨hT, hvis⟩ := rootLoopOrd_tree (mem_range_iff V) _ t hs h
  have hJ := rootLoopOrd_inv hsym (mem_range_iff V) _ t hs h
  refine ⟨t, _, e, ?_⟩
  intro u hu
  refine ⟨hvis u hu, hJ.par_iff u hu (hvis u hu), ?_⟩
  intro hne
  rcases hT.par u hu with h1 | ⟨p, a1, a2, _, _, a5⟩
  · exact absurd h1 hne
  · exact ⟨p, a1, a2, a5,
      Relation.ReflTransGen.single ⟨a1, hu, a5, fun h => h, fun h => h⟩⟩

/-- Witness of C15 on the ring with four vertices. -/
theorem C15_roots_and_parents_witness :
    4 ≤ max ∧
      ∃ t out, findarticulationpoints (ringAdj 4) (4 : Nat) initState = some (t, out) ∧
        ∀ u, u < 4 →
          t.visited u ≠ 0 ∧ (t.parent u = -1 ↔ IsRoot (ringAdj 4) 4 u) ∧
          (t.parent u ≠ -1 → ∃ p : Nat, p < 4 ∧ t.parent u = p ∧ ringAdj 4 p u ≠ 0 ∧
            Conn (ringAdj 4) 4 (fun _ => False) p u) :=
  ⟨by decide, C15_roots_and_parents (ringAdj 4) 4 (by decide)
    (fun i j _ _ => ringAdj_symm 4 i j) initState⟩

/-- C19: for a symmetric matrix, `V ≤ 100` and globals at entry with `0 ≤ time` and
`time + V ≤ INT_MAX` (no `++time` overflows; so it is in the initial globals), every
vertex `u < V` that `findarticulationpoints` leaves with `articulation[u]` nonzero is a
cut vertex: removing it increases the number of connected components. -/
theorem C19_no_false_positives (adj : Adj) (V : Nat) (_hV : V ≤ max)
    (hsym : ∀ i j, i < V → j < V → adj i j = adj j i) (s : State)
    (_h0 : 0 ≤ s.time) (_hT : s.time + V ≤ INT_MAX) :
    ∃ t out, findarticulationpoints adj V s = some (t, out) ∧
      ∀ u, u < V → t.articulation u ≠ 0 → IsCutVertex adj V u := by
  obtain ⟨t, h, hs, e⟩ := findarticulationpoints_run adj V s
  refine ⟨t, _, e, ?_⟩
  intro u hu hm
  exact isCutVertex_of_separates hsym hu
    ((rootLoopOrd_marked_iff hsym (mem_range_iff V) _ t hs h u hu).1 hm).2

/-- Witness of C19 on the star with centre `0` and four vertices. -/
theorem C19_no_false_positives_witness :
    4 ≤ max ∧ 0 ≤ initState.time ∧ initState.time + (4 : Nat) ≤ INT_MAX ∧
      ∃ t out, findarticulationpoints (starAdj 4 0) (4 : Nat) initState = some (t, out) ∧
        ∀ u, u < 4 → t.articulation u ≠ 0 → IsCutVertex (starAdj 4 0) 4 u :=
  ⟨by decide, by decide, by decide, C19_no_false_positives (starAdj 4 0) 4 (by decide)
    (by unfold starAdj; intro i j hi hj; apply if_congr _ rfl rfl; constructor <;>
        rintro ⟨h1, h2, h3, h4⟩ <;> exact ⟨h2, h1, Ne.symm h3, Or.symm h4⟩) initState
    (by decide) (by decide)⟩

/-- C20: for a symmetric matrix, `V ≤ 100` and any globals at entry, after
`findarticulationpoints` every `r < V` that has the smallest index of its component and is
a cut vertex has `articulation[r] = 1`; and for every such smallest-index vertex the
number of vertices with `parent = r` is the number of connected components of its
component without `r`. -/
theorem C20_root_cut_vertex_marked (adj : Adj) (V : Nat) (_hV : V ≤ max)
    (hsym : ∀ i j, i < V → j < V → adj i j = adj j i) (s : State) :
    ∃ t out, findarticulationpoints adj V s = some (t, out) ∧
      (∀ r, r < V → IsRoot adj V r → IsCutVertex adj V r → t.articulation r = 1) ∧
      (∀ r, r < V → IsRoot adj V r →
        HasComponents adj V (OutsideOrSelf adj V r) (kids V r t).card) := by
  obtain ⟨t, h, hs, e⟩ := findarticulationpoints_run adj V s
  have hJ := rootLoopOrd_inv hsym (mem_range_iff V) _ t hs h
  have hvis : ∀ u, u < V → t.visited u ≠ 0 := fun u hu =>
    (hJ.vis_iff u hu).2 ⟨u, hu, Relation.ReflTransGen.refl⟩
  refine ⟨t, _, e, ?_, ?_⟩
  · intro r hr hroot hcut
    have hm : t.articulation r ≠ 0 :=
      (rootLoopOrd_marked_iff hsym (mem_range_iff V) _ t hs h r hr).2
        ⟨hroot, separates_of_isCutVertex hsym hcut⟩
    exact (rootLoopOrd_marked (mem_range_iff V) _ t hs h r hr hm).2.1
  · intro r hr hroot
    exact rootLoopOrd_components hsym (mem_range_iff V) _ t hs h r hr
      ((hJ.par_iff r hr (hvis r hr)).2 hroot)

/-- Witness of C20 on the star with centre `0` and four vertices. -/
theorem C20_root_cut_vertex_marked_witness :
    4 ≤ max ∧
      ∃ t out, findarticulationpoints (starAdj 4 0) (4 : Nat) initState = some (t, out) ∧
        (∀ r, r < 4 → IsRoot (starAdj 4 0) 4 r → IsCutVertex (starAdj 4 0) 4 r →
          t.articulation r = 1) ∧
        (∀ r, r < 4 → IsRoot (starAdj 4 0) 4 r →
          HasComponents (starAdj 4 0) 4 (OutsideOrSelf (starAdj 4 0) 4 r) (kids 4 r t).card) :=
  ⟨by decide, C20_root_cut_vertex_marked (starAdj 4 0) 4 (by decide)
    (by unfold starAdj; intro i j hi hj; apply if_congr _ rfl rfl; constructor <;>
        rintro ⟨h1, h2, h3, h4⟩ <;> exact ⟨h2, h1, Ne.symm h3, Or.symm h4⟩) initState⟩

/-- C14: for every matrix, `V ≤ 100` and any globals at entry, after
`findarticulationpoints` the value `low[u]` of every `u < V` is the minimum of `dfn[u]`
and of the `dfn[w]`, `w < V`, over the pairs `(x, w)` where `x` is `u` or a descendant of
`u` in the `parent` array, `adj[x][w]` is nonzero and `w` is not `parent[x]`: it is a
lower bound of these values and it is one of them. -/
theorem C14_low_is_minimum (adj : Adj) (V : Nat) (_hV : V ≤ max) (s : State) :
    ∃ t out, findarticulationpoints adj V s = some (t, out) ∧
      ∀ u, u < V →
        t.low u ≤ t.dfn u ∧
        (∀ x w, Desc V t u x → w < V → adj x w ≠ 0 → (w : Int) ≠ t.parent x →
          t.low u ≤ t.dfn w) ∧
        (t.low u = t.dfn u ∨
          ∃ x w, Desc V t u x ∧ w < V ∧ adj x w ≠ 0 ∧ (w : Int) ≠ t.parent x ∧
            t.low u = t.dfn w) := by
  obtain ⟨t, h, hs, e⟩ := findarticulationpoints_run adj V s
  have hL := rootLoopOrd_low (mem_range_iff V) _ t hs h
  refine ⟨t, _, e, ?_⟩
  intro u hu
  refine ⟨(hL u hu).le_dfn, ?_, ?_⟩
  · intro x w hd hw haw hne
    obtain ⟨hx, hle⟩ := low_le_of_desc hL hu hd
    exact le_trans hle (((hL x hx).nbr w hw haw).2 hne)
  · rcases (hL u hu).att with h1 | ⟨y, w, a1, _, a3, _, a5, a6, a7⟩
    · exact Or.inl h1
    · exact Or.inr ⟨y, w, a1.toDesc, a3, a5, a6, a7⟩

/-- Witness of C14 on the two triangles `{0, 1, 2}` and `{2, 3, 4}`. -/
theorem C14_low_is_minimum_witness :
    5 ≤ max ∧
      ∃ t out, findarticulationpoints (twoTrianglesAdj 0 1 2 3 4) (5 : Nat) initState
          = some (t, out) ∧
        ∀ u, u < 5 →
          t.low u ≤ t.dfn u ∧
          (∀ x w, Desc 5 t u x → w < 5 → twoTrianglesAdj 0 1 2 3 4 x w ≠ 0 →
            (w : Int) ≠ t.parent x → t.low u ≤ t.dfn w) ∧
          (t.low u = t.dfn u ∨
            ∃ x w, Desc 5 t u x ∧ w < 5 ∧ twoTrianglesAdj 0 1 2 3 4 x w ≠ 0 ∧
              (w : Int) ≠ t.parent x ∧ t.low u = t.dfn w) :=
  ⟨by decide, C14_low_is_minimum (twoTrianglesAdj 0 1 2 3 4) 5 (by decide) initState⟩

end Articulation2
